import Mathlib

/-! # Netpbm: verification of pbm.go, pgm.go and ppm.go

A shallow embedding of the three Go source files.  Conventions:

* a Go `int` is an `Int` (images here are far below the 64-bit range, the
  range only matters where `strconv.Atoi` clamps); in the drawing methods,
  whose points no image bounds, `+` and `-` on `int` wrap around at 64 bits; a
  `uint8` is a `Nat` below 256 and its arithmetic is written with an explicit
  `% 256`;
* a `float64` is the rational that it denotes, and every conversion, quotient
  and sum of `DrawLine` is rounded to the nearest `float64`;
* a slice is a `List`; indexing outside a slice is a run-time panic,
  `Failure.panic`; a non-nil `error` result is `Failure.error`;
* a method that mutates its receiver returns the new value of the receiver;
* a text file is the `List Char` of its contents (valid UTF-8); the operating
  system calls that open, create, read and write files are taken to succeed.
-/

namespace Netpbm

/-! ## Results of Go calls -/

/-- Ways in which a Go call ends without delivering its value: a run-time
panic, or a returned non-nil `error`. -/
inductive Failure where
  | panic (msg : String)
  | error (msg : String)
deriving DecidableEq, Repr

deriving instance DecidableEq for Except

/-- Counted loop `for i := 0; i < n; i++ { s = body i s }`; a failing body
ends the loop with that failure. -/
def forLoop {σ : Type} (n : Nat) (body : Nat → σ → Except Failure σ) (s : σ) :
    Except Failure σ :=
  match n with
  | 0 => .ok s
  | k + 1 =>
    match forLoop k body s with
    | .ok s1 => body k s1
    | .error e => .error e

/-- Read of `d[i][j]`. -/
def getCell {α : Type} (d : List (List α)) (i j : Nat) : Except Failure α :=
  match d[i]? with
  | none => .error (.panic "index out of range")
  | some row =>
    match row[j]? with
    | none => .error (.panic "index out of range")
    | some v => .ok v

/-- Assignment `d[i][j] = v`. -/
def setCell {α : Type} (d : List (List α)) (i j : Nat) (v : α) :
    Except Failure (List (List α)) :=
  match d[i]? with
  | none => .error (.panic "index out of range")
  | some row =>
    if j < row.length then .ok (d.set i (row.set j v))
    else .error (.panic "index out of range")

/-- Update `d[i][j] = f(d[i][j])`: the cell is read, then written. -/
def updateCell {α : Type} (f : α → α) (d : List (List α)) (i j : Nat) :
    Except Failure (List (List α)) :=
  match getCell d i j with
  | .ok v => setCell d i j (f v)
  | .error e => .error e

/-- Index of a slice for a Go `int`: negative values are out of range. -/
def intIndex (k : Int) : Option Nat :=
  if 0 ≤ k then some k.toNat else none

/-- Parallel assignment `d[i][j], d[i][k] = d[i][k], d[i][j]`: both operands are
read, then both cells are written. -/
def swapCells {α : Type} (d : List (List α)) (i j : Nat) (k : Int) :
    Except Failure (List (List α)) :=
  match intIndex k with
  | none => .error (.panic "index out of range")
  | some kn =>
    match getCell d i kn, getCell d i j with
    | .ok vk, .ok vj =>
      match setCell d i j vk with
      | .ok d1 => setCell d1 i kn vj
      | .error e => .error e
    | .error e, _ => .error e
    | _, .error e => .error e

/-- Parallel assignment `l[i], l[j] = l[j], l[i]` on one slice. -/
def swapAt {α : Type} (l : List α) (i : Nat) (j : Int) : Except Failure (List α) :=
  match intIndex j with
  | none => .error (.panic "index out of range")
  | some jn =>
    match l[jn]?, l[i]? with
    | some vj, some vi => .ok ((l.set i vj).set jn vi)
    | _, _ => .error (.panic "index out of range")

/-! ## The three image types -/

/-- The struct `PBM` of pbm.go. -/
structure PBM where
  data : List (List Bool)
  width : Int
  height : Int
  magicNumber : List Char
deriving DecidableEq, Repr

/-- The struct `PGM` of pgm.go; samples and `max` are `uint8`. -/
structure PGM where
  data : List (List Nat)
  width : Int
  height : Int
  magicNumber : List Char
  max : Nat
deriving DecidableEq, Repr

/-- The struct `Pixel` of ppm.go; the channels are `uint8`. -/
structure Pixel where
  R : Nat
  G : Nat
  B : Nat
deriving DecidableEq, Repr

/-- The struct `PPM` of ppm.go. -/
structure PPM where
  data : List (List Pixel)
  width : Int
  height : Int
  magicNumber : List Char
  max : Nat
deriving DecidableEq, Repr

/-- The magic numbers. -/
def P1 : List Char := ['P', '1']
def P2 : List Char := ['P', '2']
def P3 : List Char := ['P', '3']
def P4 : List Char := ['P', '4']
def P5 : List Char := ['P', '5']
def P6 : List Char := ['P', '6']

/-- Shape of a grid: `height` rows of `width` samples each. -/
def gridShape {α : Type} (d : List (List α)) (width height : Int) : Bool :=
  decide ((d.length : Int) = height) && d.all (fun row => decide ((row.length : Int) = width))

/-- A well-formed bitmap: the grid has exactly `height` rows of exactly `width`
samples. -/
def PBM.wellFormed (pbm : PBM) : Bool :=
  gridShape pbm.data pbm.width pbm.height

/-- A well-formed graymap: the grid has the declared shape and `max` and every
sample are `uint8` values. -/
def PGM.wellFormed (pgm : PGM) : Bool :=
  gridShape pgm.data pgm.width pgm.height && decide (pgm.max < 256) &&
    pgm.data.all (fun row => row.all (fun v => decide (v < 256)))

/-- The three channels of a pixel are `uint8` values. -/
def Pixel.isU8 (p : Pixel) : Bool :=
  decide (p.R < 256) && decide (p.G < 256) && decide (p.B < 256)

/-- A well-formed pixmap: the grid has the declared shape and `max` and every
channel are `uint8` values. -/
def PPM.wellFormed (ppm : PPM) : Bool :=
  gridShape ppm.data ppm.width ppm.height && decide (ppm.max < 256) &&
    ppm.data.all (fun row => row.all Pixel.isU8)

/-- Subtraction of two `uint8` values, wrapping modulo 256. -/
def subU8 (a b : Nat) : Nat := (a + 256 - b % 256) % 256

/-! ## Invert -/

/-- `PBM.Invert`, pbm.go 171-177. -/
def PBM.Invert (pbm : PBM) : Except Failure PBM :=
  match forLoop pbm.height.toNat (fun i d =>
      forLoop pbm.width.toNat (fun j d1 => updateCell (fun v => !v) d1 i j) d) pbm.data with
  | .ok d => .ok { pbm with data := d }
  | .error e => .error e

/-- `PGM.Invert`, pgm.go 121-127; the bounds are `len(pgm.data)` and
`len(pgm.data[i])`. -/
def PGM.Invert (pgm : PGM) : Except Failure PGM :=
  match forLoop pgm.data.length (fun i d =>
      forLoop (d.getD i []).length (fun j d1 =>
        updateCell (fun v => subU8 pgm.max v) d1 i j) d) pgm.data with
  | .ok d => .ok { pgm with data := d }
  | .error e => .error e

/-- `PPM.Invert`, ppm.go 166-174; the inner bound is `len(ppm.data[0])`, which
is evaluated only once the outer loop has found a row. -/
def PPM.Invert (ppm : PPM) : Except Failure PPM :=
  match forLoop ppm.data.length (fun i d =>
      forLoop (d.getD 0 []).length (fun j d1 =>
        updateCell (fun v =>
          Pixel.mk (subU8 ppm.max v.R) (subU8 ppm.max v.G) (subU8 ppm.max v.B)) d1 i j) d)
      ppm.data with
  | .ok d => .ok { ppm with data := d }
  | .error e => .error e

/-! ## Flip -/

/-- Inner loop of `PBM.Flip`, pbm.go 182-184:
`for j, k := 0, width-1; j < k; j, k = j+1, k-1`. -/
def PBM.flipRow (d : List (List Bool)) (i j : Nat) (k : Int) :
    Except Failure (List (List Bool)) :=
  if (j : Int) < k then
    match swapCells d i j k with
    | .ok d1 => PBM.flipRow d1 i (j + 1) (k - 1)
    | .error e => .error e
  else .ok d
termination_by (k - j).toNat
decreasing_by omega

/-- `PBM.Flip`, pbm.go 180-186. -/
def PBM.Flip (pbm : PBM) : Except Failure PBM :=
  match forLoop pbm.height.toNat (fun i d => PBM.flipRow d i 0 (pbm.width - 1)) pbm.data with
  | .ok d => .ok { pbm with data := d }
  | .error e => .error e

/-- `PGM.Flip`, pgm.go 130-138.  The source names the width `NumRows` and the
height `NumColumns` and loops over them in that role. -/
def PGM.Flip (pgm : PGM) : Except Failure PGM :=
  let NumRows := pgm.width
  let NumColumns := pgm.height
  match forLoop NumRows.toNat (fun i d =>
      forLoop (NumColumns.tdiv 2).toNat (fun j d1 =>
        swapCells d1 i j (NumColumns - j - 1)) d) pgm.data with
  | .ok d => .ok { pgm with data := d }
  | .error e => .error e

/-- `PPM.Flip`, ppm.go 177-185, written like `PGM.Flip`. -/
def PPM.Flip (ppm : PPM) : Except Failure PPM :=
  let NumRows := ppm.width
  let NumColums := ppm.height
  match forLoop NumRows.toNat (fun i d =>
      forLoop (NumColums.tdiv 2).toNat (fun j d1 =>
        swapCells d1 i j (NumColums - j - 1)) d) ppm.data with
  | .ok d => .ok { ppm with data := d }
  | .error e => .error e

/-! ## Flop -/

/-- Loop of `PBM.Flop`, pbm.go 190-192:
`for i, j := 0, height-1; i < j; i, j = i+1, j-1`. -/
def PBM.flopLoop (d : List (List Bool)) (i : Nat) (j : Int) :
    Except Failure (List (List Bool)) :=
  if (i : Int) < j then
    match swapAt d i j with
    | .ok d1 => PBM.flopLoop d1 (i + 1) (j - 1)
    | .error e => .error e
  else .ok d
termination_by (j - i).toNat
decreasing_by omega

/-- `PBM.Flop`, pbm.go 189-193. -/
def PBM.Flop (pbm : PBM) : Except Failure PBM :=
  match PBM.flopLoop pbm.data 0 (pbm.height - 1) with
  | .ok d => .ok { pbm with data := d }
  | .error e => .error e

/-- Body shared by `PGM.Flop` and `PPM.Flop`:
`for i := 0; i < numRows/2; i++ { data[i], data[numRows-i-1] = ... }` with
`numRows := len(data)`. -/
def flopRows {α : Type} (d : List (List α)) : Except Failure (List (List α)) :=
  let numRows := d.length
  if numRows = 0 then .ok d
  else forLoop (numRows / 2) (fun i d1 => swapAt d1 i ((numRows : Int) - i - 1)) d

/-- `PGM.Flop`, pgm.go 141-149. -/
def PGM.Flop (pgm : PGM) : Except Failure PGM :=
  match flopRows pgm.data with
  | .ok d => .ok { pgm with data := d }
  | .error e => .error e

/-- `PPM.Flop`, ppm.go 188-196. -/
def PPM.Flop (ppm : PPM) : Except Failure PPM :=
  match flopRows ppm.data with
  | .ok d => .ok { ppm with data := d }
  | .error e => .error e

/-! ## Formatting and Save -/

/-- The character of a decimal digit. -/
def digitChar (d : Nat) : Char := Char.ofNat (48 + d)

/-- Digits of `n`, most significant first, in front of `acc`; `fuel` bounds
the number of digits. -/
def fmtNatAux : Nat → Nat → List Char → List Char
  | 0, _, acc => acc
  | fuel + 1, n, acc =>
    if n < 10 then digitChar n :: acc
    else fmtNatAux fuel (n / 10) (digitChar (n % 10) :: acc)

/-- The verb `%d` (and `fmt.Fprint`, `fmt.Fprintln`) on a non-negative integer:
its decimal digits. -/
def fmtNat (n : Nat) : List Char := fmtNatAux (n + 1) n []

/-- The verb `%d` on a Go `int`. -/
def fmtInt (n : Int) : List Char :=
  if n < 0 then '-' :: fmtNat n.natAbs else fmtNat n.toNat

/-- `PBM.Save`, pbm.go 131-168: the bytes written to the file when every write
succeeds, in which case the method returns a nil error.  Pixel data is
written only under `pbm.magicNumber == "P1"`. -/
def PBM.Save (pbm : PBM) : Except Failure (List Char) :=
  let out := pbm.magicNumber ++ ['\n']
  let out := out ++ (fmtInt pbm.width ++ [' '] ++ fmtInt pbm.height ++ ['\n'])
  if pbm.magicNumber = P1 then
    forLoop pbm.height.toNat (fun i out1 =>
      match forLoop pbm.width.toNat (fun j out2 =>
          match getCell pbm.data i j with
          | .ok v => .ok (out2 ++ (if v then ['1', ' '] else ['0', ' ']))
          | .error e => .error e) out1 with
      | .ok out3 => .ok (out3 ++ ['\n'])
      | .error e => .error e) out
  else .ok out

/-- `PGM.Save`, pgm.go 99-118: the bytes written to the file; the method returns
nil.  Both loops range over the slices themselves. -/
def PGM.Save (pgm : PGM) : Except Failure (List Char) :=
  let header := pgm.magicNumber ++ ['\n'] ++ fmtInt pgm.width ++ [' '] ++ fmtInt pgm.height ++
    ['\n'] ++ fmtNat pgm.max ++ ['\n']
  .ok (pgm.data.foldl (fun out row =>
    row.foldl (fun out1 pixel => out1 ++ fmtNat pixel ++ [' ']) out ++ ['\n']) header)

/-- `PPM.Save`, ppm.go 130-163: the bytes written to the file when every write
succeeds; the method then returns `err`, which is nil.  For a pixel with a
channel above `max` the source evaluates `errors.New(...)` and drops the
value: nothing is written for that pixel and `err` is not assigned. -/
def PPM.Save (ppm : PPM) : Except Failure (List Char) :=
  let out := ppm.magicNumber ++ ['\n']
  let out := out ++ (fmtInt ppm.width ++ [' '] ++ fmtInt ppm.height ++ ['\n'])
  let out := out ++ (fmtNat ppm.max ++ ['\n'])
  forLoop ppm.height.toNat (fun y out1 =>
    match forLoop ppm.width.toNat (fun x out2 =>
        match getCell ppm.data y x with
        | .ok v =>
          if v.R > ppm.max ∨ v.G > ppm.max ∨ v.B > ppm.max then .ok out2
          else .ok (out2 ++ (fmtNat v.R ++ [' '] ++ fmtNat v.G ++ [' '] ++ fmtNat v.B ++ [' ']))
        | .error e => .error e) out1 with
    | .ok out3 => .ok (out3 ++ ['\n'])
    | .error e => .error e) out

/-! ## Text helpers of the Go library -/

/-- `unicode.IsSpace`. -/
def isSpace (c : Char) : Bool :=
  let n := c.toNat
  (9 ≤ n && n ≤ 13) || n == 0x20 || n == 0x85 || n == 0xA0 || n == 0x1680 ||
    (0x2000 ≤ n && n ≤ 0x200a) || n == 0x2028 || n == 0x2029 || n == 0x202f ||
    n == 0x205f || n == 0x3000

/-- `strings.TrimSpace`. -/
def TrimSpace (s : List Char) : List Char :=
  ((s.dropWhile isSpace).reverse.dropWhile isSpace).reverse

/-- Worker of `Fields`: `acc` is the current field, reversed. -/
def fieldsAux : List Char → List Char → List (List Char)
  | [], [] => []
  | [], c :: acc => [(c :: acc).reverse]
  | c :: cs, acc =>
    if isSpace c then
      match acc with
      | [] => fieldsAux cs []
      | a :: acc1 => (a :: acc1).reverse :: fieldsAux cs []
    else fieldsAux cs (c :: acc)

/-- `strings.Fields`: the maximal runs of non-space characters. -/
def Fields (s : List Char) : List (List Char) := fieldsAux s []

/-- `strings.HasPrefix(s, "#")`. -/
def isComment (s : List Char) : Bool := s.head? == some '#'

/-- `c` is one of the decimal digits. -/
def isDigit (c : Char) : Bool := 48 ≤ c.toNat && c.toNat ≤ 57

/-- Value of a run of digits that continues the value `k`. -/
def valFold (l : List Char) (k : Nat) : Nat :=
  l.foldl (fun n c => n * 10 + (c.toNat - 48)) k

/-- `strconv.ParseUint(s, 10, 64)` on the characters after the sign, with the
value read so far: `none` is a syntax error; a value that leaves the 64-bit
range stops the scan with the largest `uint64`. -/
def parseDigits : List Char → Nat → Option Nat
  | [], n => some n
  | c :: cs, n =>
    if isDigit c then
      if 2 ^ 64 ≤ n * 10 + (c.toNat - 48) then some (2 ^ 64 - 1)
      else parseDigits cs (n * 10 + (c.toNat - 48))
    else none

/-- `strconv.Atoi`: the value and whether the error is non-nil.  A syntax error
gives 0, a value outside the `int` range the nearest bound. -/
def Atoi (s : List Char) : Int × Bool :=
  let neg := s.head? == some '-'
  let body := if s.head? == some '-' || s.head? == some '+' then s.tail else s
  match body with
  | [] => (0, true)
  | _ :: _ =>
    match parseDigits body 0 with
    | none => (0, true)
    | some un =>
      if !neg && 2 ^ 63 ≤ un then (2 ^ 63 - 1, true)
      else if neg && 2 ^ 63 < un then (-(2 ^ 63), true)
      else (if neg then -(un : Int) else (un : Int), false)

/-- Conversion `uint8(n)` of a Go `int`. -/
def toU8 (n : Int) : Nat := (n % 256).toNat

/-! ## bufio.Scanner with the default line splitter -/

/-- `bufio.MaxScanTokenSize`. -/
def maxScanTokenSize : Nat := 64 * 1024

/-- Number of bytes of a text in UTF-8. -/
def byteLen (s : List Char) : Nat := (s.map Char.utf8Size).sum

/-- Worker of `rawLines`: `acc` is the current line, reversed. -/
def rawLinesAux : List Char → List Char → List (List Char)
  | [], [] => []
  | [], c :: acc => [(c :: acc).reverse]
  | c :: cs, acc =>
    if c = '\n' then acc.reverse :: rawLinesAux cs [] else rawLinesAux cs (c :: acc)

/-- The lines of a file as `bufio.ScanLines` cuts them: each ends at a newline;
text after the last newline is a line when it is not empty. -/
def rawLines (content : List Char) : List (List Char) := rawLinesAux content []

/-- The helper `dropCR` of `bufio.ScanLines`. -/
def dropCR (l : List Char) : List Char :=
  if l.getLast? == some '\r' then l.dropLast else l

/-- One `scanner.Scan()` on the lines still unread: `none` when Scan returns
false, at the end of the input or at a line that does not fit the buffer of
`maxScanTokenSize` bytes (`bufio.ErrTooLong`); otherwise the text of the line
and the lines left. -/
def scan : List (List Char) → Option (List Char × List (List Char))
  | [] => none
  | l :: ls => if maxScanTokenSize ≤ byteLen l then none else some (dropCR l, ls)

/-! ## ReadPBM -/

/-- The closure `readNextLine` of `ReadPBM`, pbm.go 28-37: the next line that is
neither blank nor a comment, trimmed, and the lines left.  At the end of the
input the result is the empty line with a nil error, because `scanner.Err()`
is nil there; a line too long for the scanner is an error. -/
def readNextLine : List (List Char) → Except Failure (List Char × List (List Char))
  | [] => .ok ([], [])
  | l :: ls =>
    if maxScanTokenSize ≤ byteLen l then .error (.error "bufio.Scanner: token too long")
    else
      let line := TrimSpace (dropCR l)
      if line ≠ [] ∧ isComment line = false then .ok (line, ls) else readNextLine ls

/-- Token loop of the P1 branch, pbm.go 71-77: `for j, token := range tokens`
starting at column `j`. -/
def fillRow (d : List (List Bool)) (i : Nat) : List (List Char) → Nat →
    Except Failure (List (List Bool))
  | [], _ => .ok d
  | token :: rest, j =>
    match Atoi token with
    | (_, true) => .error (.error "strconv.Atoi: parsing error")
    | (pixel, false) =>
      match setCell d i j (pixel == 1) with
      | .ok d1 => fillRow d1 i rest (j + 1)
      | .error e => .error e

/-- Row loop of the P1 branch, pbm.go 64-78, on the grid and the unread lines. -/
def readP1Rows (height : Nat) (d : List (List Bool)) (lines : List (List Char)) :
    Except Failure (List (List Bool) × List (List Char)) :=
  forLoop height (fun i st =>
    match readNextLine st.2 with
    | .error e => .error e
    | .ok (line, rest) =>
      match fillRow st.1 i (Fields line) 0 with
      | .ok d1 => .ok (d1, rest)
      | .error e => .error e) (d, lines)

/-- Number of padding bits, pbm.go 81 (`width` is positive there). -/
def paddingBits (width : Nat) : Nat := (8 - width % 8) % 8

/-- Number of bytes per row, pbm.go 83. -/
def bytesPerRow (width : Nat) : Nat := (width + paddingBits width + 7) / 8

/-- `file.Read(buffer)` on a regular file whose bytes from the current offset
on are `unread`: the new buffer and the bytes left.  At the end of the file
the call returns `io.EOF`; a short read leaves the tail of the buffer as it
was. -/
def fileRead (buffer unread : List Nat) : Except Failure (List Nat × List Nat) :=
  if buffer.length = 0 then .ok (buffer, unread)
  else if unread.length = 0 then .error (.error "EOF")
  else
    let n := min buffer.length unread.length
    .ok (unread.take n ++ buffer.drop n, unread.drop n)

/-- Bit loop of the P4 branch, pbm.go 92-98, for row `i`. -/
def unpackRow (width : Nat) (buffer : List Nat) (d : List (List Bool)) (i : Nat) :
    Except Failure (List (List Bool)) :=
  forLoop width (fun j d1 =>
    let byteIndex := j / 8
    let bitIndex := 7 - (j % 8)
    match buffer[byteIndex]? with
    | none => .error (.panic "index out of range")
    | some b => setCell d1 i j (((b >>> bitIndex) &&& 1) == 1)) d

/-- Row loop of the P4 branch, pbm.go 86-99, on the grid, the buffer and the
bytes of the file that are still unread. -/
def readP4Rows (width height : Nat) (d : List (List Bool)) (unread : List Nat) :
    Except Failure (List (List Bool)) :=
  match forLoop height (fun i st =>
      match fileRead st.2.1 st.2.2 with
      | .error e => .error e
      | .ok (buffer, rest) =>
        match unpackRow width buffer st.1 i with
        | .ok d1 => .ok (d1, buffer, rest)
        | .error e => .error e)
      (d, List.replicate (bytesPerRow width) 0, unread) with
  | .ok st => .ok st.1
  | .error e => .error e

/-- `ReadPBM`, pbm.go 19-108, on the text of the file.  `unread` are the bytes
that `file.Read` finds at the offset of the file, which the read-ahead of the
scanner has moved; only the P4 branch uses them.  Inside the guard
`width > 0 && height > 0` both values are used as natural numbers.  The grid
is allocated whatever the sizes are; `ReadPBMFile` adds the limit of `make`
and computes `unread` from the file. -/
def ReadPBM (content : List Char) (unread : List Nat) : Except Failure PBM :=
  match readNextLine (rawLines content) with
  | .error e => .error e
  | .ok (magicNumber, rest) =>
    if magicNumber ≠ P1 ∧ magicNumber ≠ P4 then .error (.error "unsupported file type")
    else
      match readNextLine rest with
      | .error e => .error e
      | .ok (dimensions, rest1) =>
        match Fields dimensions with
        | [t0, t1] =>
          let width := (Atoi t0).1
          let height := (Atoi t1).1
          if 0 < width ∧ 0 < height then
            let data := List.replicate height.toNat (List.replicate width.toNat false)
            if magicNumber = P1 then
              match readP1Rows height.toNat data rest1 with
              | .ok st => .ok ⟨st.1, width, height, magicNumber⟩
              | .error e => .error e
            else
              match readP4Rows width.toNat height.toNat data unread with
              | .ok d => .ok ⟨d, width, height, magicNumber⟩
              | .error e => .error e
          else .ok ⟨[], width, height, magicNumber⟩
        | _ => .error (.error "invalid image dimensions")

/-! ## ReadPGM -/

/-- `scanner.Scan()` with its result ignored, followed by `scanner.Text()`: the
text is empty when Scan returned false.  A Scan that follows a failed Scan is
taken to fail again. -/
def scanText (lines : List (List Char)) : List Char × List (List Char) :=
  match scan lines with
  | none => ([], lines)
  | some (text, rest) => (text, rest)

/-- Value of a run of decimal digits. -/
def digitsValue (ds : List Char) : Nat := valFold ds 0

/-- One verb `%d` of `fmt.Sscanf` on a text without newline: leading spaces are
skipped, then an optional sign and at least one decimal digit are read; the
value has to fit 64 bits.  The result is the value and the text left. -/
def scanInt (s : List Char) : Option (Int × List Char) :=
  let s1 := s.dropWhile isSpace
  let neg := s1.head? == some '-'
  let s2 := if s1.head? == some '-' || s1.head? == some '+' then s1.tail else s1
  match s2.takeWhile isDigit with
  | [] => none
  | d :: ds =>
    let v : Int := if neg then -(digitsValue (d :: ds) : Int) else (digitsValue (d :: ds) : Int)
    if -(2 ^ 63) ≤ v ∧ v < 2 ^ 63 then some (v, s2.dropWhile isDigit) else none

/-- `fmt.Sscanf(line, "%d %d", &width, &height)`: the new values of the two
variables and whether the error is non-nil.  The space of the format needs a
space in the input; a variable is assigned as soon as its number is read. -/
def Sscanf (line : List Char) (width height : Int) : Int × Int × Bool :=
  match scanInt line with
  | none => (width, height, true)
  | some (w, rest) =>
    match rest with
    | [] => (w, height, true)
    | c :: _ =>
      if isSpace c then
        match scanInt rest with
        | none => (w, height, true)
        | some (h, _) => (w, h, false)
      else (w, height, true)

/-- Loop of `ReadPGM` that reads the dimensions, pgm.go 37-47: it ends at the
first line that is no comment and scans as two integers, or when Scan returns
false. -/
def readDims : List (List Char) → Int → Int → Int × Int × List (List Char)
  | [], width, height => (width, height, [])
  | l :: ls, width, height =>
    if maxScanTokenSize ≤ byteLen l then (width, height, l :: ls)
    else if isComment (dropCR l) then readDims ls width height
    else
      match Sscanf (dropCR l) width height with
      | (w, h, false) => (w, h, ls)
      | (w, h, true) => readDims ls w h

/-- Token loop of a P2 line, pgm.go 58-69, on the tokens of the line and the
row built so far: a token is appended when its value lies in `[0, max]`. -/
def decodeRow (max : Int) : List (List Char) → List Nat → List Nat
  | [], row => row
  | token :: rest, row =>
    let pixel := (Atoi token).1
    if 0 ≤ pixel ∧ pixel ≤ max then decodeRow max rest (row ++ [toU8 pixel])
    else decodeRow max rest row

/-- Pixel loop of `ReadPGM`, pgm.go 55-72: under magic number P2 every line
left appends one row; other lines are read and dropped. -/
def readPGMRows (magicNumber : List Char) (max : Int) :
    List (List Char) → List (List Nat) → List (List Nat)
  | [], data => data
  | l :: ls, data =>
    if maxScanTokenSize ≤ byteLen l then data
    else if magicNumber = P2 then
      readPGMRows magicNumber max ls (data ++ [decodeRow max (Fields (dropCR l)) []])
    else readPGMRows magicNumber max ls data

/-- `ReadPGM`, pgm.go 20-81, on the text of the file. -/
def ReadPGM (content : List Char) : Except Failure PGM :=
  let (magicNumber, rest) := scanText (rawLines content)
  if magicNumber ≠ P2 ∧ magicNumber ≠ P5 then .error (.error "unsupported file type")
  else
    let (width, height, rest1) := readDims rest 0 0
    let (maxText, rest2) := scanText rest1
    match Atoi maxText with
    | (_, true) => .error (.error "invalid maximum pixel value")
    | (max, false) =>
      .ok ⟨readPGMRows magicNumber max rest2 [], width, height, magicNumber, toU8 max⟩

/-! ## ReadPPM -/

/-- `strings.Contains(s, sub)`. -/
def containsSub (sub : List Char) : List Char → Bool
  | [] => sub.isEmpty
  | c :: cs => sub.isPrefixOf (c :: cs) || containsSub sub cs

/-- Worker of `splitOn`: `acc` is the current piece, reversed, and `skip` the
number of characters of a separator just found that are still to be passed. -/
def splitOnAux (sep : List Char) : List Char → List Char → Nat → List (List Char)
  | [], acc, _ => [acc.reverse]
  | c :: cs, acc, 0 =>
    if sep.isPrefixOf (c :: cs) then acc.reverse :: splitOnAux sep cs [] (sep.length - 1)
    else splitOnAux sep cs (c :: acc) 0
  | _ :: cs, acc, skip + 1 => splitOnAux sep cs acc skip

/-- `strings.SplitN(s, sep, -1)` for a separator that is not empty. -/
def splitOn (sep : List Char) (s : List Char) : List (List Char) := splitOnAux sep s [] 0

/-- Variables of the header loop of `ReadPPM`. -/
structure HeaderVars where
  magicNumber : List Char
  width : Int
  height : Int
  maxval : Int
  counter : Nat
  headersize : Nat
  err : Bool
deriving DecidableEq, Repr

/-- One round of the header loop of `ReadPPM`, ppm.go 48-77, on the line
`splitfile[i]`. -/
def headerStep (vars : HeaderVars) (line : List Char) : HeaderVars :=
  let v1 : HeaderVars :=
    if containsSub P3 line then { vars with magicNumber := P3 }
    else if containsSub P6 line then { vars with magicNumber := P6 }
    else vars
  let v2 : HeaderVars :=
    if isComment line && v1.maxval != 0 then { v1 with headersize := v1.counter } else v1
  let splitl := splitOn [' '] line
  let v3 : HeaderVars :=
    match splitl with
    | t0 :: t1 :: _ =>
      if v2.width == 0 && v2.height == 0 then
        { v2 with width := (Atoi t0).1, height := (Atoi t1).1, err := (Atoi t1).2,
                  headersize := v2.counter }
      else v2
    | _ => v2
  let v4 : HeaderVars :=
    if v3.maxval == 0 && v3.width != 0 then
      { v3 with maxval := (Atoi line).1, err := (Atoi line).2, headersize := v3.counter }
    else v3
  { v4 with counter := v4.counter + 1 }

/-- A sample of the P3 payload, ppm.go 91-102: the value of the token, lowered
to `maxval` when it is larger, as a `uint8`. -/
def clampSample (maxval : Int) (token : List Char) : Nat :=
  let r := (Atoi token).1
  toU8 (if r > maxval then maxval else r)

/-- Row `i` of the pixel loop of `ReadPPM`, ppm.go 89-104. -/
def readPPMRow (splitfile : List (List Char)) (headersize : Nat) (width : Nat) (maxval : Int)
    (i : Nat) (d : List (List Pixel)) : Except Failure (List (List Pixel)) :=
  match splitfile[headersize + 1 + i]? with
  | none => .error (.panic "index out of range")
  | some line =>
    let splitdata := splitOn [' '] line
    forLoop width (fun x d1 =>
      match splitdata[3 * x]?, splitdata[3 * x + 1]?, splitdata[3 * x + 2]? with
      | some tr, some tg, some tb =>
        setCell d1 i x ⟨clampSample maxval tr, clampSample maxval tg, clampSample maxval tb⟩
      | _, _, _ => .error (.panic "index out of range")) d

/-- `ReadPPM`, ppm.go 24-110, on the text of the file: the image and whether
the returned error is non-nil.  The function returns both; the error is the
one of the last `strconv.Atoi` of the header loop. -/
def ReadPPM (content : List Char) : Except Failure (PPM × Bool) :=
  let splitfile :=
    if containsSub ['\r'] content then splitOn ['\r', '\n'] content
    else splitOn ['\n'] content
  let vars := splitfile.foldl headerStep ⟨[], 0, 0, 0, 0, 0, false⟩
  if vars.height < 0 then .error (.panic "makeslice: len out of range")
  else if 0 < vars.height ∧ vars.width < 0 then .error (.panic "makeslice: len out of range")
  else
    let data := List.replicate vars.height.toNat (List.replicate vars.width.toNat (Pixel.mk 0 0 0))
    let filled :=
      if vars.counter > vars.headersize then
        forLoop vars.height.toNat
          (readPPMRow splitfile vars.headersize vars.width.toNat vars.maxval) data
      else .ok data
    match filled with
    | .ok d => .ok (⟨d, vars.width, vars.height, vars.magicNumber, toU8 vars.maxval⟩, vars.err)
    | .error e => .error e

/-! ## The layout of a P1 file -/

/-- Text of one row as `PBM.Save` writes it: `1` or `0` and a space for every
sample. -/
def rowText : List Bool → List Char
  | [] => []
  | b :: r => (if b then '1' else '0') :: ' ' :: rowText r

/-- Text of the payload: every row followed by a newline. -/
def rowsText : List (List Bool) → List Char
  | [] => []
  | r :: rs => rowText r ++ '\n' :: rowsText rs

/-- Text of a P1 file with the header `width height` and the given rows, which
need not have `width` samples. -/
def p1Text (width height : Nat) (rows : List (List Bool)) : List Char :=
  P1 ++ '\n' :: (fmtNat width ++ ' ' :: (fmtNat height ++ '\n' :: rowsText rows))

/-- A row filled up with `false` to `width` samples. -/
def padRow (width : Nat) (r : List Bool) : List Bool :=
  r ++ List.replicate (width - r.length) false

/-- Concatenation `f 0 ++ f 1 ++ ... ++ f (n - 1)`: what a counted loop that
appends `f i` in round `i` has written after `n` rounds. -/
def concatUpTo (f : Nat → List Char) : Nat → List Char
  | 0 => []
  | n + 1 => concatUpTo f n ++ f n

/-! ## Sample images -/

/-- A 1 x 3 bitmap, a 1 x 3 graymap and a 2 x 2 pixmap used to instantiate the
general statements. -/
def sampleBitmap : PBM := ⟨[[true], [false], [false]], 1, 3, P1⟩
def sampleGraymap : PGM := ⟨[[7], [0], [200]], 1, 3, P2, 255⟩
def samplePixmap : PPM :=
  ⟨[[⟨1, 2, 3⟩, ⟨4, 5, 6⟩], [⟨7, 8, 9⟩, ⟨250, 0, 255⟩]], 2, 2, P3, 255⟩

/-- A 1 x 1 bitmap with magic number P4. -/
def binaryBitmap : PBM := ⟨[[true]], 1, 1, P4⟩

/-- A 1 x 1 pixmap and a 1 x 1 graymap with max 10 holding the sample 200. -/
def overflowPixmap : PPM := ⟨[[⟨200, 0, 0⟩]], 1, 1, P3, 10⟩
def overflowGraymap : PGM := ⟨[[200]], 1, 1, P2, 10⟩

/-- Graymaps and pixmaps that are not square: 2 wide and 1 high, 1 wide and 2
high. -/
def wideGraymap : PGM := ⟨[[1, 2]], 2, 1, P2, 255⟩
def tallGraymap : PGM := ⟨[[1], [2]], 1, 2, P2, 255⟩
def widePixmap : PPM := ⟨[[⟨1, 1, 1⟩, ⟨2, 2, 2⟩]], 2, 1, P3, 255⟩
def tallPixmap : PPM := ⟨[[⟨1, 1, 1⟩], [⟨2, 2, 2⟩]], 1, 2, P3, 255⟩

/-- A bitmap of width 0 and height 1: one row without samples. -/
def emptyRowBitmap : PBM := ⟨[[]], 0, 1, P1⟩

/-- A 3 x 2 bitmap with magic number P1. -/
def asciiBitmap : PBM := ⟨[[true, false, true], [false, false, true]], 3, 2, P1⟩

/-- A P2 text whose payload line holds the token 300 under max 255. -/
def overMaxText : List Char := "P2\n2 1\n255\n300 7\n".toList

/-- A text whose first line is `P7`, otherwise laid out like a P3 file. -/
def unknownMagicText : List Char := "P7\n1 1\n255\n0 0 0\n".toList

/-! ## Size, Rotate90CW -/

/-- `PGM.Size`, pgm.go 84-86. -/
def PGM.Size (pgm : PGM) : Int × Int := (pgm.width, pgm.height)

/-- `PPM.Size`, ppm.go 113-115. -/
def PPM.Size (ppm : PPM) : Int × Int := (ppm.width, ppm.height)

/-- Body shared by `PGM.Rotate90CW` and `PPM.Rotate90CW`: `NumRows` slices
`make([]T, NumColumns)` are appended to `newData`, then
`newData[i][j] = data[pivot-j-1][i]` for `i < NumRows` and `j < NumColumns`.
The two methods differ in `pivot` only. -/
def rotateGrid {α : Type} (zero : α) (data : List (List α)) (NumRows NumColumns pivot : Int) :
    Except Failure (List (List α)) :=
  if 0 < NumRows ∧ NumColumns < 0 then .error (.panic "makeslice: len out of range")
  else
    forLoop NumRows.toNat (fun i nd =>
      forLoop NumColumns.toNat (fun j nd1 =>
        match intIndex (pivot - j - 1) with
        | none => .error (.panic "index out of range")
        | some r =>
          match getCell data r i with
          | .ok v => setCell nd1 i j v
          | .error e => .error e) nd)
      (List.replicate NumRows.toNat (List.replicate NumColumns.toNat zero))

/-- `PGM.Rotate90CW`, pgm.go 169-183: the source reads `pgm.data[NumRows-j-1][i]`
with `NumRows := pgm.width`, and assigns `pgm.data` only. -/
def PGM.Rotate90CW (pgm : PGM) : Except Failure PGM :=
  let NumRows := pgm.width
  let NumColumns := pgm.height
  match rotateGrid 0 pgm.data NumRows NumColumns NumRows with
  | .ok newData => .ok { pgm with data := newData }
  | .error e => .error e

/-- `PPM.Rotate90CW`, ppm.go 218-232: the source reads
`ppm.data[NumColumns-j-1][i]` with `NumColumns := ppm.height`, and assigns
`ppm.data` only. -/
def PPM.Rotate90CW (ppm : PPM) : Except Failure PPM :=
  let NumRows := ppm.width
  let NumColumns := ppm.height
  match rotateGrid (Pixel.mk 0 0 0) ppm.data NumRows NumColumns NumColumns with
  | .ok newData => .ok { ppm with data := newData }
  | .error e => .error e

/-! ## SetMaxValue -/

/-- `PGM.SetMaxValue`, pgm.go 157-166: every sample becomes
`data[i][j] * uint8(5) / oldmax` in `uint8` arithmetic; the division panics
when `oldmax` is 0. -/
def PGM.SetMaxValue (pgm : PGM) (maxValue : Nat) : Except Failure PGM :=
  let oldmax := pgm.max
  match forLoop pgm.height.toNat (fun i d =>
      forLoop pgm.width.toNat (fun j d1 =>
        match getCell d1 i j with
        | .ok v =>
          if oldmax = 0 then .error (.panic "integer divide by zero")
          else setCell d1 i j ((v * 5 % 256) / oldmax)
        | .error e => .error e) d) pgm.data with
  | .ok d => .ok { pgm with data := d, max := maxValue }
  | .error e => .error e

/-- The expression `uint8(float64(v) * float64(max) / float64(oldmax))` of
`PPM.SetMaxValue` for `uint8` operands.  The product is below `2 ^ 16` and
exact in `float64`; the quotient of two such integers, rounded to `float64`,
is an integer exactly when the division has no remainder and otherwise lies
strictly between the two neighbouring integers (the remainder is at least
`1 / 255`, the rounding error below `2 ^ -36`), so the conversion, which
drops the fraction, gives the integer quotient.  When `oldmax` is 0 or the
quotient is 256 or more, the `float64` value is outside the range of `uint8`
and Go leaves the result to the implementation: `other` gives it. -/
def rescaleU8 (other : Nat → Nat → Nat → Nat) (v max oldmax : Nat) : Nat :=
  if oldmax = 0 ∨ 256 ≤ v * max / oldmax then other v max oldmax % 256
  else v * max / oldmax

/-- `PPM.SetMaxValue`, ppm.go 204-215; `other` is the result of the
conversions to `uint8` that Go leaves to the implementation (see
`rescaleU8`). -/
def PPM.SetMaxValue (other : Nat → Nat → Nat → Nat) (ppm : PPM) (maxValue : Nat) :
    Except Failure PPM :=
  let oldmax := ppm.max
  match forLoop ppm.height.toNat (fun i d =>
      forLoop ppm.width.toNat (fun j d1 =>
        updateCell (fun v =>
          Pixel.mk (rescaleU8 other v.R maxValue oldmax) (rescaleU8 other v.G maxValue oldmax)
            (rescaleU8 other v.B maxValue oldmax)) d1 i j) d) ppm.data with
  | .ok d => .ok { ppm with data := d, max := maxValue }
  | .error e => .error e

/-- The value `round(sample * new_max / old_max)` of the specification: the
nearest integer, halves upwards. -/
def roundedRescale (sample newMax oldMax : Nat) : Nat :=
  (2 * sample * newMax + oldMax) / (2 * oldMax)

/-! ## Conversions between the families -/

/-- Body shared by `PPM.ToPGM`, `PGM.ToPBM` and `PPM.ToPBM`:
`newData = make([][]T, NumColumns)`, then for `i < NumColumns` the row
`newData[i] = make([]T, NumRows)` and `newData[i][j] = f(data[i][j])` for
`j < NumRows`. -/
def convertGrid {α β : Type} (f : α → β) (zero : β) (data : List (List α))
    (NumRows NumColumns : Int) : Except Failure (List (List β)) :=
  if NumColumns < 0 then .error (.panic "makeslice: len out of range")
  else
    forLoop NumColumns.toNat (fun i nd =>
      if NumRows < 0 then .error (.panic "makeslice: len out of range")
      else
        forLoop NumRows.toNat (fun j nd1 =>
          match getCell data i j with
          | .ok v => setCell nd1 i j (f v)
          | .error e => .error e) (nd.set i (List.replicate NumRows.toNat zero)))
      (List.replicate NumColumns.toNat [])

/-- The gray value `uint8((int(R) + int(G) + int(B)) / 3)`. -/
def grayOf (p : Pixel) : Nat := ((p.R + p.G + p.B) / 3) % 256

/-- `PPM.ToPGM`, ppm.go 235-253. -/
def PPM.ToPGM (ppm : PPM) : Except Failure PGM :=
  let newNumber := if ppm.magicNumber = P3 then P2 else if ppm.magicNumber = P6 then P5 else []
  let NumRows := ppm.width
  let NumColumns := ppm.height
  match convertGrid grayOf 0 ppm.data NumRows NumColumns with
  | .ok newData => .ok ⟨newData, NumRows, NumColumns, newNumber, ppm.max⟩
  | .error e => .error e

/-- `PGM.ToPBM`, pgm.go 186-203: the bit is `data[i][j] < pgm.max/2`, a division
of `uint8` values. -/
def PGM.ToPBM (pgm : PGM) : Except Failure PBM :=
  let newNumber := if pgm.magicNumber = P2 then P1 else if pgm.magicNumber = P5 then P4 else []
  let NumRows := pgm.width
  let NumColumns := pgm.height
  match convertGrid (fun v => decide (v < pgm.max / 2)) false pgm.data NumRows NumColumns with
  | .ok newData => .ok ⟨newData, NumRows, NumColumns, newNumber⟩
  | .error e => .error e

/-- `PPM.ToPBM`, ppm.go 256-278. -/
def PPM.ToPBM (ppm : PPM) : Except Failure PBM :=
  let newNumber := if ppm.magicNumber = P3 then P1 else if ppm.magicNumber = P6 then P4 else []
  let NumRows := ppm.width
  let NumColumns := ppm.height
  match convertGrid (fun p => decide (grayOf p < ppm.max / 2)) false ppm.data NumRows
      NumColumns with
  | .ok newData => .ok ⟨newData, NumRows, NumColumns, newNumber⟩
  | .error e => .error e

/-! ## Pixel access of PBM -/

/-- `PBM.At`, pbm.go 116-121: the guard joins the test of `x` and the test of
`y` with `||`. -/
def PBM.At (pbm : PBM) (x y : Int) : Except Failure Bool :=
  if (0 ≤ x ∧ x < pbm.width) ∨ (0 ≤ y ∧ y < pbm.height) then
    match intIndex y, intIndex x with
    | some yn, some xn => getCell pbm.data yn xn
    | _, _ => .error (.panic "index out of range")
  else .ok false

/-- `PBM.Set`, pbm.go 124-128. -/
def PBM.Set (pbm : PBM) (x y : Int) (value : Bool) : Except Failure PBM :=
  if 0 ≤ x ∧ x < pbm.width ∧ 0 ≤ y ∧ y < pbm.height then
    match setCell pbm.data y.toNat x.toNat value with
    | .ok d => .ok { pbm with data := d }
    | .error e => .error e
  else .ok pbm

/-! ## Drawing -/

/-- The struct `Point` of ppm.go. -/
structure Point where
  X : Int
  Y : Int
deriving DecidableEq, Repr

/-- `PPM.Set`, ppm.go 123-127. -/
def PPM.Set (ppm : PPM) (x y : Int) (value : Pixel) : Except Failure PPM :=
  if 0 ≤ x ∧ x < ppm.width ∧ 0 ≤ y ∧ y < ppm.height then
    match setCell ppm.data y.toNat x.toNat value with
    | .ok d => .ok { ppm with data := d }
    | .error e => .error e
  else .ok ppm

/-- Conversion `int(f)` of a `float64` inside the range of `int`: the fraction
is dropped. -/
def truncToInt (q : ℚ) : Int := if 0 ≤ q then ⌊q⌋ else ⌈q⌉

/-- The integer nearest to a rational; of two that are equally near, the even
one. -/
def roundHalfEven (q : ℚ) : Int :=
  let f := ⌊q⌋
  if q - f < 1 / 2 then f
  else if 1 / 2 < q - f then f + 1
  else if f % 2 = 0 then f else f + 1

/-- The `float64` that a real result is rounded to (IEEE 754 binary64, round
to nearest, ties to even): 53 significant bits, the exponent of the leading
bit at least -1022.  A `float64` is the rational that it denotes.  Results of
`2 ^ 1024` and more, which round to an infinity, do not arise from operands
that come from 64-bit integers. -/
def roundFloat64 (q : ℚ) : ℚ :=
  if q = 0 then 0
  else
    let e : Int := max (Int.log 2 |q|) (-1022)
    let ulp : ℚ := 2 ^ (e - 52)
    (roundHalfEven (q / ulp) : ℚ) * ulp

/-- Arithmetic of the 64-bit `int`: the result of `+` and `-` wraps around. -/
def wrapInt64 (n : Int) : Int := (n + 2 ^ 63) % 2 ^ 64 - 2 ^ 63

/-- Conversion `int(f)` of a `float64`: the fraction is dropped; for a value
outside the range of `int` the result depends on the implementation and is
`other f`. -/
def floatToInt (other : ℚ → Int) (f : ℚ) : Int :=
  if -(2 ^ 63) ≤ truncToInt f ∧ truncToInt f < 2 ^ 63 then truncToInt f else other f

/-- Body of the loop of `PPM.DrawLine`, ppm.go 299-301, on the image and the
variables `x` and `y`: `ppm.Set(int(x), int(y), color)`, then both increments
are added in `float64`. -/
def PPM.drawStep (other : ℚ → Int) (color : Pixel) (xIncrement yIncrement : ℚ)
    (st : PPM × ℚ × ℚ) : Except Failure (PPM × ℚ × ℚ) :=
  match PPM.Set st.1 (floatToInt other st.2.1) (floatToInt other st.2.2) color with
  | .ok p => .ok (p, roundFloat64 (st.2.1 + xIncrement), roundFloat64 (st.2.2 + yIncrement))
  | .error e => .error e

/-- `PPM.DrawLine`, ppm.go 286-303, with the arithmetic of the source: the
differences are taken in `int`, every conversion to `float64`, every quotient
and every sum is rounded to a `float64`, and `int(...)` drops the fraction.
`other` is the conversion of an implementation for values outside `int`.  With
`steps = 0` the quotients of the source are NaN or infinite; they are added to
`x` and `y` only after the single call of `Set`, so the value 0 that the
division by zero has here is never converted.  For `steps` equal to the
largest `int`, which only `other` can return, the loop of the source does not
end. -/
def PPM.DrawLine (other : ℚ → Int) (ppm : PPM) (p1 p2 : Point) (color : Pixel) :
    Except Failure PPM :=
  let dx : ℚ := roundFloat64 (wrapInt64 (p2.X - p1.X))
  let dy : ℚ := roundFloat64 (wrapInt64 (p2.Y - p1.Y))
  let steps : Int := floatToInt other (Max.max (abs dx) (abs dy))
  let xIncrement : ℚ := roundFloat64 (dx / roundFloat64 steps)
  let yIncrement : ℚ := roundFloat64 (dy / roundFloat64 steps)
  match forLoop (steps + 1).toNat
      (fun _ st => PPM.drawStep other color xIncrement yIncrement st)
      (ppm, roundFloat64 p1.X, roundFloat64 p1.Y) with
  | .ok st => .ok st.1
  | .error e => .error e

/-- `PPM.DrawRectangle`, ppm.go 305-316. -/
def PPM.DrawRectangle (other : ℚ → Int) (ppm : PPM) (p1 : Point) (width height : Int)
    (color : Pixel) : Except Failure PPM :=
  let p2 : Point := ⟨wrapInt64 (p1.X + width), p1.Y⟩
  match PPM.DrawLine other ppm p1 p2 color with
  | .error e => .error e
  | .ok a =>
    let p3 : Point := ⟨p2.X, wrapInt64 (p2.Y + height)⟩
    match PPM.DrawLine other a p2 p3 color with
    | .error e => .error e
    | .ok b =>
      let p4 : Point := ⟨p1.X, wrapInt64 (p1.Y + height)⟩
      match PPM.DrawLine other b p3 p4 color with
      | .error e => .error e
      | .ok c => PPM.DrawLine other c p4 p1 color

/-- `PPM.DrawFilledRectangle`, ppm.go 319-326: the rectangle, then `Set(i, j)`
for `p1.Y + 1 <= j < p1.Y + height` and `p1.X + 1 <= i < p1.X + width`, the
bounds taken in `int`. -/
def PPM.DrawFilledRectangle (other : ℚ → Int) (ppm : PPM) (p1 : Point) (width height : Int)
    (color : Pixel) : Except Failure PPM :=
  match PPM.DrawRectangle other ppm p1 width height color with
  | .error e => .error e
  | .ok a =>
    forLoop (wrapInt64 (p1.Y + height) - wrapInt64 (p1.Y + 1)).toNat (fun jj b =>
      forLoop (wrapInt64 (p1.X + width) - wrapInt64 (p1.X + 1)).toNat (fun ii c =>
        PPM.Set c (wrapInt64 (p1.X + 1) + ii) (wrapInt64 (p1.Y + 1) + jj) color) b) a

/-! ## More sample images -/

/-- A 3 x 1 graymap with max 255 and the samples 126, 127, 128. -/
def midpointGraymap : PGM := ⟨[[126, 127, 128]], 3, 1, P2, 255⟩

/-- A choice for the conversions that Go leaves to the implementation, used to
evaluate `PPM.SetMaxValue` on inputs where no such conversion occurs. -/
def zeroConversion : Nat → Nat → Nat → Nat := fun _ _ _ => 0

/-- A 1 x 1 pixmap with max 3 holding the sample 2. -/
def thirdsPixmap : PPM := ⟨[[⟨2, 2, 2⟩]], 1, 1, P3, 3⟩

/-- A 1 x 1 graymap with max 3 holding the sample 2. -/
def thirdsGraymap : PGM := ⟨[[2]], 1, 1, P2, 3⟩

/-- A 1 x 1 pixmap with max 255 holding the sample 100. -/
def midGrayPixmap : PPM := ⟨[[⟨100, 100, 100⟩]], 1, 1, P3, 255⟩

/-- A 1 x 1 pixmap with max 200 and the channels 1, 100 and 200: rescaled to
max 255 and back, the first two channels come back one below. -/
def dimPixmap : PPM := ⟨[[⟨1, 100, 200⟩]], 1, 1, P3, 200⟩

/-- A 1 x 1 bitmap. -/
def unitBitmap : PBM := ⟨[[true]], 1, 1, P1⟩

/-- `PPM.At`, ppm.go 118-120. -/
def PPM.At (ppm : PPM) (x y : Int) : Except Failure Pixel :=
  match intIndex y, intIndex x with
  | some yn, some xn => getCell ppm.data yn xn
  | _, _ => .error (.panic "index out of range")

/-- The lattice points of a segment along an axis: `x` lies between `p1.X` and
`p2.X` and `y` between `p1.Y` and `p2.Y`.  For `p1.X = p2.X` or `p1.Y = p2.Y`
these are the `max(|dx|, |dy|) + 1` points from `p1` to `p2`. -/
def onAxisSegment (p1 p2 : Point) (x y : Int) : Prop :=
  ((p1.X ≤ x ∧ x ≤ p2.X) ∨ (p2.X ≤ x ∧ x ≤ p1.X)) ∧
    ((p1.Y ≤ y ∧ y ≤ p2.Y) ∨ (p2.Y ≤ y ∧ y ≤ p1.Y))

/-- The image `q` is the image `p` with the pixels of the set `S` that lie
inside the grid set to `color`: same width, height, magic number and max, a
grid of that shape, and every pixel inside the grid holds `color` when it is
in `S` and its old value otherwise. -/
def Painted (p q : PPM) (S : Int → Int → Prop) (color : Pixel) : Prop :=
  q.width = p.width ∧ q.height = p.height ∧ q.magicNumber = p.magicNumber ∧ q.max = p.max ∧
    gridShape q.data q.width q.height = true ∧
    ∀ x y : Int, 0 ≤ x → x < p.width → 0 ≤ y → y < p.height →
      (S x y → q.At x y = .ok color) ∧ (¬ S x y → q.At x y = p.At x y)

/-- Coordinates of a point that are at most `2 ^ 52` in absolute value: between
two such points every difference, step and sum of `DrawLine` along an axis is
an integer of at most `2 ^ 53`, which `float64` represents. -/
def floatExact (p : Point) : Prop :=
  -(2 ^ 52) ≤ p.X ∧ p.X ≤ 2 ^ 52 ∧ -(2 ^ 52) ≤ p.Y ∧ p.Y ≤ 2 ^ 52

/-- The result of `int(f)` on amd64 for a value outside the range of `int`:
the smallest `int`. -/
def int64Indefinite : ℚ → Int := fun _ => -(2 ^ 63)

/-- A 1 x 1 pixmap with max 255 whose pixel is black. -/
def dotPixmap : PPM := ⟨[[⟨0, 0, 0⟩]], 1, 1, P3, 255⟩

/-- A 5 x 2 pixmap with all channels 0. -/
def stripePixmap : PPM := ⟨List.replicate 2 (List.replicate 5 ⟨0, 0, 0⟩), 5, 2, P3, 255⟩

/-- A 4 x 3 pixmap with all channels 0. -/
def canvasPixmap : PPM := ⟨List.replicate 3 (List.replicate 4 ⟨0, 0, 0⟩), 4, 3, P3, 255⟩

/-! ## Pixel access of PGM -/

/-- `PGM.At`, pgm.go 89-91: `return pgm.data[x][y]`, the first index is `x`. -/
def PGM.At (pgm : PGM) (x y : Int) : Except Failure Nat :=
  match intIndex x, intIndex y with
  | some xn, some yn => getCell pgm.data xn yn
  | _, _ => .error (.panic "index out of range")

/-- `PGM.Set`, pgm.go 94-96: `pgm.data[x][y] = value`, the first index is `x`. -/
def PGM.Set (pgm : PGM) (x y : Int) (value : Nat) : Except Failure PGM :=
  match intIndex x, intIndex y with
  | some xn, some yn =>
    match setCell pgm.data xn yn value with
    | .ok d => .ok { pgm with data := d }
    | .error e => .error e
  | _, _ => .error (.panic "index out of range")

/-- A 3 x 2 graymap with max 255: the rows 1, 2, 3 and 4, 5, 6. -/
def sixGraymap : PGM := ⟨[[1, 2, 3], [4, 5, 6]], 3, 2, P2, 255⟩

/-! ## ReadPBM on a file: allocation limit and file offset -/

/-- The constant `runtime.maxAlloc` of the 64-bit platforms (48 address bits):
`make` of a slice that needs more bytes panics. -/
def maxAlloc : Nat := 2 ^ 48

/-- `make([]T, n)` for a type `T` of `elemSize` bytes, `runtime.makeslice`: a
panic when `n` is negative or `elemSize * n` exceeds `maxAlloc`, otherwise `n`
zero values.  Memory below that limit is not bounded here. -/
def makeSlice {α : Type} (elemSize : Nat) (n : Int) (zero : α) : Except Failure (List α) :=
  if n < 0 ∨ (maxAlloc : Int) < elemSize * n then .error (.panic "makeslice: len out of range")
  else .ok (List.replicate n.toNat zero)

/-- Allocation of the grid, pbm.go 59-62: `data = make([][]bool, height)`, a
slice of slice headers of 24 bytes, then `data[i] = make([]bool, width)` for
every `i`. -/
def makeGrid (width height : Int) : Except Failure (List (List Bool)) :=
  match makeSlice 24 height ([] : List Bool) with
  | .error e => .error e
  | .ok rows =>
    forLoop rows.length (fun i d =>
      match makeSlice 1 width false with
      | .ok r => .ok (d.set i r)
      | .error e => .error e) rows

/-- The constant `bufio.startBufSize`, the size of the first buffer of a
`bufio.Scanner`. -/
def startBufSize : Nat := 4096

/-- Buffer of a `bufio.Scanner` on a file: `cap` is `len(s.buf)`, `start` and
`stop` are `s.start` and `s.end`, `off` is the number of bytes read from the
file so far, that is the offset of the file, and `err` says that `s.err` is
not nil.  The buffer holds the `stop - start` bytes of the file that end at
`off`. -/
structure ScanBuf where
  cap : Nat
  start : Nat
  stop : Nat
  off : Nat
  err : Bool
deriving DecidableEq, Repr

/-- The bytes `s.buf[s.start:s.end]`. -/
def ScanBuf.window (file : List Nat) (s : ScanBuf) : List Nat :=
  (file.take s.off).drop (s.off - (s.stop - s.start))

/-- One `s.r.Read(s.buf[s.end:len(s.buf)])` on a regular file: as many bytes as
fit and are left; at the end of the file no byte and `io.EOF`. -/
def ScanBuf.read (file : List Nat) (s : ScanBuf) : ScanBuf :=
  let n := min (s.cap - s.stop) (file.length - s.off)
  if n = 0 then { s with err := true } else { s with stop := s.stop + n, off := s.off + n }

/-- The part of `Scan` that reads more data, bufio/scan.go: the data is moved
to the front of the buffer when that frees space, a full buffer is doubled, up
to `maxScanTokenSize`, and one `Read` follows.  A full buffer of the maximal
size is `ErrTooLong`: `Scan` returns false. -/
def ScanBuf.fill (file : List Nat) (s : ScanBuf) : ScanBuf × Bool :=
  let s1 : ScanBuf :=
    if 0 < s.start ∧ (s.stop = s.cap ∨ s.cap / 2 < s.start) then
      { s with stop := s.stop - s.start, start := 0 }
    else s
  if s1.stop = s1.cap then
    if maxScanTokenSize ≤ s1.cap then ({ s1 with err := true }, false)
    else
      let newSize := min (if s1.cap * 2 = 0 then startBufSize else s1.cap * 2) maxScanTokenSize
      (ScanBuf.read file { s1 with cap := newSize, stop := s1.stop - s1.start, start := 0 }, true)
  else (ScanBuf.read file s1, true)

/-- One call of `Scan` with the split function `ScanLines`, as a loop of at
most `fuel` rounds: the buffer afterwards and the result of `Scan`.  A round
returns a line when the buffer holds a newline, or holds the last bytes of the
file; otherwise it reads more data. -/
def ScanBuf.scan (file : List Nat) : Nat → ScanBuf → ScanBuf × Bool
  | 0, s => (s, false)
  | fuel + 1, s =>
    let data := s.window file
    let advance : Option Nat :=
      if s.start < s.stop ∨ s.err = true then
        if s.err = true ∧ data.length = 0 then none
        else if data.indexOf 10 < data.length then some (data.indexOf 10 + 1)
        else if s.err = true then some data.length
        else none
      else none
    match advance with
    | some a => ({ s with start := s.start + a }, true)
    | none =>
      if s.err = true then ({ s with start := 0, stop := 0 }, false)
      else
        match s.fill file with
        | (s1, true) => ScanBuf.scan file fuel s1
        | (s1, false) => (s1, false)

/-- Offset of the file after `k` calls of `Scan` on a scanner in the state
`s`.  Every round of `Scan` that does not return reads at least one byte or
meets the end of the file, so `file.length + 2` rounds are enough. -/
def scanOffset (file : List Nat) : Nat → ScanBuf → Nat
  | 0, s => s.off
  | k + 1, s => scanOffset file k (s.scan file (file.length + 2)).1

/-- The bytes of a character in UTF-8. -/
def utf8Encode (c : Char) : List Nat :=
  let n := c.toNat
  if n < 0x80 then [n]
  else if n < 0x800 then [0xC0 + n / 64, 0x80 + n % 64]
  else if n < 0x10000 then [0xE0 + n / 4096, 0x80 + n / 64 % 64, 0x80 + n % 64]
  else [0xF0 + n / 262144, 0x80 + n / 4096 % 64, 0x80 + n / 64 % 64, 0x80 + n % 64]

/-- The bytes of a text file. -/
def fileBytes (content : List Char) : List Nat := (content.map utf8Encode).flatten

/-- `ReadPBM`, pbm.go 19-108, on a file with the text `content`, with the two
parts of the run-time system that `ReadPBM content unread` leaves open: the
limit of `make` on the sizes that the header declares, and the offset of the
file at which `file.Read` continues in the P4 branch.  The scanner has read
the file ahead into its buffer, so that offset is the one reached by the
calls of `Scan` that returned the lines of the header, not the end of the
header. -/
def ReadPBMFile (content : List Char) : Except Failure PBM :=
  match readNextLine (rawLines content) with
  | .error e => .error e
  | .ok (magicNumber, rest) =>
    if magicNumber ≠ P1 ∧ magicNumber ≠ P4 then .error (.error "unsupported file type")
    else
      match readNextLine rest with
      | .error e => .error e
      | .ok (dimensions, rest1) =>
        match Fields dimensions with
        | [t0, t1] =>
          let width := (Atoi t0).1
          let height := (Atoi t1).1
          if 0 < width ∧ 0 < height then
            match makeGrid width height with
            | .error e => .error e
            | .ok data =>
              if magicNumber = P1 then
                match readP1Rows height.toNat data rest1 with
                | .ok st => .ok ⟨st.1, width, height, magicNumber⟩
                | .error e => .error e
              else
                let file := fileBytes content
                let scans := (rawLines content).length - rest1.length
                match readP4Rows width.toNat height.toNat data
                    (file.drop (scanOffset file scans ⟨0, 0, 0, 0, false⟩)) with
                | .ok d => .ok ⟨d, width, height, magicNumber⟩
                | .error e => .error e
          else .ok ⟨[], width, height, magicNumber⟩
        | _ => .error (.error "invalid image dimensions")

/-- A P4 file of 10 bytes: the header `10 1` and the two payload bytes 0x55
and 0x40, the row 0101010101 and six padding bits. -/
def p4RowText : List Char := "P4\n10 1\nU@".toList

/-- A P1 file of 27 bytes whose header declares the width `2 ^ 62`. -/
def hugeWidthText : List Char := "P1\n4611686018427387904 1\n1\n".toList

/-! # Theorems -/

/-! ### Generic facts about the loop combinators -/

theorem intIndex_natCast (n : Nat) : intIndex (n : Int) = some n := by
  simp [intIndex]

theorem forLoop_succ {σ : Type} (n : Nat) (body : Nat → σ → Except Failure σ) (s : σ) :
    forLoop (n + 1) body s =
      (match forLoop n body s with
        | .ok s1 => body n s1
        | .error e => .error e) := rfl

theorem swapAt_spec {α : Type} (l : List α) (i jn : Nat) (hi : i < l.length)
    (hj : jn < l.length) :
    ∃ l1, swapAt l i (jn : Int) = .ok l1 ∧ l1.length = l.length ∧
      ∀ m, l1[m]? = if m = jn then l[i]? else if m = i then l[jn]? else l[m]? := by
  refine ⟨(l.set i l[jn]).set jn l[i], ?_, by simp, ?_⟩
  · simp [swapAt, intIndex_natCast, List.getElem?_eq_getElem hi, List.getElem?_eq_getElem hj]
  · intro m
    simp only [List.getElem?_set, List.length_set]
    by_cases h1 : jn = m
    · subst h1
      simp [hj, List.getElem?_eq_getElem hi]
    · have h1' : ¬ m = jn := fun h => h1 h.symm
      simp only [h1, h1', if_false]
      by_cases h2 : i = m
      · subst h2
        simp [hi, List.getElem?_eq_getElem hj]
      · have h2' : ¬ m = i := fun h => h2 h.symm
        simp [h2, h2']

theorem gridShape_iff {α : Type} (d : List (List α)) (w h : Int) :
    gridShape d w h = true ↔ (d.length : Int) = h ∧ ∀ row ∈ d, (row.length : Int) = w := by
  simp [gridShape]

theorem pbm_wellFormed_iff (b : PBM) :
    b.wellFormed = true ↔
      (b.data.length : Int) = b.height ∧ ∀ row ∈ b.data, (row.length : Int) = b.width := by
  simp [PBM.wellFormed, gridShape_iff]

theorem pgm_wellFormed_iff (g : PGM) :
    g.wellFormed = true ↔
      ((g.data.length : Int) = g.height ∧ ∀ row ∈ g.data, (row.length : Int) = g.width) ∧
        g.max < 256 ∧ ∀ row ∈ g.data, ∀ v ∈ row, v < 256 := by
  simp [PGM.wellFormed, gridShape_iff, and_assoc]

theorem ppm_wellFormed_iff (p : PPM) :
    p.wellFormed = true ↔
      ((p.data.length : Int) = p.height ∧ ∀ row ∈ p.data, (row.length : Int) = p.width) ∧
        p.max < 256 ∧ ∀ row ∈ p.data, ∀ v ∈ row, v.isU8 = true := by
  simp [PPM.wellFormed, gridShape_iff, and_assoc]

theorem set_take_map {α : Type} (g : α → α) (l : List α) (k : Nat) (hk : k < l.length) :
    ((l.take k).map g ++ l.drop k).set k (g l[k]) = (l.take (k + 1)).map g ++ l.drop (k + 1) := by
  apply List.ext_getElem?
  intro m
  simp only [List.getElem?_set, List.getElem?_append, List.getElem?_map, List.getElem?_take,
    List.getElem?_drop, List.length_map, List.length_take, List.length_append, List.length_drop]
  have hmin : min k l.length = k := by omega
  have hmin1 : min (k + 1) l.length = k + 1 := by omega
  rw [hmin, hmin1]
  by_cases h1 : k = m
  · subst h1
    simp [hk, List.getElem?_eq_getElem hk]
  · by_cases h2 : m < k
    · have h3 : m < k + 1 := by omega
      simp [h1, h2, h3]
    · have h3 : ¬ m < k + 1 := by omega
      simp only [h1, h2, h3, if_false]
      congr 1
      omega

theorem set_same {α : Type} (d : List α) (i : Nat) (row : α) (hd : d[i]? = some row) :
    d.set i row = d := by
  apply List.ext_getElem?
  intro m
  rw [List.getElem?_set]
  by_cases h : i = m
  · subst h
    rw [if_pos rfl, hd]
    have hi : i < d.length := by
      by_contra h
      rw [List.getElem?_eq_none (by omega)] at hd
      exact Option.noConfusion hd
    rw [if_pos hi]
  · rw [if_neg h]

theorem partial_cell {α : Type} (g : α → α) (d : List α) (k : Nat)
    (hk : k < d.length) : ((d.take k).map g ++ d.drop k)[k]? = some d[k] := by
  simp only [List.getElem?_append, List.length_map, List.length_take, List.getElem?_drop]
  rw [min_eq_left (by omega)]
  simp [List.getElem?_eq_getElem hk]

theorem cellLoop_spec {α : Type} (f : α → α) (i : Nat) (row : List α) :
    ∀ (k : Nat) (d : List (List α)), d[i]? = some row → k ≤ row.length →
      forLoop k (fun j d1 => updateCell f d1 i j) d =
        .ok (d.set i ((row.take k).map f ++ row.drop k)) := by
  intro k
  induction k with
  | zero =>
    intro d hd _
    have hi : i < d.length := by
      by_contra h
      rw [List.getElem?_eq_none (by omega)] at hd
      exact Option.noConfusion hd
    simp [forLoop, set_same d i row hd]
  | succ k ih =>
    intro d hd hk
    have hi : i < d.length := by
      by_contra h
      rw [List.getElem?_eq_none (by omega)] at hd
      exact Option.noConfusion hd
    rw [forLoop_succ, ih d hd (by omega)]
    have hk' : k < row.length := by omega
    have hrow : (d.set i ((row.take k).map f ++ row.drop k))[i]? =
        some ((row.take k).map f ++ row.drop k) := by
      simp [List.getElem?_set, hi]
    have hcell : ((row.take k).map f ++ row.drop k)[k]? = some row[k] :=
      partial_cell f row k hk'
    have hlen : k < ((row.take k).map f ++ row.drop k).length := by
      simp
      omega
    simp only [updateCell, getCell, setCell, hrow, hcell, hlen, if_true, List.set_set]
    rw [set_take_map f row k hk']

theorem cellLoop_full {α : Type} (f : α → α) (i : Nat) (row : List α) (d : List (List α))
    (hd : d[i]? = some row) :
    forLoop row.length (fun j d1 => updateCell f d1 i j) d = .ok (d.set i (row.map f)) := by
  rw [cellLoop_spec f i row row.length d hd (le_refl _)]
  simp

theorem rowLoop_spec {α : Type} (g : List α → List α)
    (inner : Nat → List (List α) → Except Failure (List (List α))) (d : List (List α))
    (h : ∀ (k : Nat) (hk : k < d.length),
      inner k ((d.take k).map g ++ d.drop k) =
        .ok (((d.take k).map g ++ d.drop k).set k (g d[k]))) :
    ∀ k, k ≤ d.length → forLoop k inner d = .ok ((d.take k).map g ++ d.drop k) := by
  intro k
  induction k with
  | zero => intro _; simp [forLoop]
  | succ k ih =>
    intro hk
    rw [forLoop_succ, ih (by omega)]
    show inner k _ = _
    rw [h k (by omega), set_take_map g d k (by omega)]

theorem rowLoop_full {α : Type} (g : List α → List α)
    (inner : Nat → List (List α) → Except Failure (List (List α))) (d : List (List α))
    (h : ∀ (k : Nat) (hk : k < d.length),
      inner k ((d.take k).map g ++ d.drop k) =
        .ok (((d.take k).map g ++ d.drop k).set k (g d[k]))) :
    forLoop d.length inner d = .ok (d.map g) := by
  rw [rowLoop_spec g inner d h d.length (le_refl _)]
  simp

/-! ### Invert -/

theorem mapGrid_loop {α : Type} (f : α → α) (d : List (List α))
    (bound : Nat → List (List α) → Nat)
    (hbound : ∀ (k : Nat) (hk : k < d.length),
      bound k ((d.take k).map (fun row => row.map f) ++ d.drop k) = (d[k]).length) :
    forLoop d.length (fun i d1 =>
      forLoop (bound i d1) (fun j d2 => updateCell f d2 i j) d1) d =
        .ok (d.map (fun row => row.map f)) := by
  rw [rowLoop_full (fun row => row.map f)]
  intro k hk
  show forLoop (bound k _) _ _ = _
  rw [hbound k hk]
  exact cellLoop_full f k d[k] _ (partial_cell (fun row => row.map f) d k hk)

theorem pbm_invert_eq (b : PBM) (hb : gridShape b.data b.width b.height = true) :
    b.Invert = .ok { b with data := b.data.map (fun row => row.map (fun v => !v)) } := by
  obtain ⟨h1, h2⟩ := (gridShape_iff _ _ _).mp hb
  unfold PBM.Invert
  have hh : b.height.toNat = b.data.length := by omega
  rw [hh, mapGrid_loop (fun v => !v) b.data (fun _ _ => b.width.toNat)]
  intro k hk
  have := h2 b.data[k] (List.getElem_mem _)
  show b.width.toNat = _
  omega

theorem pgm_invert_eq (g : PGM) :
    g.Invert = .ok { g with data := g.data.map (fun row => row.map (fun v => subU8 g.max v)) } := by
  unfold PGM.Invert
  rw [mapGrid_loop (fun v => subU8 g.max v) g.data (fun i d => (d.getD i []).length)]
  intro k hk
  show (List.getD _ k []).length = _
  rw [List.getD_eq_getElem?_getD, partial_cell _ g.data k hk]
  rfl

theorem ppm_invert_eq (p : PPM) (hp : gridShape p.data p.width p.height = true) :
    p.Invert = .ok { p with data := p.data.map (fun row => row.map (fun v =>
      Pixel.mk (subU8 p.max v.R) (subU8 p.max v.G) (subU8 p.max v.B))) } := by
  obtain ⟨h1, h2⟩ := (gridShape_iff _ _ _).mp hp
  unfold PPM.Invert
  rw [mapGrid_loop (fun v => Pixel.mk (subU8 p.max v.R) (subU8 p.max v.G)
    (subU8 p.max v.B)) p.data (fun _ d => (d.getD 0 []).length)]
  intro k hk
  show (List.getD _ 0 []).length = _
  have hk0 := h2 p.data[k] (List.getElem_mem _)
  have h00 := h2 (p.data[0]) (List.getElem_mem _)
  rw [List.getD_eq_getElem?_getD]
  by_cases hz : k = 0
  · subst hz
    rw [partial_cell _ p.data 0 hk]
    rfl
  · have : ((p.data.take k).map (fun row => row.map (fun v =>
        Pixel.mk (subU8 p.max v.R) (subU8 p.max v.G) (subU8 p.max v.B))) ++
        p.data.drop k)[0]? = some ((p.data[0]).map (fun v =>
        Pixel.mk (subU8 p.max v.R) (subU8 p.max v.G) (subU8 p.max v.B))) := by
      rw [List.getElem?_append]
      have hlen : 0 < ((p.data.take k).map (fun row => row.map (fun v =>
        Pixel.mk (subU8 p.max v.R) (subU8 p.max v.G) (subU8 p.max v.B)))).length := by
        simp
        omega
      rw [if_pos hlen, List.getElem?_map, List.getElem?_take, if_pos (by omega),
        List.getElem?_eq_getElem (by omega)]
      rfl
    rw [this]
    simp only [Option.getD_some, List.length_map]
    omega

theorem subU8_subU8 (m v : Nat) (hm : m < 256) (hv : v < 256) : subU8 m (subU8 m v) = v := by
  unfold subU8
  omega

theorem gridShape_map {α : Type} (f : α → α) (d : List (List α)) (w h : Int) :
    gridShape (d.map (fun row => row.map f)) w h = gridShape d w h := by
  simp [gridShape, List.all_map, Function.comp_def]

theorem map_map_cancel {α : Type} (f : α → α) (d : List (List α))
    (h : ∀ row ∈ d, ∀ v ∈ row, f (f v) = v) :
    (d.map (fun row => row.map f)).map (fun row => row.map f) = d := by
  rw [List.map_map]
  conv_rhs => rw [← List.map_id d]
  apply List.map_congr_left
  intro row hrow
  simp only [Function.comp_apply, List.map_map, id_eq]
  conv_rhs => rw [← List.map_id row]
  apply List.map_congr_left
  intro v hv
  exact h row hrow v hv

/-- C8: Invert is an involution.  On every well-formed PBM, PGM and PPM image
Invert completes, replaces each bit by its negation (PBM) or each sample or
channel `v` by `max - v` in `uint8` arithmetic (PGM, PPM), keeps width,
height, magic number and max, and a second Invert gives back the original
image. -/
theorem invert_involution (b : PBM) (g : PGM) (p : PPM)
    (hb : b.wellFormed = true) (hg : g.wellFormed = true) (hp : p.wellFormed = true) :
    (∃ b1, b.Invert = .ok b1 ∧
      b1.data = b.data.map (fun row => row.map (fun v => !v)) ∧
      b1.width = b.width ∧ b1.height = b.height ∧ b1.magicNumber = b.magicNumber ∧
      b1.Invert = .ok b) ∧
    (∃ g1, g.Invert = .ok g1 ∧
      g1.data = g.data.map (fun row => row.map (fun v => (g.max + 256 - v) % 256)) ∧
      g1.width = g.width ∧ g1.height = g.height ∧ g1.magicNumber = g.magicNumber ∧
      g1.max = g.max ∧ g1.Invert = .ok g) ∧
    (∃ p1, p.Invert = .ok p1 ∧
      p1.data = p.data.map (fun row => row.map (fun v =>
        Pixel.mk ((p.max + 256 - v.R) % 256) ((p.max + 256 - v.G) % 256)
          ((p.max + 256 - v.B) % 256))) ∧
      p1.width = p.width ∧ p1.height = p.height ∧ p1.magicNumber = p.magicNumber ∧
      p1.max = p.max ∧ p1.Invert = .ok p) := by
  have hb1 : gridShape b.data b.width b.height = true := hb
  obtain ⟨hg1, hgm, hgv⟩ := (pgm_wellFormed_iff g).mp hg
  obtain ⟨hp1, hpm, hpv⟩ := (ppm_wellFormed_iff p).mp hp
  refine ⟨⟨_, pbm_invert_eq b hb1, rfl, rfl, rfl, rfl, ?_⟩,
    ⟨_, pgm_invert_eq g, ?_, rfl, rfl, rfl, rfl, ?_⟩,
    ⟨_, ppm_invert_eq p ((gridShape_iff _ _ _).mpr hp1), ?_, rfl, rfl, rfl, rfl, ?_⟩⟩
  · rw [pbm_invert_eq _ (by simpa [gridShape_map] using hb1)]
    simp only
    rw [map_map_cancel]
    intro row _ v _
    simp
  · apply List.map_congr_left
    intro row hrow
    apply List.map_congr_left
    intro v hv
    have := hgv row hrow v hv
    unfold subU8
    omega
  · rw [pgm_invert_eq]
    simp only
    rw [map_map_cancel]
    intro row hrow v hv
    exact subU8_subU8 g.max v hgm (hgv row hrow v hv)
  · apply List.map_congr_left
    intro row hrow
    apply List.map_congr_left
    intro v hv
    have := hpv row hrow v hv
    simp only [Pixel.isU8, Bool.and_eq_true, decide_eq_true_eq] at this
    obtain ⟨⟨hR, hG⟩, hB⟩ := this
    have e : ∀ x, x < 256 → subU8 p.max x = (p.max + 256 - x) % 256 := by
      intro x hx
      unfold subU8
      omega
    rw [e _ hR, e _ hG, e _ hB]
  · rw [ppm_invert_eq _ (by simpa [gridShape_map] using (gridShape_iff _ _ _).mpr hp1)]
    simp only
    rw [map_map_cancel]
    intro row hrow v hv
    have := hpv row hrow v hv
    simp only [Pixel.isU8, Bool.and_eq_true, decide_eq_true_eq] at this
    obtain ⟨⟨hR, hG⟩, hB⟩ := this
    rw [subU8_subU8 _ _ hpm hR, subU8_subU8 _ _ hpm hG, subU8_subU8 _ _ hpm hB]

theorem invert_involution_witness :
    (∃ b1, sampleBitmap.Invert = .ok b1 ∧
      b1.data = sampleBitmap.data.map (fun row => row.map (fun v => !v)) ∧
      b1.width = sampleBitmap.width ∧ b1.height = sampleBitmap.height ∧
      b1.magicNumber = sampleBitmap.magicNumber ∧ b1.Invert = .ok sampleBitmap) ∧
    (∃ g1, sampleGraymap.Invert = .ok g1 ∧
      g1.data = sampleGraymap.data.map (fun row =>
        row.map (fun v => (sampleGraymap.max + 256 - v) % 256)) ∧
      g1.width = sampleGraymap.width ∧ g1.height = sampleGraymap.height ∧
      g1.magicNumber = sampleGraymap.magicNumber ∧
      g1.max = sampleGraymap.max ∧ g1.Invert = .ok sampleGraymap) ∧
    (∃ p1, samplePixmap.Invert = .ok p1 ∧
      p1.data = samplePixmap.data.map (fun row => row.map (fun v =>
        Pixel.mk ((samplePixmap.max + 256 - v.R) % 256) ((samplePixmap.max + 256 - v.G) % 256)
          ((samplePixmap.max + 256 - v.B) % 256))) ∧
      p1.width = samplePixmap.width ∧ p1.height = samplePixmap.height ∧
      p1.magicNumber = samplePixmap.magicNumber ∧
      p1.max = samplePixmap.max ∧ p1.Invert = .ok samplePixmap) :=
  invert_involution sampleBitmap sampleGraymap samplePixmap (by decide) (by decide) (by decide)

/-! ### Flop -/

theorem flopRows_loop {α : Type} (d : List (List α)) (k : Nat) (hk : 2 * k ≤ d.length) :
    ∃ d1, forLoop k (fun i d1 => swapAt d1 i ((d.length : Int) - i - 1)) d = .ok d1 ∧
      d1.length = d.length ∧
      ∀ m, d1[m]? =
        if m < k ∨ (d.length - k ≤ m ∧ m < d.length) then d[d.length - 1 - m]? else d[m]? := by
  induction k with
  | zero =>
    refine ⟨d, rfl, rfl, ?_⟩
    intro m
    have : ¬ (m < 0 ∨ (d.length - 0 ≤ m ∧ m < d.length)) := by omega
    rw [if_neg this]
  | succ k ih =>
    obtain ⟨d1, h1, hlen, hget⟩ := ih (by omega)
    have hcast : ((d.length : Int) - (k : Int) - 1) = ((d.length - k - 1 : Nat) : Int) := by omega
    obtain ⟨d2, h2, hlen2, hget2⟩ :=
      swapAt_spec d1 k (d.length - k - 1) (by omega) (by omega)
    refine ⟨d2, ?_, by omega, ?_⟩
    · rw [forLoop_succ, h1]
      simp only [hcast]
      exact h2
    · intro m
      rw [hget2 m]
      by_cases hm1 : m = d.length - k - 1
      · have hc : m < k + 1 ∨ (d.length - (k + 1) ≤ m ∧ m < d.length) := by omega
        have hk' : ¬ (k < k ∨ (d.length - k ≤ k ∧ k < d.length)) := by omega
        rw [if_pos hm1, if_pos hc, hget k, if_neg hk']
        congr 1
        omega
      · rw [if_neg hm1]
        by_cases hm2 : m = k
        · have hc : m < k + 1 ∨ (d.length - (k + 1) ≤ m ∧ m < d.length) := by omega
          have hk' : ¬ (d.length - k - 1 < k ∨
              (d.length - k ≤ d.length - k - 1 ∧ d.length - k - 1 < d.length)) := by omega
          rw [if_pos hm2, if_pos hc, hget (d.length - k - 1), if_neg hk']
          congr 1
          omega
        · rw [if_neg hm2, hget m]
          by_cases hc : m < k ∨ (d.length - k ≤ m ∧ m < d.length)
          · have hc' : m < k + 1 ∨ (d.length - (k + 1) ≤ m ∧ m < d.length) := by omega
            rw [if_pos hc, if_pos hc']
          · have hc' : ¬ (m < k + 1 ∨ (d.length - (k + 1) ≤ m ∧ m < d.length)) := by omega
            rw [if_neg hc, if_neg hc']

theorem flopRows_eq_reverse {α : Type} (d : List (List α)) : flopRows d = .ok d.reverse := by
  unfold flopRows
  by_cases h0 : d.length = 0
  · have : d = [] := List.length_eq_zero.mp h0
    subst this
    simp
  · simp only [h0, if_false]
    obtain ⟨d1, h1, hlen, hget⟩ := flopRows_loop d (d.length / 2) (by omega)
    rw [h1]
    congr 1
    apply List.ext_getElem?
    intro m
    rw [hget m]
    by_cases hm : m < d.length
    · rw [List.getElem?_reverse hm]
      by_cases hc : m < d.length / 2 ∨ (d.length - d.length / 2 ≤ m ∧ m < d.length)
      · rw [if_pos hc]
      · rw [if_neg hc]
        congr 1
        omega
    · have hc : ¬ (m < d.length / 2 ∨ (d.length - d.length / 2 ≤ m ∧ m < d.length)) := by omega
      rw [if_neg hc, List.getElem?_eq_none (by omega), List.getElem?_eq_none (by simp; omega)]

theorem flopLoop_spec (n : Nat) :
    ∀ (d : List (List Bool)) (i : Nat) (j : Int), (j - i).toNat ≤ n → j < d.length →
      ∃ d1, PBM.flopLoop d i j = .ok d1 ∧ d1.length = d.length ∧
        ∀ m : Nat, d1[m]? =
          if (i ≤ m ∧ (m : Int) ≤ j) then d[(i + j - m).toNat]? else d[m]? := by
  induction n using Nat.strong_induction_on with
  | _ n ih =>
    intro d i j hn hj
    rw [PBM.flopLoop]
    by_cases hij : (i : Int) < j
    · simp only [hij, if_true]
      obtain ⟨jn, rfl⟩ : ∃ jn : Nat, j = (jn : Int) := ⟨j.toNat, by omega⟩
      obtain ⟨d1, h1, hlen, hget⟩ := swapAt_spec d i jn (by omega) (by omega)
      rw [h1]
      obtain ⟨d2, h2, hlen2, hget2⟩ :=
        ih (n - 1) (by omega) d1 (i + 1) ((jn : Int) - 1) (by omega) (by omega)
      refine ⟨d2, h2, by omega, ?_⟩
      intro m
      rw [hget2 m]
      by_cases hc : (i + 1 ≤ m ∧ (m : Int) ≤ (jn : Int) - 1)
      · have hc' : (i ≤ m ∧ (m : Int) ≤ (jn : Int)) := by omega
        rw [if_pos hc, if_pos hc', hget]
        have e1 : (((i + 1 : Nat) : Int) + ((jn : Int) - 1) - (m : Int)).toNat = i + jn - m := by
          omega
        have e2 : (((i : Nat) : Int) + (jn : Int) - (m : Int)).toNat = i + jn - m := by omega
        rw [e1, e2]
        have n1 : ¬ (i + jn - m = jn) := by omega
        have n2 : ¬ (i + jn - m = i) := by omega
        rw [if_neg n1, if_neg n2]
      · rw [if_neg hc, hget m]
        by_cases hm1 : m = jn
        · have hc' : (i ≤ m ∧ (m : Int) ≤ (jn : Int)) := by omega
          rw [if_pos hm1, if_pos hc']
          congr 1
          omega
        · rw [if_neg hm1]
          by_cases hm2 : m = i
          · have hc' : (i ≤ m ∧ (m : Int) ≤ (jn : Int)) := by omega
            rw [if_pos hm2, if_pos hc']
            congr 1
            omega
          · have hc' : ¬ (i ≤ m ∧ (m : Int) ≤ (jn : Int)) := by omega
            rw [if_neg hm2, if_neg hc']
    · simp only [hij, if_false]
      refine ⟨d, rfl, rfl, ?_⟩
      intro m
      by_cases hc : (i ≤ m ∧ (m : Int) ≤ j)
      · rw [if_pos hc]
        congr 1
        omega
      · rw [if_neg hc]

theorem flopLoop_eq_reverse (d : List (List Bool)) :
    PBM.flopLoop d 0 ((d.length : Int) - 1) = .ok d.reverse := by
  obtain ⟨d1, h1, hlen, hget⟩ :=
    flopLoop_spec ((d.length : Int) - 1 - (0 : Nat)).toNat d 0 ((d.length : Int) - 1)
      (le_refl _) (by omega)
  rw [h1]
  congr 1
  apply List.ext_getElem?
  intro m
  rw [hget m]
  by_cases hm : m < d.length
  · have hc : (0 ≤ m ∧ (m : Int) ≤ (d.length : Int) - 1) := by omega
    rw [if_pos hc, List.getElem?_reverse hm]
    congr 1
    omega
  · have hc : ¬ (0 ≤ m ∧ (m : Int) ≤ (d.length : Int) - 1) := by omega
    rw [if_neg hc, List.getElem?_eq_none (by omega), List.getElem?_eq_none (by simp; omega)]

theorem pbm_flop_eq (b : PBM) (hb : (b.data.length : Int) = b.height) :
    b.Flop = .ok { b with data := b.data.reverse } := by
  unfold PBM.Flop
  rw [← hb, flopLoop_eq_reverse]

theorem reverse_row {α : Type} (d : List α) (h : Int) (hd : (d.length : Int) = h) (i : Nat)
    (hi : (i : Int) < h) : d.reverse[i]? = d[(h - 1 - i).toNat]? := by
  rw [List.getElem?_reverse (by omega)]
  congr 1
  omega

/-- C10: Flop is a vertical mirror.  On every well-formed PBM, PGM and PPM image
Flop completes; row `i` of the new grid is the old row `height - 1 - i` for
every `i < height`; width, height, magic number and max are unchanged; and a
second Flop gives back the original image. -/
theorem flop_vertical_mirror (b : PBM) (g : PGM) (p : PPM)
    (hb : b.wellFormed = true) (hg : g.wellFormed = true) (hp : p.wellFormed = true) :
    (∃ b1, b.Flop = .ok b1 ∧
      (∀ i : Nat, (i : Int) < b.height → b1.data[i]? = b.data[(b.height - 1 - i).toNat]?) ∧
      b1.data.length = b.data.length ∧ b1.width = b.width ∧ b1.height = b.height ∧
      b1.magicNumber = b.magicNumber ∧ b1.Flop = .ok b) ∧
    (∃ g1, g.Flop = .ok g1 ∧
      (∀ i : Nat, (i : Int) < g.height → g1.data[i]? = g.data[(g.height - 1 - i).toNat]?) ∧
      g1.data.length = g.data.length ∧ g1.width = g.width ∧ g1.height = g.height ∧
      g1.magicNumber = g.magicNumber ∧ g1.max = g.max ∧ g1.Flop = .ok g) ∧
    (∃ p1, p.Flop = .ok p1 ∧
      (∀ i : Nat, (i : Int) < p.height → p1.data[i]? = p.data[(p.height - 1 - i).toNat]?) ∧
      p1.data.length = p.data.length ∧ p1.width = p.width ∧ p1.height = p.height ∧
      p1.magicNumber = p.magicNumber ∧ p1.max = p.max ∧ p1.Flop = .ok p) := by
  have hb1 := ((pbm_wellFormed_iff b).mp hb).1
  have hg1 := ((pgm_wellFormed_iff g).mp hg).1.1
  have hp1 := ((ppm_wellFormed_iff p).mp hp).1.1
  refine ⟨⟨{ b with data := b.data.reverse }, pbm_flop_eq b hb1, ?_, by simp, rfl, rfl, rfl, ?_⟩,
    ⟨{ g with data := g.data.reverse }, ?_, ?_, by simp, rfl, rfl, rfl, rfl, ?_⟩,
    ⟨{ p with data := p.data.reverse }, ?_, ?_, by simp, rfl, rfl, rfl, rfl, ?_⟩⟩
  · intro i hi
    exact reverse_row b.data b.height hb1 i hi
  · rw [pbm_flop_eq _ (by simpa using hb1)]
    simp
  · simp [PGM.Flop, flopRows_eq_reverse]
  · intro i hi
    exact reverse_row g.data g.height hg1 i hi
  · simp [PGM.Flop, flopRows_eq_reverse]
  · simp [PPM.Flop, flopRows_eq_reverse]
  · intro i hi
    exact reverse_row p.data p.height hp1 i hi
  · simp [PPM.Flop, flopRows_eq_reverse]

theorem flop_vertical_mirror_witness :
    (∃ b1, sampleBitmap.Flop = .ok b1 ∧
      (∀ i : Nat, (i : Int) < sampleBitmap.height →
        b1.data[i]? = sampleBitmap.data[(sampleBitmap.height - 1 - i).toNat]?) ∧
      b1.data.length = sampleBitmap.data.length ∧ b1.width = sampleBitmap.width ∧
      b1.height = sampleBitmap.height ∧
      b1.magicNumber = sampleBitmap.magicNumber ∧ b1.Flop = .ok sampleBitmap) ∧
    (∃ g1, sampleGraymap.Flop = .ok g1 ∧
      (∀ i : Nat, (i : Int) < sampleGraymap.height →
        g1.data[i]? = sampleGraymap.data[(sampleGraymap.height - 1 - i).toNat]?) ∧
      g1.data.length = sampleGraymap.data.length ∧ g1.width = sampleGraymap.width ∧
      g1.height = sampleGraymap.height ∧
      g1.magicNumber = sampleGraymap.magicNumber ∧ g1.max = sampleGraymap.max ∧
      g1.Flop = .ok sampleGraymap) ∧
    (∃ p1, samplePixmap.Flop = .ok p1 ∧
      (∀ i : Nat, (i : Int) < samplePixmap.height →
        p1.data[i]? = samplePixmap.data[(samplePixmap.height - 1 - i).toNat]?) ∧
      p1.data.length = samplePixmap.data.length ∧ p1.width = samplePixmap.width ∧
      p1.height = samplePixmap.height ∧
      p1.magicNumber = samplePixmap.magicNumber ∧ p1.max = samplePixmap.max ∧
      p1.Flop = .ok samplePixmap) :=
  flop_vertical_mirror sampleBitmap sampleGraymap samplePixmap (by decide) (by decide) (by decide)

/-! ### Save -/

/-- C3, at the input `binaryBitmap`: for a well-formed image with magic number
P4, `Save` writes the header `P4`, `1 1` and nothing after it, where the
claim expects one row of one byte with bit 7 set. -/
theorem save_p4_writes_header_only :
    binaryBitmap.wellFormed = true ∧ binaryBitmap.magicNumber = P4 ∧
      binaryBitmap.Save = .ok ['P', '4', '\n', '1', ' ', '1', '\n'] := by
  decide

/-- C7, at the inputs `overflowPixmap` and `overflowGraymap` (sample 200, max
10): `PPM.Save` and `PGM.Save` both return a nil error.  The pixmap writer
leaves the pixel out of the file, the graymap writer writes 200. -/
theorem save_accepts_sample_above_max :
    overflowPixmap.wellFormed = true ∧ overflowGraymap.wellFormed = true ∧
      overflowPixmap.Save = .ok "P3\n1 1\n10\n\n".toList ∧
      overflowGraymap.Save = .ok "P2\n1 1\n10\n200 \n".toList := by
  decide

/-! ### Flip -/

/-- C9, at images that are not square: `PGM.Flip` and `PPM.Flip` leave a
2 x 1 image as it is instead of mirroring it, and panic on a 1 x 2 image;
`PBM.Flip` mirrors the row of a 2 x 1 bitmap. -/
theorem flip_fails_unless_square :
    wideGraymap.wellFormed = true ∧ tallGraymap.wellFormed = true ∧
      widePixmap.wellFormed = true ∧ tallPixmap.wellFormed = true ∧
      wideGraymap.Flip = .ok wideGraymap ∧
      tallGraymap.Flip = .error (.panic "index out of range") ∧
      widePixmap.Flip = .ok widePixmap ∧
      tallPixmap.Flip = .error (.panic "index out of range") ∧
      wideGraymap.data[0]?.bind (fun row => row[0]?) = some 1 ∧
      wideGraymap.data[0]?.bind (fun row => row[1]?) = some 2 := by
  decide

theorem swap_get {α : Type} (l : List α) (i jn : Nat) (hi : i < l.length) (hj : jn < l.length)
    (m : Nat) :
    ((l.set i l[jn]).set jn l[i])[m]? =
      if m = jn then l[i]? else if m = i then l[jn]? else l[m]? := by
  obtain ⟨l1, h1, _, hget⟩ := swapAt_spec l i jn hi hj
  have : l1 = (l.set i l[jn]).set jn l[i] := by
    have h2 : swapAt l i (jn : Int) = .ok ((l.set i l[jn]).set jn l[i]) := by
      simp [swapAt, intIndex_natCast, List.getElem?_eq_getElem hi, List.getElem?_eq_getElem hj]
    rw [h1] at h2
    injection h2
  rw [← this]
  exact hget m

theorem swapCells_eq {α : Type} (d : List (List α)) (i j kn : Nat) (row : List α)
    (hd : d[i]? = some row) (hj : j < row.length) (hk : kn < row.length) :
    swapCells d i j (kn : Int) = .ok (d.set i ((row.set j row[kn]).set kn row[j])) := by
  have hi : i < d.length := by
    by_contra h
    rw [List.getElem?_eq_none (by omega)] at hd
    exact Option.noConfusion hd
  have h1 : (d.set i (row.set j row[kn]))[i]? = some (row.set j row[kn]) := by
    simp [List.getElem?_set, hi]
  simp [swapCells, intIndex_natCast, getCell, setCell, hd, h1, hj, hk,
    List.getElem?_eq_getElem hj, List.getElem?_eq_getElem hk]

theorem flipRow_spec (n : Nat) :
    ∀ (d : List (List Bool)) (i j : Nat) (k : Int) (row : List Bool), (k - j).toNat ≤ n →
      d[i]? = some row → k < row.length →
      ∃ row1, PBM.flipRow d i j k = .ok (d.set i row1) ∧ row1.length = row.length ∧
        ∀ m : Nat, row1[m]? =
          if (j ≤ m ∧ (m : Int) ≤ k) then row[(j + k - m).toNat]? else row[m]? := by
  induction n using Nat.strong_induction_on with
  | _ n ih =>
    intro d i j k row hn hd hk
    have hi : i < d.length := by
      by_contra h
      rw [List.getElem?_eq_none (by omega)] at hd
      exact Option.noConfusion hd
    rw [PBM.flipRow]
    by_cases hjk : (j : Int) < k
    · simp only [hjk, if_true]
      obtain ⟨kn, rfl⟩ : ∃ kn : Nat, k = (kn : Int) := ⟨k.toNat, by omega⟩
      have hj' : j < row.length := by omega
      have hk' : kn < row.length := by omega
      rw [swapCells_eq d i j kn row hd hj' hk']
      obtain ⟨row2, h2, hlen2, hget2⟩ :=
        ih (n - 1) (by omega) (d.set i ((row.set j row[kn]).set kn row[j])) i (j + 1)
          ((kn : Int) - 1) ((row.set j row[kn]).set kn row[j]) (by omega)
          (by simp [List.getElem?_set, hi]) (by simp; omega)
      refine ⟨row2, ?_, by simpa using hlen2, ?_⟩
      · simp only [h2, List.set_set]
      · intro m
        rw [hget2 m]
        by_cases hc : (j + 1 ≤ m ∧ (m : Int) ≤ (kn : Int) - 1)
        · have hc' : (j ≤ m ∧ (m : Int) ≤ (kn : Int)) := by omega
          rw [if_pos hc, if_pos hc', swap_get row j kn hj' hk']
          have e1 : (((j + 1 : Nat) : Int) + ((kn : Int) - 1) - (m : Int)).toNat = j + kn - m := by
            omega
          have e2 : (((j : Nat) : Int) + (kn : Int) - (m : Int)).toNat = j + kn - m := by omega
          rw [e1, e2]
          have n1 : ¬ (j + kn - m = kn) := by omega
          have n2 : ¬ (j + kn - m = j) := by omega
          rw [if_neg n1, if_neg n2]
        · rw [if_neg hc, swap_get row j kn hj' hk' m]
          by_cases hm1 : m = kn
          · have hc' : (j ≤ m ∧ (m : Int) ≤ (kn : Int)) := by omega
            rw [if_pos hm1, if_pos hc']
            congr 1
            omega
          · rw [if_neg hm1]
            by_cases hm2 : m = j
            · have hc' : (j ≤ m ∧ (m : Int) ≤ (kn : Int)) := by omega
              rw [if_pos hm2, if_pos hc']
              congr 1
              omega
            · have hc' : ¬ (j ≤ m ∧ (m : Int) ≤ (kn : Int)) := by omega
              rw [if_neg hm2, if_neg hc']
    · simp only [hjk, if_false]
      refine ⟨row, by rw [set_same d i row hd], rfl, ?_⟩
      intro m
      by_cases hc : (j ≤ m ∧ (m : Int) ≤ k)
      · rw [if_pos hc]
        congr 1
        omega
      · rw [if_neg hc]

theorem flipRow_eq_reverse (d : List (List Bool)) (i : Nat) (row : List Bool)
    (hd : d[i]? = some row) :
    PBM.flipRow d i 0 ((row.length : Int) - 1) = .ok (d.set i row.reverse) := by
  obtain ⟨row1, h1, hlen, hget⟩ :=
    flipRow_spec ((row.length : Int) - 1 - (0 : Nat)).toNat d i 0 ((row.length : Int) - 1) row
      (le_refl _) hd (by omega)
  rw [h1]
  congr 2
  apply List.ext_getElem?
  intro m
  rw [hget m]
  by_cases hm : m < row.length
  · have hc : (0 ≤ m ∧ (m : Int) ≤ (row.length : Int) - 1) := by omega
    rw [if_pos hc, List.getElem?_reverse hm]
    congr 1
    omega
  · have hc : ¬ (0 ≤ m ∧ (m : Int) ≤ (row.length : Int) - 1) := by omega
    rw [if_neg hc, List.getElem?_eq_none (by omega), List.getElem?_eq_none (by simp; omega)]

/-- The sibling `PBM.Flip` mirrors every row of a well-formed bitmap: sample
`(i, j)` of the result is the old sample `(i, width - 1 - j)`. -/
theorem pbm_flip_mirror (b : PBM) (hb : b.wellFormed = true) :
    b.Flip = .ok { b with data := b.data.map List.reverse } ∧
      ∀ (i j : Nat) (row : List Bool), b.data[i]? = some row → (j : Int) < b.width →
        row.reverse[j]? = row[(b.width - 1 - j).toNat]? := by
  obtain ⟨h1, h2⟩ := (pbm_wellFormed_iff b).mp hb
  constructor
  · unfold PBM.Flip
    have hh : b.height.toNat = b.data.length := by omega
    rw [hh, rowLoop_full List.reverse]
    intro k hk
    have hw : b.width = ((b.data[k]).length : Int) := (h2 _ (List.getElem_mem _)).symm
    show PBM.flipRow _ k 0 (b.width - 1) = _
    rw [hw]
    exact flipRow_eq_reverse _ k _ (partial_cell List.reverse b.data k hk)
  · intro i j row hrow hj
    have hi : i < b.data.length := by
      by_contra h
      rw [List.getElem?_eq_none (by omega)] at hrow
      exact Option.noConfusion hrow
    have hmem : row ∈ b.data := by
      rw [List.getElem?_eq_getElem hi] at hrow
      injection hrow with hrow
      rw [← hrow]
      exact List.getElem_mem _
    exact reverse_row row b.width (h2 row hmem) j hj

/-! ### P4 rows -/

theorem forLoop_congr {σ : Type} (n : Nat) (body1 body2 : Nat → σ → Except Failure σ)
    (h : ∀ j, j < n → ∀ s, body1 j s = body2 j s) (s : σ) :
    forLoop n body1 s = forLoop n body2 s := by
  induction n with
  | zero => rfl
  | succ k ih =>
    rw [forLoop_succ, forLoop_succ, ih (fun j hj => h j (by omega))]
    cases forLoop k body2 s with
    | error e => rfl
    | ok s1 => exact h k (by omega) s1

theorem set_range_map {α : Type} (v : Nat → α) (l : List α) (k : Nat) (hk : k < l.length) :
    (((List.range k).map v) ++ l.drop k).set k (v k) =
      ((List.range (k + 1)).map v) ++ l.drop (k + 1) := by
  apply List.ext_getElem?
  intro m
  simp only [List.getElem?_set, List.getElem?_append, List.getElem?_map, List.getElem?_range,
    List.getElem?_drop, List.length_map, List.length_range, List.length_append,
    List.length_drop]
  by_cases h1 : k = m
  · subst h1
    have : k < k + (l.length - k) := by omega
    simp [this, List.getElem?_range]
  · by_cases h2 : m < k
    · have h3 : m < k + 1 := by omega
      simp [h1, h2, h3, List.getElem?_range]
    · have h3 : ¬ m < k + 1 := by omega
      simp only [h1, h2, h3, if_false]
      congr 1
      omega

theorem writeLoop_spec {α : Type} (v : Nat → α) (i : Nat) (row : List α) :
    ∀ (k : Nat) (d : List (List α)), d[i]? = some row → k ≤ row.length →
      forLoop k (fun j d1 => setCell d1 i j (v j)) d =
        .ok (d.set i ((List.range k).map v ++ row.drop k)) := by
  intro k
  induction k with
  | zero =>
    intro d hd _
    simp [forLoop, set_same d i row hd]
  | succ k ih =>
    intro d hd hk
    have hi : i < d.length := by
      by_contra h
      rw [List.getElem?_eq_none (by omega)] at hd
      exact Option.noConfusion hd
    rw [forLoop_succ, ih d hd (by omega)]
    have hk' : k < row.length := by omega
    have hrow : (d.set i ((List.range k).map v ++ row.drop k))[i]? =
        some ((List.range k).map v ++ row.drop k) := by
      simp [List.getElem?_set, hi]
    have hlen : k < ((List.range k).map v ++ row.drop k).length := by
      simp
      omega
    simp only [setCell, hrow, hlen, if_true, List.set_set]
    rw [set_range_map v row k hk']

theorem bit_eq_testBit (b k : Nat) : (((b >>> k) &&& 1) == 1) = b.testBit k := by
  simp [Nat.testBit, Nat.and_comm]

theorem bytesPerRow_eq (width : Nat) : bytesPerRow width = (width + 7) / 8 := by
  unfold bytesPerRow paddingBits
  omega

theorem unpackRow_spec (width : Nat) (buffer : List Nat) (d : List (List Bool)) (i : Nat)
    (row : List Bool) (hb : buffer.length = bytesPerRow width) (hd : d[i]? = some row)
    (hrow : row.length = width) :
    unpackRow width buffer d i =
      .ok (d.set i ((List.range width).map
        (fun j => (buffer.getD (j / 8) 0).testBit (7 - j % 8)))) := by
  unfold unpackRow
  rw [forLoop_congr width _
    (fun j d1 => setCell d1 i j ((buffer.getD (j / 8) 0).testBit (7 - j % 8)))]
  · rw [writeLoop_spec _ i row width d hd (by omega)]
    simp [← hrow]
  · intro j hj s
    have hlt : j / 8 < buffer.length := by
      rw [hb, bytesPerRow_eq]
      omega
    simp only [List.getElem?_eq_getElem hlt, List.getD_eq_getElem?_getD, Option.getD_some,
      bit_eq_testBit]

/-- The row buffer and the bit loop of the P4 branch, apart from the place in
the file at which `file.Read` continues.  For every positive width the row
buffer has `ceil(width / 8)` bytes, which is what one `file.Read` consumes
when the file still holds that many; the bit loop completes and sets column
`j` of the row to bit `7 - j % 8` of byte `j / 8` for every `j < width`; and
two buffers that agree on these bits, that is, differ at most in the padding
bits of the last byte, give the same row. -/
theorem p4_row_unpacking (width : Nat) (hw : 0 < width) :
    (bytesPerRow width = (width + 7) / 8 ∧ width ≤ 8 * bytesPerRow width ∧
      8 * bytesPerRow width < width + 8) ∧
    (∀ buffer unread : List Nat, buffer.length = bytesPerRow width →
      bytesPerRow width ≤ unread.length →
      fileRead buffer unread =
        .ok (unread.take (bytesPerRow width), unread.drop (bytesPerRow width))) ∧
    (∀ (buffer : List Nat) (d : List (List Bool)) (i : Nat) (row : List Bool),
      buffer.length = bytesPerRow width → d[i]? = some row → row.length = width →
      ∃ row1, unpackRow width buffer d i = .ok (d.set i row1) ∧ row1.length = width ∧
        ∀ j, j < width → row1[j]? = some ((buffer.getD (j / 8) 0).testBit (7 - j % 8))) ∧
    (∀ (buffer1 buffer2 : List Nat) (d : List (List Bool)) (i : Nat) (row : List Bool),
      buffer1.length = bytesPerRow width → buffer2.length = bytesPerRow width →
      d[i]? = some row → row.length = width →
      (∀ j, j < width → (buffer1.getD (j / 8) 0).testBit (7 - j % 8) =
        (buffer2.getD (j / 8) 0).testBit (7 - j % 8)) →
      unpackRow width buffer1 d i = unpackRow width buffer2 d i) := by
  have hbpr := bytesPerRow_eq width
  refine ⟨⟨hbpr, by omega, by omega⟩, ?_, ?_, ?_⟩
  · intro buffer unread hb hu
    have h1 : ¬ buffer.length = 0 := by omega
    have h2 : ¬ unread.length = 0 := by omega
    have h3 : min buffer.length unread.length = bytesPerRow width := by omega
    simp only [fileRead, h1, h2, if_false, h3]
    rw [← hb, List.drop_length, List.append_nil]
  · intro buffer d i row hb hd hrow
    refine ⟨_, unpackRow_spec width buffer d i row hb hd hrow, by simp, ?_⟩
    intro j hj
    simp [List.getElem?_range, hj]
  · intro buffer1 buffer2 d i row hb1 hb2 hd hrow hbits
    rw [unpackRow_spec width buffer1 d i row hb1 hd hrow,
      unpackRow_spec width buffer2 d i row hb2 hd hrow]
    congr 2
    apply List.map_congr_left
    intro j hj
    exact hbits j (by simpa using hj)

theorem p4_row_unpacking_witness :
    bytesPerRow 10 = 2 ∧
      fileRead [0, 0] [0xAA, 0xC0, 0x55] = .ok ([0xAA, 0xC0], [0x55]) ∧
      (∃ row1, unpackRow 10 [0xAA, 0xC0] [List.replicate 10 false] 0 =
          .ok ([List.replicate 10 false].set 0 row1) ∧ row1.length = 10 ∧
        ∀ j, j < 10 →
          row1[j]? = some ((([0xAA, 0xC0] : List Nat).getD (j / 8) 0).testBit (7 - j % 8))) ∧
      unpackRow 10 [0xAA, 0xC0] [List.replicate 10 false] 0 =
        unpackRow 10 [0xAA, 0xFF] [List.replicate 10 false] 0 :=
  ⟨by decide,
    (p4_row_unpacking 10 (by decide)).2.1 [0, 0] [0xAA, 0xC0, 0x55] (by decide) (by decide),
    (p4_row_unpacking 10 (by decide)).2.2.1 [0xAA, 0xC0] [List.replicate 10 false] 0
      (List.replicate 10 false) (by decide) (by decide) (by decide),
    (p4_row_unpacking 10 (by decide)).2.2.2 [0xAA, 0xC0] [0xAA, 0xFF]
      [List.replicate 10 false] 0 (List.replicate 10 false) (by decide) (by decide)
      (by decide) (by decide) (by decide)⟩

/-! ### Text: lines, fields, numbers -/

theorem rawLinesAux_line (l rest acc : List Char) (h : ∀ c ∈ l, c ≠ '\n') :
    rawLinesAux (l ++ '\n' :: rest) acc = (acc.reverse ++ l) :: rawLinesAux rest [] := by
  induction l generalizing acc with
  | nil => simp [rawLinesAux]
  | cons c cs ih =>
    have hc : c ≠ '\n' := h c (List.mem_cons_self _ _)
    have hcs : ∀ x ∈ cs, x ≠ '\n' := fun x hx => h x (List.mem_cons_of_mem _ hx)
    rw [List.cons_append, rawLinesAux, if_neg hc, ih _ hcs]
    simp

theorem rawLines_line (l rest : List Char) (h : ∀ c ∈ l, c ≠ '\n') :
    rawLines (l ++ '\n' :: rest) = l :: rawLines rest := by
  unfold rawLines
  rw [rawLinesAux_line l rest [] h]
  simp

theorem rawLines_nil : rawLines [] = [] := rfl

theorem fieldsAux_token (tok rest acc : List Char) (h : ∀ c ∈ tok, isSpace c = false) :
    fieldsAux (tok ++ rest) acc = fieldsAux rest (tok.reverse ++ acc) := by
  induction tok generalizing acc with
  | nil => simp
  | cons c cs ih =>
    have hc : isSpace c = false := h c (List.mem_cons_self _ _)
    have hcs : ∀ x ∈ cs, isSpace x = false := fun x hx => h x (List.mem_cons_of_mem _ hx)
    rw [List.cons_append]
    simp only [fieldsAux, hc, Bool.false_eq_true, if_false]
    rw [ih _ hcs]
    simp

theorem Fields_token_space (tok rest : List Char) (s : Char) (hs : isSpace s = true)
    (hne : tok ≠ []) (h : ∀ c ∈ tok, isSpace c = false) :
    Fields (tok ++ s :: rest) = tok :: Fields rest := by
  unfold Fields
  rw [fieldsAux_token tok _ [] h]
  cases hrev : tok.reverse with
  | nil => exact absurd (List.reverse_eq_nil_iff.mp hrev) hne
  | cons a as =>
    have htok : tok = (a :: as).reverse := by rw [← hrev, List.reverse_reverse]
    subst htok
    simp [fieldsAux, hs]

theorem Fields_token (tok : List Char) (hne : tok ≠ [])
    (h : ∀ c ∈ tok, isSpace c = false) : Fields tok = [tok] := by
  unfold Fields
  have := fieldsAux_token tok [] [] h
  rw [List.append_nil] at this
  rw [this]
  cases hrev : tok.reverse with
  | nil => exact absurd (List.reverse_eq_nil_iff.mp hrev) hne
  | cons a as =>
    have htok : tok = (a :: as).reverse := by rw [← hrev, List.reverse_reverse]
    subst htok
    simp [fieldsAux]

theorem fieldsAux_trailing_space (l acc : List Char) (s : Char) (hs : isSpace s = true) :
    fieldsAux (l ++ [s]) acc = fieldsAux l acc := by
  induction l generalizing acc with
  | nil =>
    cases acc with
    | nil => simp [fieldsAux, hs]
    | cons a as => simp [fieldsAux, hs]
  | cons c cs ih =>
    by_cases hc : isSpace c = true
    · cases acc with
      | nil => simp [fieldsAux, hc, ih]
      | cons a as => simp [fieldsAux, hc, ih]
    · simp [fieldsAux, hc, ih]

theorem Fields_dropWhile (s : List Char) : Fields (s.dropWhile isSpace) = Fields s := by
  induction s with
  | nil => rfl
  | cons c cs ih =>
    by_cases hc : isSpace c = true
    · rw [List.dropWhile_cons_of_pos hc, ih]
      simp [Fields, fieldsAux, hc]
    · rw [List.dropWhile_cons_of_neg hc]

theorem Fields_rdropWhile (s : List Char) :
    Fields ((s.reverse.dropWhile isSpace).reverse) = Fields s := by
  induction s using List.reverseRecOn with
  | nil => rfl
  | append_singleton l x ih =>
    by_cases hx : isSpace x = true
    · rw [List.reverse_append, List.reverse_singleton, List.singleton_append,
        List.dropWhile_cons_of_pos hx, ih]
      unfold Fields
      rw [fieldsAux_trailing_space l [] x hx]
    · rw [List.reverse_append, List.reverse_singleton, List.singleton_append,
        List.dropWhile_cons_of_neg hx]
      simp

theorem Fields_TrimSpace (s : List Char) : Fields (TrimSpace s) = Fields s := by
  unfold TrimSpace
  rw [Fields_rdropWhile, Fields_dropWhile]

theorem dropWhile_snoc_neg (p : Char → Bool) (l : List Char) (c : Char) (hc : p c = false) :
    (l ++ [c]).dropWhile p = l.dropWhile p ++ [c] := by
  induction l with
  | nil => simp [List.dropWhile, hc]
  | cons a as ih =>
    by_cases ha : p a = true
    · simp [List.dropWhile_cons_of_pos ha, ih]
    · simp [List.dropWhile_cons_of_neg ha]

theorem TrimSpace_cons (c : Char) (rest : List Char) (hc : isSpace c = false) :
    ∃ rest1, TrimSpace (c :: rest) = c :: rest1 := by
  unfold TrimSpace
  have h1 : (c :: rest).dropWhile isSpace = c :: rest := by
    rw [List.dropWhile_cons_of_neg (by simp [hc])]
  rw [h1, List.reverse_cons, dropWhile_snoc_neg isSpace _ c hc]
  exact ⟨(List.dropWhile isSpace rest.reverse).reverse, by simp⟩

theorem dropCR_eq (l : List Char) (h : l.getLast? ≠ some '\r') : dropCR l = l := by
  unfold dropCR
  have : (l.getLast? == some '\r') = false := by simpa using h
  rw [this]
  rfl

theorem digitChar_toNat (d : Nat) (hd : d < 10) : (digitChar d).toNat = 48 + d := by
  interval_cases d <;> rfl

theorem isDigit_digitChar (d : Nat) (hd : d < 10) : isDigit (digitChar d) = true := by
  interval_cases d <;> rfl

theorem valFold_cons (c : Char) (cs : List Char) (k : Nat) :
    valFold (c :: cs) k = valFold cs (k * 10 + (c.toNat - 48)) := rfl

theorem valFold_ge (l : List Char) (k : Nat) : k ≤ valFold l k := by
  induction l generalizing k with
  | nil => exact le_refl _
  | cons c cs ih =>
    rw [valFold_cons]
    have := ih (k * 10 + (c.toNat - 48))
    omega

theorem fmtNatAux_val (fuel : Nat) :
    ∀ (n : Nat) (acc : List Char), n < fuel → valFold (fmtNatAux fuel n acc) 0 = valFold acc n := by
  induction fuel with
  | zero => intro n acc h; omega
  | succ fuel ih =>
    intro n acc h
    rw [fmtNatAux]
    by_cases hn : n < 10
    · rw [if_pos hn, valFold_cons, digitChar_toNat n hn]
      congr 1
      omega
    · rw [if_neg hn, ih (n / 10) _ (by omega), valFold_cons,
        digitChar_toNat (n % 10) (by omega)]
      congr 1
      omega

theorem fmtNatAux_digits (fuel : Nat) :
    ∀ (n : Nat) (acc : List Char), ∀ c ∈ fmtNatAux fuel n acc, isDigit c = true ∨ c ∈ acc := by
  induction fuel with
  | zero => intro n acc c hc; exact Or.inr hc
  | succ fuel ih =>
    intro n acc c hc
    rw [fmtNatAux] at hc
    by_cases hn : n < 10
    · rw [if_pos hn] at hc
      rcases List.mem_cons.mp hc with h | h
      · exact Or.inl (h ▸ isDigit_digitChar n hn)
      · exact Or.inr h
    · rw [if_neg hn] at hc
      rcases ih _ _ c hc with h | h
      · exact Or.inl h
      · rcases List.mem_cons.mp h with h1 | h1
        · exact Or.inl (h1 ▸ isDigit_digitChar (n % 10) (by omega))
        · exact Or.inr h1

theorem fmtNatAux_length (fuel : Nat) :
    ∀ (n k : Nat) (acc : List Char), 0 < k → n < 10 ^ k →
      (fmtNatAux fuel n acc).length ≤ k + acc.length := by
  induction fuel with
  | zero => intro n k acc _ _; simp [fmtNatAux]
  | succ fuel ih =>
    intro n k acc hk hn
    rw [fmtNatAux]
    by_cases h10 : n < 10
    · rw [if_pos h10]
      simp
      omega
    · rw [if_neg h10]
      obtain ⟨k1, rfl⟩ : ∃ k1, k = k1 + 1 := ⟨k - 1, by omega⟩
      have hk1 : 0 < k1 := by
        by_contra h0
        have : k1 = 0 := by omega
        subst this
        simp at hn
        omega
      have hdiv : n / 10 < 10 ^ k1 := by
        rw [pow_succ] at hn
        omega
      have := ih (n / 10) k1 (digitChar (n % 10) :: acc) hk1 hdiv
      simp at this
      omega

theorem fmtNatAux_ne_nil (fuel n : Nat) (acc : List Char) : fmtNatAux (fuel + 1) n acc ≠ [] := by
  induction fuel generalizing n acc with
  | zero =>
    rw [fmtNatAux]
    by_cases hn : n < 10
    · simp [hn]
    · simp [hn, fmtNatAux]
  | succ fuel ih =>
    rw [fmtNatAux]
    by_cases hn : n < 10
    · simp [hn]
    · rw [if_neg hn]
      exact ih _ _

theorem fmtNat_val (n : Nat) : valFold (fmtNat n) 0 = n := by
  unfold fmtNat
  rw [fmtNatAux_val (n + 1) n [] (by omega)]
  rfl

theorem fmtNat_digits (n : Nat) : ∀ c ∈ fmtNat n, isDigit c = true := by
  intro c hc
  rcases fmtNatAux_digits (n + 1) n [] c hc with h | h
  · exact h
  · exact absurd h (List.not_mem_nil _)

theorem fmtNat_ne_nil (n : Nat) : fmtNat n ≠ [] := fmtNatAux_ne_nil n n []

theorem fmtNat_length (n : Nat) (hn : n < 2 ^ 63) : (fmtNat n).length ≤ 19 := by
  have := fmtNatAux_length (n + 1) n 19 [] (by omega) (by
    have : (2 : Nat) ^ 63 < 10 ^ 19 := by norm_num
    omega)
  simpa [fmtNat] using this

theorem isDigit_bounds (c : Char) (h : isDigit c = true) : 48 ≤ c.toNat ∧ c.toNat ≤ 57 := by
  simpa [isDigit] using h

theorem isDigit_not_space (c : Char) (h : isDigit c = true) : isSpace c = false := by
  have := isDigit_bounds c h
  simp only [isSpace, Bool.or_eq_false_iff, Bool.and_eq_false_iff, decide_eq_false_iff_not,
    beq_eq_false_iff_ne]
  omega

theorem parseDigits_val (l : List Char) :
    ∀ k : Nat, (∀ c ∈ l, isDigit c = true) → valFold l k < 2 ^ 64 →
      parseDigits l k = some (valFold l k) := by
  induction l with
  | nil => intro k _ _; rfl
  | cons c cs ih =>
    intro k hd hv
    have hc : isDigit c = true := hd c (List.mem_cons_self _ _)
    rw [valFold_cons] at hv ⊢
    have hge := valFold_ge cs (k * 10 + (c.toNat - 48))
    have hlt : ¬ 2 ^ 64 ≤ k * 10 + (c.toNat - 48) := by omega
    rw [parseDigits, hc, if_pos rfl, if_neg hlt]
    exact ih _ (fun x hx => hd x (List.mem_cons_of_mem _ hx)) hv

theorem Atoi_fmtNat (n : Nat) (hn : n < 2 ^ 63) : Atoi (fmtNat n) = ((n : Int), false) := by
  have hne := fmtNat_ne_nil n
  have hdig := fmtNat_digits n
  have hval := fmtNat_val n
  have hparse := parseDigits_val (fmtNat n) 0 hdig (by rw [hval]; omega)
  rw [hval] at hparse
  cases hf : fmtNat n with
  | nil => exact absurd hf hne
  | cons c cs =>
    rw [hf] at hparse hdig
    have hc := isDigit_bounds c (hdig c (List.mem_cons_self _ _))
    have h1 : c ≠ '-' := by
      intro h
      rw [h] at hc
      revert hc
      decide
    have h2 : c ≠ '+' := by
      intro h
      rw [h] at hc
      revert hc
      decide
    have hlt : ¬ 2 ^ 63 ≤ n := by omega
    simp [Atoi, h1, h2, hparse, hlt]
    omega

theorem utf8Size_ascii (c : Char) (h : c.toNat < 128) : c.utf8Size = 1 := by
  have h0 : c.val.toBitVec.toNat < 128 := h
  have h1 : c.val ≤ UInt32.ofNatCore 127 (by decide) := by
    rw [UInt32.le_def, BitVec.le_def]
    show c.val.toBitVec.toNat ≤ 127
    omega
  unfold Char.utf8Size
  simp only [h1, if_true]

theorem byteLen_append (a b : List Char) : byteLen (a ++ b) = byteLen a + byteLen b := by
  simp [byteLen]

theorem byteLen_cons (c : Char) (l : List Char) : byteLen (c :: l) = c.utf8Size + byteLen l := by
  simp [byteLen]

theorem byteLen_ascii (l : List Char) (h : ∀ c ∈ l, c.toNat < 128) : byteLen l = l.length := by
  induction l with
  | nil => rfl
  | cons c cs ih =>
    rw [byteLen_cons, utf8Size_ascii c (h c (List.mem_cons_self _ _)),
      ih (fun x hx => h x (List.mem_cons_of_mem _ hx))]
    simp
    omega

theorem byteLen_fmtNat (n : Nat) : byteLen (fmtNat n) = (fmtNat n).length := by
  apply byteLen_ascii
  intro c hc
  have := isDigit_bounds c (fmtNat_digits n c hc)
  omega

/-! ### The closure readNextLine -/

theorem readNextLine_head (c : Char) (rest : List Char) (ls : List (List Char))
    (hlen : byteLen (c :: rest) < maxScanTokenSize) (hc : isSpace c = false) (hcom : c ≠ '#')
    (hcr : (c :: rest).getLast? ≠ some '\r') :
    readNextLine ((c :: rest) :: ls) = .ok (TrimSpace (c :: rest), ls) := by
  obtain ⟨rest1, h1⟩ := TrimSpace_cons c rest hc
  have hnot : ¬ maxScanTokenSize ≤ byteLen (c :: rest) := by omega
  rw [readNextLine, if_neg hnot, dropCR_eq _ hcr]
  have hne : TrimSpace (c :: rest) ≠ [] := by rw [h1]; exact List.cons_ne_nil _ _
  have hcm : isComment (TrimSpace (c :: rest)) = false := by
    rw [h1]
    simp [isComment, hcom]
  simp only [hne, hcm, ne_eq, not_false_eq_true, and_self, if_true]

/-! ### Rows of a P1 file -/

theorem rowText_chars (r : List Bool) : ∀ c ∈ rowText r, c = '1' ∨ c = '0' ∨ c = ' ' := by
  induction r with
  | nil => intro c hc; exact absurd hc (List.not_mem_nil _)
  | cons b r ih =>
    intro c hc
    rw [rowText] at hc
    rcases List.mem_cons.mp hc with h | h
    · cases b
      · exact Or.inr (Or.inl (by simpa using h))
      · exact Or.inl (by simpa using h)
    · rcases List.mem_cons.mp h with h1 | h1
      · exact Or.inr (Or.inr h1)
      · exact ih c h1

theorem rowText_length (r : List Bool) : (rowText r).length = 2 * r.length := by
  induction r with
  | nil => rfl
  | cons b r ih =>
    rw [rowText]
    simp [ih]
    omega

theorem rowText_byteLen (r : List Bool) : byteLen (rowText r) = 2 * r.length := by
  rw [byteLen_ascii, rowText_length]
  intro c hc
  rcases rowText_chars r c hc with h | h | h <;> subst h <;> decide

theorem rowText_no_newline (r : List Bool) : ∀ c ∈ rowText r, c ≠ '\n' := by
  intro c hc
  rcases rowText_chars r c hc with h | h | h <;> subst h <;> decide

theorem rowText_getLast (r : List Bool) (hr : r ≠ []) : (rowText r).getLast? = some ' ' := by
  induction r with
  | nil => exact absurd rfl hr
  | cons b r ih =>
    cases r with
    | nil => simp [rowText]
    | cons b1 r1 =>
      have := ih (List.cons_ne_nil _ _)
      rw [rowText]
      rw [rowText] at this ⊢
      simp only [List.getLast?_cons_cons] at this ⊢
      exact this

theorem Fields_rowText (r : List Bool) :
    Fields (rowText r) = r.map (fun b => [if b then '1' else '0']) := by
  induction r with
  | nil => rfl
  | cons b r ih =>
    rw [rowText]
    have := Fields_token_space [if b then '1' else '0'] (rowText r) ' ' (by decide)
      (List.cons_ne_nil _ _) (by
        intro c hc
        cases b <;> simp at hc <;> subst hc <;> decide)
    simp only [List.singleton_append] at this
    rw [this, ih]
    rfl

theorem rawLines_rowsText (rows : List (List Bool)) :
    rawLines (rowsText rows) = rows.map rowText := by
  induction rows with
  | nil => rfl
  | cons r rs ih =>
    rw [rowsText, rawLines_line _ _ (rowText_no_newline r), ih]
    rfl

theorem readNextLine_row (r : List Bool) (ls : List (List Char)) (hr : r ≠ [])
    (hlen : 2 * r.length < maxScanTokenSize) :
    ∃ line, readNextLine (rowText r :: ls) = .ok (line, ls) ∧
      Fields line = r.map (fun b => [if b then '1' else '0']) := by
  cases r with
  | nil => exact absurd rfl hr
  | cons b r1 =>
    have hlast := rowText_getLast (b :: r1) hr
    have hbl := rowText_byteLen (b :: r1)
    have hF := Fields_rowText (b :: r1)
    rw [rowText] at hlast hbl hF ⊢
    refine ⟨_, readNextLine_head _ _ ls (by omega) ?_ ?_ ?_, ?_⟩
    · cases b <;> decide
    · cases b <;> decide
    · rw [hlast]
      decide
    · rw [Fields_TrimSpace, hF]

theorem set_padRow (r1 : List Bool) (n : Nat) (b : Bool) :
    (r1 ++ List.replicate (n + 1) false).set r1.length b =
      (r1 ++ [b]) ++ List.replicate n false := by
  induction r1 with
  | nil => simp [List.replicate_succ]
  | cons a as ih => simpa using ih

theorem Atoi_bit (b : Bool) :
    Atoi [if b then '1' else '0'] = ((if b then 1 else 0 : Int), false) := by
  cases b <;> decide

theorem fillRow_spec (width i : Nat) (r2 : List Bool) :
    ∀ (d : List (List Bool)) (r1 : List Bool), r1.length + r2.length ≤ width →
      d[i]? = some (padRow width r1) →
      fillRow d i (r2.map (fun b => [if b then '1' else '0'])) r1.length =
        .ok (d.set i (padRow width (r1 ++ r2))) := by
  induction r2 with
  | nil =>
    intro d r1 _ hd
    simp [fillRow, set_same d i _ hd]
  | cons b r ih =>
    intro d r1 hlen hd
    have hi : i < d.length := by
      by_contra h
      rw [List.getElem?_eq_none (by omega)] at hd
      exact Option.noConfusion hd
    simp only [List.length_cons] at hlen
    have hj : r1.length < (padRow width r1).length := by
      simp [padRow]
      omega
    have hpad : padRow width r1 = r1 ++ List.replicate (width - r1.length - 1 + 1) false := by
      unfold padRow
      congr 2
      omega
    have hset : (padRow width r1).set r1.length b = padRow width (r1 ++ [b]) := by
      rw [hpad, set_padRow]
      unfold padRow
      congr 2
      simp
      omega
    have hb : ((if b then (1 : Int) else 0) == 1) = b := by cases b <;> rfl
    rw [List.map_cons, fillRow, Atoi_bit]
    simp only [setCell, hd, hj, if_true, hb, hset]
    have := ih (d.set i (padRow width (r1 ++ [b]))) (r1 ++ [b]) (by simp; omega)
      (by simp [List.getElem?_set, hi])
    simp only [List.length_append, List.length_singleton, List.set_set, List.append_assoc,
      List.singleton_append] at this
    exact this

theorem set_take_map2 {α β : Type} (g1 g2 : α → β) (l : List α) (k : Nat) (hk : k < l.length) :
    ((l.take k).map g1 ++ (l.drop k).map g2).set k (g1 l[k]) =
      (l.take (k + 1)).map g1 ++ (l.drop (k + 1)).map g2 := by
  apply List.ext_getElem?
  intro m
  simp only [List.getElem?_set, List.getElem?_append, List.getElem?_map, List.getElem?_take,
    List.getElem?_drop, List.length_map, List.length_take, List.length_append, List.length_drop]
  have hmin : min k l.length = k := by omega
  have hmin1 : min (k + 1) l.length = k + 1 := by omega
  rw [hmin, hmin1]
  by_cases h1 : k = m
  · subst h1
    have : k < k + (l.length - k) := by omega
    simp [this, List.getElem?_eq_getElem hk]
  · by_cases h2 : m < k
    · have h3 : m < k + 1 := by omega
      simp [h1, h2, h3]
    · have h3 : ¬ m < k + 1 := by omega
      simp only [h1, h2, h3, if_false]
      congr 2
      omega

theorem readP1Rows_loop (width : Nat) (rows : List (List Bool)) (tl : List (List Char))
    (hrows : ∀ r ∈ rows, r ≠ [] ∧ r.length ≤ width ∧ 2 * r.length < maxScanTokenSize) :
    ∀ k, k ≤ rows.length →
      forLoop k (fun i (st : List (List Bool) × List (List Char)) =>
        match readNextLine st.2 with
        | .error e => .error e
        | .ok (line, rest) =>
          match fillRow st.1 i (Fields line) 0 with
          | .ok d1 => .ok (d1, rest)
          | .error e => .error e)
        (rows.map (fun _ => List.replicate width false), rows.map rowText ++ tl) =
      .ok ((rows.take k).map (padRow width) ++
          (rows.drop k).map (fun _ => List.replicate width false),
        (rows.drop k).map rowText ++ tl) := by
  intro k
  induction k with
  | zero => intro _; simp [forLoop]
  | succ k ih =>
    intro hk
    have hk' : k < rows.length := by omega
    rw [forLoop_succ, ih (by omega)]
    obtain ⟨hne, hle, hshort⟩ := hrows rows[k] (List.getElem_mem _)
    have hdrop : rows.drop k = rows[k] :: rows.drop (k + 1) := List.drop_eq_getElem_cons hk'
    obtain ⟨line, hline, hF⟩ :=
      readNextLine_row rows[k] ((rows.drop (k + 1)).map rowText ++ tl) hne hshort
    have hcell : ((rows.take k).map (padRow width) ++
        (rows.drop k).map (fun _ => List.replicate width false))[k]? =
        some (padRow width []) := by
      simp only [List.getElem?_append, List.length_map, List.length_take,
        List.getElem?_map, List.getElem?_drop]
      rw [min_eq_left (by omega)]
      simp [List.getElem?_eq_getElem hk', padRow]
    have hfill := fillRow_spec width k rows[k] _ [] (by simpa using hle) hcell
    simp only [List.length_nil, List.nil_append] at hfill
    have hlines : (rows.drop k).map rowText ++ tl =
        rowText rows[k] :: ((rows.drop (k + 1)).map rowText ++ tl) := by
      rw [hdrop]
      rfl
    simp only [hlines, hline, hF, hfill]
    rw [set_take_map2 (padRow width) (fun _ => List.replicate width false) rows k hk']

theorem readP1Rows_spec (width : Nat) (rows : List (List Bool)) (tl : List (List Char))
    (hrows : ∀ r ∈ rows, r ≠ [] ∧ r.length ≤ width ∧ 2 * r.length < maxScanTokenSize) :
    readP1Rows rows.length (List.replicate rows.length (List.replicate width false))
      (rows.map rowText ++ tl) = .ok (rows.map (padRow width), tl) := by
  unfold readP1Rows
  have hinit : List.replicate rows.length (List.replicate width false) =
      rows.map (fun _ => List.replicate width false) := by
    simp [List.map_const']
  rw [hinit, readP1Rows_loop width rows tl hrows rows.length (le_refl _)]
  simp

/-! ### The header of a P1 file -/

theorem fmtNat_no_newline (n : Nat) : ∀ c ∈ fmtNat n, c ≠ '\n' := by
  intro c hc h
  have := isDigit_bounds c (fmtNat_digits n c hc)
  rw [h] at this
  revert this
  decide

theorem dims_no_newline (w h : Nat) : ∀ c ∈ fmtNat w ++ ' ' :: fmtNat h, c ≠ '\n' := by
  intro c hc
  rcases List.mem_append.mp hc with h1 | h1
  · exact fmtNat_no_newline w c h1
  · rcases List.mem_cons.mp h1 with h2 | h2
    · rw [h2]
      decide
    · exact fmtNat_no_newline h c h2

theorem rawLines_p1Text (w h : Nat) (rows : List (List Bool)) :
    rawLines (p1Text w h rows) = P1 :: (fmtNat w ++ ' ' :: fmtNat h) :: rows.map rowText := by
  unfold p1Text
  rw [rawLines_line P1 _ (by decide)]
  have : fmtNat w ++ ' ' :: (fmtNat h ++ '\n' :: rowsText rows) =
      (fmtNat w ++ ' ' :: fmtNat h) ++ '\n' :: rowsText rows := by simp
  rw [this, rawLines_line _ _ (dims_no_newline w h), rawLines_rowsText]

theorem readNextLine_P1 (ls : List (List Char)) : readNextLine (P1 :: ls) = .ok (P1, ls) := by
  have := readNextLine_head 'P' ['1'] ls (by decide) (by decide) (by decide) (by decide)
  have ht : TrimSpace ['P', '1'] = P1 := by decide
  rw [ht] at this
  exact this

theorem readNextLine_dims (w h : Nat) (hw : w < 2 ^ 63) (hh : h < 2 ^ 63)
    (ls : List (List Char)) :
    ∃ line, readNextLine ((fmtNat w ++ ' ' :: fmtNat h) :: ls) = .ok (line, ls) ∧
      Fields line = [fmtNat w, fmtNat h] := by
  have hwne := fmtNat_ne_nil w
  have hhne := fmtNat_ne_nil h
  have hF : Fields (fmtNat w ++ ' ' :: fmtNat h) = [fmtNat w, fmtNat h] := by
    rw [Fields_token_space (fmtNat w) (fmtNat h) ' ' (by decide) hwne
      (fun c hc => isDigit_not_space c (fmtNat_digits w c hc)),
      Fields_token (fmtNat h) hhne (fun c hc => isDigit_not_space c (fmtNat_digits h c hc))]
  have hlast : (fmtNat w ++ ' ' :: fmtNat h).getLast? ≠ some '\r' := by
    have e : fmtNat w ++ ' ' :: fmtNat h = (fmtNat w ++ [' ']) ++ fmtNat h := by simp
    rw [e, List.getLast?_append_of_ne_nil _ hhne, List.getLast?_eq_getLast _ hhne]
    intro hcontra
    have hmem := List.getLast_mem hhne
    rw [Option.some.inj hcontra] at hmem
    have := isDigit_bounds _ (fmtNat_digits h _ hmem)
    revert this
    decide
  have hlen : byteLen (fmtNat w ++ ' ' :: fmtNat h) < maxScanTokenSize := by
    rw [byteLen_append, byteLen_cons, byteLen_fmtNat, byteLen_fmtNat,
      utf8Size_ascii ' ' (by decide)]
    have := fmtNat_length w hw
    have := fmtNat_length h hh
    unfold maxScanTokenSize
    omega
  cases hf : fmtNat w with
  | nil => exact absurd hf hwne
  | cons c cs =>
    have hc : isDigit c = true := fmtNat_digits w c (by rw [hf]; exact List.mem_cons_self _ _)
    have hcb := isDigit_bounds c hc
    rw [hf] at hF hlast hlen
    rw [List.cons_append] at hF hlast hlen ⊢
    refine ⟨_, readNextLine_head c _ ls hlen (isDigit_not_space c hc) ?_ hlast, ?_⟩
    · intro h1
      rw [h1] at hcb
      revert hcb
      decide
    · rw [Fields_TrimSpace, hF]

theorem ReadPBM_p1_header (content : List Char) (unread : List Nat) (w h : Nat)
    (tl : List (List Char)) (hw : w < 2 ^ 63) (hh : h < 2 ^ 63)
    (hlines : rawLines content = P1 :: (fmtNat w ++ ' ' :: fmtNat h) :: tl) :
    ReadPBM content unread =
      if 0 < w ∧ 0 < h then
        match readP1Rows h (List.replicate h (List.replicate w false)) tl with
        | .ok st => .ok ⟨st.1, w, h, P1⟩
        | .error e => .error e
      else .ok ⟨[], w, h, P1⟩ := by
  obtain ⟨line, hline, hF⟩ := readNextLine_dims w h hw hh tl
  unfold ReadPBM
  rw [hlines, readNextLine_P1]
  simp only [hline, hF, Atoi_fmtNat w hw, Atoi_fmtNat h hh]
  have hP : ¬ (P1 ≠ P1 ∧ P1 ≠ P4) := by decide
  simp only [hP, if_false, Int.toNat_ofNat, if_true]
  by_cases hpos : 0 < w ∧ 0 < h
  · have hpos' : (0 : Int) < (w : Int) ∧ (0 : Int) < (h : Int) := by omega
    rw [if_pos hpos, if_pos hpos']
  · have hpos' : ¬ ((0 : Int) < (w : Int) ∧ (0 : Int) < (h : Int)) := by omega
    rw [if_neg hpos, if_neg hpos']

/-- Reading a P1 text whose rows have between one and `width` samples: the
image has the declared size and every row is filled up with `false`. -/
theorem ReadPBM_p1Text (w h : Nat) (rows : List (List Bool)) (unread : List Nat)
    (hw : 0 < w) (hh : 0 < h) (hw63 : w < 2 ^ 63) (hh63 : h < 2 ^ 63)
    (hlen : rows.length = h)
    (hrows : ∀ r ∈ rows, r ≠ [] ∧ r.length ≤ w ∧ 2 * r.length < maxScanTokenSize) :
    ReadPBM (p1Text w h rows) unread = .ok ⟨rows.map (padRow w), w, h, P1⟩ := by
  rw [ReadPBM_p1_header _ unread w h (rows.map rowText) hw63 hh63 (rawLines_p1Text w h rows),
    if_pos ⟨hw, hh⟩]
  have := readP1Rows_spec w rows [] hrows
  rw [List.append_nil, hlen] at this
  rw [this]

/-! ### Save of a P1 image -/

theorem appendLoop_spec (body : Nat → List Char → Except Failure (List Char))
    (f : Nat → List Char) (n : Nat) (h : ∀ j, j < n → ∀ s, body j s = .ok (s ++ f j))
    (s0 : List Char) : forLoop n body s0 = .ok (s0 ++ concatUpTo f n) := by
  induction n with
  | zero => simp [forLoop, concatUpTo]
  | succ k ih =>
    rw [forLoop_succ, ih (fun j hj => h j (by omega))]
    show body k _ = _
    rw [h k (by omega)]
    simp [concatUpTo]

theorem rowText_append (l : List Bool) (b : Bool) :
    rowText (l ++ [b]) = rowText l ++ (if b then ['1', ' '] else ['0', ' ']) := by
  induction l with
  | nil => cases b <;> rfl
  | cons a as ih =>
    rw [List.cons_append, rowText, ih, rowText]
    simp

theorem rowsText_append (l : List (List Bool)) (r : List Bool) :
    rowsText (l ++ [r]) = rowsText l ++ (rowText r ++ ['\n']) := by
  induction l with
  | nil => simp [rowsText]
  | cons a as ih =>
    rw [List.cons_append, rowsText, ih, rowsText]
    simp

theorem concat_rowText (row : List Bool) :
    ∀ m, m ≤ row.length →
      concatUpTo (fun j => if row.getD j false then ['1', ' '] else ['0', ' ']) m =
        rowText (row.take m) := by
  intro m
  induction m with
  | zero => intro _; simp [concatUpTo, rowText]
  | succ k ih =>
    intro hk
    have hk' : k < row.length := by omega
    rw [concatUpTo, ih (by omega), List.take_succ, List.getElem?_eq_getElem hk']
    simp only [Option.toList_some]
    rw [rowText_append, List.getD_eq_getElem?_getD, List.getElem?_eq_getElem hk']
    rfl

theorem concat_rowsText (data : List (List Bool)) :
    ∀ k, k ≤ data.length →
      concatUpTo (fun i => rowText (data.getD i []) ++ ['\n']) k = rowsText (data.take k) := by
  intro k
  induction k with
  | zero => intro _; simp [concatUpTo, rowsText]
  | succ k ih =>
    intro hk
    have hk' : k < data.length := by omega
    rw [concatUpTo, ih (by omega), List.take_succ, List.getElem?_eq_getElem hk']
    simp only [Option.toList_some]
    rw [rowsText_append, List.getD_eq_getElem?_getD, List.getElem?_eq_getElem hk']
    rfl

theorem fmtInt_natCast (n : Nat) : fmtInt (n : Int) = fmtNat n := by
  unfold fmtInt
  have : ¬ ((n : Int) < 0) := by omega
  rw [if_neg this]
  simp

theorem PBM_Save_p1 (pbm : PBM) (w h : Nat) (hwf : pbm.wellFormed = true)
    (hm : pbm.magicNumber = P1) (hw : pbm.width = (w : Int)) (hh : pbm.height = (h : Int)) :
    pbm.Save = .ok (p1Text w h pbm.data) := by
  obtain ⟨h1, h2⟩ := (pbm_wellFormed_iff pbm).mp hwf
  have hlen : pbm.data.length = h := by omega
  unfold PBM.Save
  simp only [hm, if_true]
  rw [hw, hh, fmtInt_natCast, fmtInt_natCast]
  simp only [Int.toNat_ofNat]
  rw [appendLoop_spec _ (fun i => rowText (pbm.data.getD i []) ++ ['\n']) h]
  · rw [concat_rowsText pbm.data h (by omega), ← hlen, List.take_length]
    simp [p1Text]
  · intro i hi s
    have hi' : i < pbm.data.length := by omega
    have hrow : ((pbm.data[i]).length : Int) = pbm.width := h2 _ (List.getElem_mem _)
    have hrl : (pbm.data[i]).length = w := by omega
    rw [appendLoop_spec _
      (fun j => if (pbm.data[i]).getD j false then ['1', ' '] else ['0', ' ']) w]
    · rw [concat_rowText _ w (by omega), ← hrl, List.take_length,
        List.getD_eq_getElem?_getD, List.getElem?_eq_getElem hi']
      simp
    · intro j hj s1
      have hj' : j < (pbm.data[i]).length := by omega
      simp [getCell, List.getElem?_eq_getElem hi', List.getElem?_eq_getElem hj',
        List.getD_eq_getElem?_getD]

/-! ### Round trip of a P1 image -/

theorem padRow_full (w : Nat) (r : List Bool) (h : r.length = w) : padRow w r = r := by
  simp [padRow, h]

theorem forLoop_first_error {σ : Type} (body : Nat → σ → Except Failure σ) (s : σ)
    (e : Failure) (h0 : body 0 s = .error e) : ∀ n, 0 < n → forLoop n body s = .error e := by
  intro n
  induction n with
  | zero => intro h; omega
  | succ k ih =>
    intro _
    rw [forLoop_succ]
    by_cases hk : k = 0
    · subst hk
      exact h0
    · rw [ih (by omega)]

/-- C1 at the input `emptyRowBitmap`, a well-formed P1 image of width 0 and
height 1: `Save` writes the header and one empty line, and `ReadPBM` gives
back an image with the same magic number, width and height but a grid without
rows. -/
theorem empty_rows_lost_on_reading_back :
    emptyRowBitmap.wellFormed = true ∧ emptyRowBitmap.magicNumber = P1 ∧
      emptyRowBitmap.Save = .ok "P1\n0 1\n\n".toList ∧
      ReadPBM "P1\n0 1\n\n".toList [] = .ok ⟨[], 0, 1, P1⟩ ∧
      (⟨[], 0, 1, P1⟩ : PBM) ≠ emptyRowBitmap := by
  decide

/-- C1, amended: for every well-formed P1 image whose sizes are non-negative
Go ints, `Save` completes and reading its bytes back with `ReadPBM`
* gives the same image when the height is 0, or when the width is positive and
  below 32768, so that a row line fits the buffer of the scanner;
* gives the same magic number, width and height with a grid without rows when
  the width is 0;
* fails with the error of the scanner when the height is positive and the
  width is 32768 or more. -/
theorem p1_round_trip (pbm : PBM) (unread : List Nat) (hwf : pbm.wellFormed = true)
    (hm : pbm.magicNumber = P1) (hw0 : 0 ≤ pbm.width) (hw : pbm.width < 2 ^ 63)
    (hh : pbm.height < 2 ^ 63) :
    ∃ text, pbm.Save = .ok text ∧
      ((pbm.height = 0 ∨ (0 < pbm.width ∧ pbm.width < 32768)) →
        ReadPBM text unread = .ok pbm) ∧
      (pbm.width = 0 → ReadPBM text unread = .ok { pbm with data := [] }) ∧
      (0 < pbm.height → 32768 ≤ pbm.width →
        ReadPBM text unread = .error (.error "bufio.Scanner: token too long")) := by
  obtain ⟨h1, h2⟩ := (pbm_wellFormed_iff pbm).mp hwf
  obtain ⟨w, hwe⟩ : ∃ w : Nat, pbm.width = (w : Int) := ⟨pbm.width.toNat, by omega⟩
  obtain ⟨h, hhe⟩ : ∃ h : Nat, pbm.height = (h : Int) := ⟨pbm.height.toNat, by omega⟩
  have hlen : pbm.data.length = h := by omega
  have hrl : ∀ r ∈ pbm.data, r.length = w := by
    intro r hr
    have := h2 r hr
    omega
  have hhead := ReadPBM_p1_header (p1Text w h pbm.data) unread w h (pbm.data.map rowText)
    (by omega) (by omega) (rawLines_p1Text w h pbm.data)
  have hstruct : pbm = ⟨pbm.data, (w : Int), (h : Int), P1⟩ := by
    cases pbm
    simp only [PBM.mk.injEq] at *
    exact ⟨trivial, hwe, hhe, hm⟩
  refine ⟨p1Text w h pbm.data, PBM_Save_p1 pbm w h hwf hm hwe hhe, ?_, ?_, ?_⟩
  · intro hcase
    by_cases hh0 : h = 0
    · have hnil : pbm.data = [] := List.length_eq_zero.mp (by omega)
      rw [hhead, if_neg (by omega)]
      rw [hstruct, hnil]
    · have hwpos : 0 < w ∧ w < 32768 := by omega
      rw [ReadPBM_p1Text w h pbm.data unread (by omega) (by omega) (by omega) (by omega) hlen]
      · have : pbm.data.map (padRow w) = pbm.data := by
          conv_rhs => rw [← List.map_id pbm.data]
          apply List.map_congr_left
          intro r hr
          exact padRow_full w r (hrl r hr)
        rw [this]
        exact congrArg Except.ok hstruct.symm
      · intro r hr
        have := hrl r hr
        refine ⟨?_, by omega, ?_⟩
        · intro hnil
          rw [hnil] at this
          simp at this
          omega
        · unfold maxScanTokenSize
          omega
  · intro hw0'
    have : w = 0 := by omega
    rw [hhead, if_neg (by omega)]
    rw [hwe, hhe, hm]
  · intro hhpos hwbig
    rw [hhead, if_pos (by omega)]
    obtain ⟨r0, rest, hdata⟩ : ∃ r0 rest, pbm.data = r0 :: rest := by
      cases hd : pbm.data with
      | nil => rw [hd] at hlen; simp at hlen; omega
      | cons a as => exact ⟨a, as, rfl⟩
    have hr0 : r0.length = w := hrl r0 (by rw [hdata]; exact List.mem_cons_self _ _)
    have hlong : maxScanTokenSize ≤ byteLen (rowText r0) := by
      rw [rowText_byteLen]
      unfold maxScanTokenSize
      omega
    unfold readP1Rows
    rw [forLoop_first_error _ _ (.error "bufio.Scanner: token too long") ?_ h (by omega)]
    rw [hdata]
    simp only [List.map_cons, readNextLine, hlong, if_true]

theorem p1_round_trip_witness :
    asciiBitmap.wellFormed = true ∧ asciiBitmap.magicNumber = P1 ∧
      ∃ text, asciiBitmap.Save = .ok text ∧ ReadPBM text [] = .ok asciiBitmap :=
  ⟨by decide, by decide,
    (p1_round_trip asciiBitmap [] (by decide) (by decide) (by decide) (by decide)
      (by decide)).imp (fun _ h => ⟨h.1, h.2.1 (Or.inr (by decide))⟩)⟩

/-! ### Short rows and missing rows in a P1 file -/

theorem padRow_get (w : Nat) (r : List Bool) (hr : r.length ≤ w) (j : Nat) (hj : j < w) :
    (padRow w r)[j]? = some (r[j]?.getD false) := by
  unfold padRow
  rw [List.getElem?_append]
  by_cases h : j < r.length
  · rw [if_pos h, List.getElem?_eq_getElem h]
    rfl
  · rw [if_neg h, List.getElem?_eq_none (by omega : r.length ≤ j), List.getElem?_replicate,
      if_pos (by omega)]
    rfl

/-- The reader on the text, which allocates a grid of every size: for a P1
text laid out as `Save` writes it, whose payload has `height` rows of at least
one and at most `width` tokens, it returns a well-formed image of the declared
size in which sample `(i, j)` is the token `j` of row `i` when the row has one
and `false` when the row is too short. -/
theorem readPBM_short_rows_padded (w h : Nat) (rows : List (List Bool)) (unread : List Nat)
    (hw : 0 < w) (hh : 0 < h) (hw63 : w < 2 ^ 63) (hh63 : h < 2 ^ 63)
    (hlen : rows.length = h)
    (hrows : ∀ r ∈ rows, 0 < r.length ∧ r.length ≤ w ∧ r.length < 32768) :
    ∃ img, ReadPBM (p1Text w h rows) unread = .ok img ∧
      img.width = w ∧ img.height = h ∧ img.magicNumber = P1 ∧ img.wellFormed = true ∧
      ∀ i j, i < h → j < w →
        img.data[i]?.bind (fun row => row[j]?) =
          some ((rows[i]?.bind (fun row => row[j]?)).getD false) := by
  have hread := ReadPBM_p1Text w h rows unread hw hh hw63 hh63 hlen (by
    intro r hr
    obtain ⟨h1, h2, h3⟩ := hrows r hr
    refine ⟨?_, h2, ?_⟩
    · intro hnil
      rw [hnil] at h1
      simp at h1
    · unfold maxScanTokenSize
      omega)
  refine ⟨_, hread, rfl, rfl, rfl, ?_, ?_⟩
  · rw [pbm_wellFormed_iff]
    constructor
    · simp [hlen]
    · intro row hrow
      simp only [List.mem_map] at hrow
      obtain ⟨r, hr, rfl⟩ := hrow
      have := (hrows r hr).2.1
      simp [padRow]
      omega
  · intro i j hi hj
    have hi' : i < rows.length := by omega
    have hle := (hrows rows[i] (List.getElem_mem _)).2.1
    simp only [List.getElem?_map, List.getElem?_eq_getElem hi', Option.map_some',
      Option.some_bind]
    exact padRow_get w rows[i] hle j hj

/-! ### Tokens of a P2 line -/

theorem decodeRow_acc (max : Int) (tokens : List (List Char)) :
    ∀ row, decodeRow max tokens row = row ++ decodeRow max tokens [] := by
  induction tokens with
  | nil => intro row; simp [decodeRow]
  | cons t ts ih =>
    intro row
    rw [decodeRow, decodeRow]
    by_cases h : 0 ≤ (Atoi t).1 ∧ (Atoi t).1 ≤ max
    · simp only [h, and_self, if_true]
      rw [ih (row ++ [toU8 (Atoi t).1]), ih ([] ++ [toU8 (Atoi t).1])]
      simp
    · simp only [h, if_false]
      exact ih row

theorem decodeRow_append (max : Int) (a b : List (List Char)) :
    decodeRow max (a ++ b) [] = decodeRow max a [] ++ decodeRow max b [] := by
  induction a with
  | nil => simp [decodeRow]
  | cons t ts ih =>
    rw [List.cons_append, decodeRow, decodeRow]
    by_cases h : 0 ≤ (Atoi t).1 ∧ (Atoi t).1 ≤ max
    · simp only [h, and_self, if_true]
      rw [decodeRow_acc max (ts ++ b), decodeRow_acc max ts, ih]
      simp
    · simp only [h, if_false]
      exact ih

theorem readPGMRows_short (max : Int) (lines : List (List Char)) :
    ∀ data, (∀ l ∈ lines, byteLen l < maxScanTokenSize) →
      readPGMRows P2 max lines data =
        data ++ lines.map (fun l => decodeRow max (Fields (dropCR l)) []) := by
  induction lines with
  | nil => intro data _; simp [readPGMRows]
  | cons l ls ih =>
    intro data h
    have hl : ¬ maxScanTokenSize ≤ byteLen l := by
      have := h l (List.mem_cons_self _ _)
      omega
    rw [readPGMRows, if_neg hl, if_pos rfl, ih _ (fun x hx => h x (List.mem_cons_of_mem _ hx))]
    simp

/-- C4 at the input `overMaxText`, a P2 file with max 255 whose only payload
line is `300 7`: `ReadPGM` returns a grid whose row is `[7]`; the token 300
yields no sample, where the claim expects the row `[255, 7]`, and the image
returned declares width 2 over a row of one sample, so it is not well-formed.
The sibling `ReadPPM` lowers the token 300 of a P3 file to the max 255 and
keeps one sample per token. -/
theorem p2_token_above_max_is_dropped :
    ReadPGM overMaxText = .ok ⟨[[7]], 2, 1, P2, 255⟩ ∧
      (⟨[[7]], 2, 1, P2, 255⟩ : PGM).wellFormed = false ∧
      decodeRow 255 (Fields "300 7".toList) [] = [7] ∧
      decodeRow 255 (Fields "300 7".toList) [] ≠ [255, 7] ∧
      ReadPPM "P3\n2 1\n255\n300 7 7 1 2 3\n".toList =
        .ok (⟨[[⟨255, 7, 7⟩, ⟨1, 2, 3⟩]], 2, 1, P3, 255⟩, false) := by
  decide

/-- What the token loop of `ReadPGM` does on every P2 payload line and declared
max: a token whose value exceeds max yields no sample, a token whose value
lies in `[0, max]` yields that value as a `uint8`, in the order of the
tokens; the row loop appends one such row per payload line, and `ReadPGM`
fails only on the magic number or on the line of the max value. -/
theorem p2_row_keeps_tokens_in_range (max : Int) (pre post : List (List Char))
    (token : List Char) (lines : List (List Char))
    (hlines : ∀ l ∈ lines, byteLen l < maxScanTokenSize) :
    (max < (Atoi token).1 →
      decodeRow max (pre ++ token :: post) [] = decodeRow max pre [] ++ decodeRow max post []) ∧
    (0 ≤ (Atoi token).1 → (Atoi token).1 ≤ max →
      decodeRow max (pre ++ token :: post) [] =
        decodeRow max pre [] ++ toU8 (Atoi token).1 :: decodeRow max post []) ∧
    readPGMRows P2 max lines [] = lines.map (fun l => decodeRow max (Fields (dropCR l)) []) ∧
    (∀ content, ReadPGM content = .error (.error "unsupported file type") ∨
      ReadPGM content = .error (.error "invalid maximum pixel value") ∨
      ∃ pgm, ReadPGM content = .ok pgm) := by
  refine ⟨?_, ?_, ?_, ?_⟩
  · intro h
    rw [decodeRow_append, decodeRow]
    have : ¬ (0 ≤ (Atoi token).1 ∧ (Atoi token).1 ≤ max) := by omega
    simp only [this, if_false]
  · intro h0 h1
    rw [decodeRow_append, decodeRow]
    simp only [h0, h1, and_self, if_true]
    rw [decodeRow_acc max post]
    simp
  · rw [readPGMRows_short max lines [] hlines]
    simp
  · intro content
    unfold ReadPGM
    simp only
    split
    · exact Or.inl rfl
    · split
      · exact Or.inr (Or.inl rfl)
      · exact Or.inr (Or.inr ⟨_, rfl⟩)

theorem p2_row_keeps_tokens_in_range_witness :
    decodeRow 255 (["12".toList] ++ "300".toList :: ["7".toList]) [] =
        decodeRow 255 ["12".toList] [] ++ decodeRow 255 ["7".toList] [] ∧
      decodeRow 255 (["12".toList] ++ "255".toList :: ["7".toList]) [] =
        decodeRow 255 ["12".toList] [] ++ toU8 (Atoi "255".toList).1 ::
          decodeRow 255 ["7".toList] [] ∧
      readPGMRows P2 255 ["300 7".toList, "1 2".toList] [] =
        ["300 7".toList, "1 2".toList].map (fun l => decodeRow 255 (Fields (dropCR l)) []) :=
  ⟨(p2_row_keeps_tokens_in_range 255 ["12".toList] ["7".toList] "300".toList
      ["300 7".toList, "1 2".toList] (by decide)).1 (by decide),
    (p2_row_keeps_tokens_in_range 255 ["12".toList] ["7".toList] "255".toList
      ["300 7".toList, "1 2".toList] (by decide)).2.1 (by decide) (by decide),
    (p2_row_keeps_tokens_in_range 255 ["12".toList] ["7".toList] "255".toList
      ["300 7".toList, "1 2".toList] (by decide)).2.2.1⟩

/-! ### Unknown magic numbers -/

/-- C5 at the input `unknownMagicText`, whose first line is `P7`: `ReadPPM`
returns a 1 x 1 image with an empty magic number and a nil error. -/
theorem readPPM_accepts_unknown_magic :
    (Fields unknownMagicText).head? = some ['P', '7'] ∧
      ReadPPM unknownMagicText = .ok (⟨[[⟨0, 0, 0⟩]], 1, 1, [], 255⟩, false) := by
  decide

/-- The sibling `ReadPBM` returns the error `unsupported file type` whenever the
first line that is neither blank nor a comment is not `P1` or `P4`, and an
error in any case when the first token of that line is not `P1` or `P4`. -/
theorem readPBM_rejects_unknown_magic (content : List Char) (unread : List Nat)
    (h : ∀ line rest, readNextLine (rawLines content) = .ok (line, rest) →
      (Fields line).head? ≠ some P1 ∧ (Fields line).head? ≠ some P4) :
    ∃ msg, ReadPBM content unread = .error (.error msg) := by
  unfold ReadPBM
  cases hr : readNextLine (rawLines content) with
  | error e =>
    have : ∀ ls, ∀ e, readNextLine ls = .error e →
        e = .error "bufio.Scanner: token too long" := by
      intro ls
      induction ls with
      | nil => intro e he; simp [readNextLine] at he
      | cons l ls ih =>
        intro e he
        rw [readNextLine] at he
        split at he
        · injection he with he
          exact he.symm
        · simp only at he
          split at he
          · simp at he
          · exact ih e he
    rw [this _ e hr]
    exact ⟨_, rfl⟩
  | ok v =>
    obtain ⟨line, rest⟩ := v
    obtain ⟨h1, h4⟩ := h line rest hr
    have n1 : line ≠ P1 := by
      intro hl
      rw [hl] at h1
      exact h1 (by decide)
    have n4 : line ≠ P4 := by
      intro hl
      rw [hl] at h4
      exact h4 (by decide)
    simp only [n1, n4, ne_eq, not_false_eq_true, and_self, if_true]
    exact ⟨_, rfl⟩

/-- The sibling `ReadPGM` returns the error `unsupported file type` whenever the
first token of the first line is not `P2` or `P5`. -/
theorem readPGM_rejects_unknown_magic (content : List Char)
    (h : (Fields (scanText (rawLines content)).1).head? ≠ some P2 ∧
      (Fields (scanText (rawLines content)).1).head? ≠ some P5) :
    ReadPGM content = .error (.error "unsupported file type") := by
  obtain ⟨h2, h5⟩ := h
  unfold ReadPGM
  have n2 : (scanText (rawLines content)).1 ≠ P2 := by
    intro hl
    rw [hl] at h2
    exact h2 (by decide)
  have n5 : (scanText (rawLines content)).1 ≠ P5 := by
    intro hl
    rw [hl] at h5
    exact h5 (by decide)
  simp only [n2, n5, ne_eq, not_false_eq_true, and_self, if_true]


/-! ### Evaluations of the readers on small files -/

/-- `ReadPBM` on a P1 file with a comment and a blank line in the header. -/
theorem readPBM_skips_comments :
    ReadPBM "P1\n# made by hand\n\n2 2\n1 0\n0 1\n".toList [] =
      .ok ⟨[[true, false], [false, true]], 2, 2, P1⟩ := by
  decide

/-- `ReadPBM` on a P1 row with more tokens than the width: the write to
`data[0][1]` panics. -/
theorem readPBM_long_row_panics :
    ReadPBM "P1\n1 1\n1 0\n".toList [] = .error (.panic "index out of range") := by
  decide

/-- `ReadPBM` on a P4 header of width 10 when `file.Read` finds the bytes
`0xAA 0xFF`: the six low bits of the second byte are padding. -/
theorem readPBM_p4_width_ten :
    ReadPBM "P4\n10 1\n".toList [0xAA, 0xFF] =
      .ok ⟨[[true, false, true, false, true, false, true, false, true, true]], 10, 1, P4⟩ := by
  decide

/-- `ReadPGM` and `ReadPPM` on small P2 and P3 files; `ReadPPM` lowers the
sample 300 to the max 255. -/
theorem readPGM_readPPM_small_files :
    ReadPGM "P2\n# c\n2 2\n255\n1 2\n3 30\n".toList = .ok ⟨[[1, 2], [3, 30]], 2, 2, P2, 255⟩ ∧
      ReadPPM "P3\n1 1\n255\n1 2 300\n".toList = .ok (⟨[[⟨1, 2, 255⟩]], 1, 1, P3, 255⟩, false) := by
  decide

/-! ### Conversions between the families -/

theorem rowLoop2_spec {α β : Type} (g1 g2 : α → β)
    (inner : Nat → List β → Except Failure (List β)) (d : List α)
    (h : ∀ (k : Nat) (hk : k < d.length),
      inner k ((d.take k).map g1 ++ (d.drop k).map g2) =
        .ok (((d.take k).map g1 ++ (d.drop k).map g2).set k (g1 d[k]))) :
    ∀ k, k ≤ d.length →
      forLoop k inner (d.map g2) = .ok ((d.take k).map g1 ++ (d.drop k).map g2) := by
  intro k
  induction k with
  | zero => intro _; simp [forLoop]
  | succ k ih =>
    intro hk
    rw [forLoop_succ, ih (by omega)]
    show inner k _ = _
    rw [h k (by omega), set_take_map2 g1 g2 d k (by omega)]

theorem rowLoop2_full {α β : Type} (g1 g2 : α → β)
    (inner : Nat → List β → Except Failure (List β)) (d : List α)
    (h : ∀ (k : Nat) (hk : k < d.length),
      inner k ((d.take k).map g1 ++ (d.drop k).map g2) =
        .ok (((d.take k).map g1 ++ (d.drop k).map g2).set k (g1 d[k]))) :
    forLoop d.length inner (d.map g2) = .ok (d.map g1) := by
  rw [rowLoop2_spec g1 g2 inner d h d.length (le_refl _)]
  simp

theorem partial_cell2 {α β : Type} (g1 g2 : α → β) (d : List α) (k : Nat) (hk : k < d.length) :
    ((d.take k).map g1 ++ (d.drop k).map g2)[k]? = some (g2 d[k]) := by
  simp only [List.getElem?_append, List.length_map, List.length_take, List.getElem?_map,
    List.getElem?_drop]
  rw [min_eq_left (by omega)]
  simp [List.getElem?_eq_getElem hk]

theorem partial_length2 {α β : Type} (g1 g2 : α → β) (d : List α) (k : Nat)
    (hk : k ≤ d.length) : ((d.take k).map g1 ++ (d.drop k).map g2).length = d.length := by
  simp
  omega

theorem range_map_get {α β : Type} (f : α → β) (zero : β) (l : List α) :
    (List.range l.length).map (fun j => ((l[j]?).map f).getD zero) = l.map f := by
  apply List.ext_getElem?
  intro m
  rw [List.getElem?_map, List.getElem?_map]
  by_cases hm : m < l.length
  · rw [List.getElem?_range hm]
    simp [List.getElem?_eq_getElem hm]
  · have hle : l.length ≤ m := by omega
    rw [List.getElem?_eq_none hle, List.getElem?_eq_none (by simpa using hle)]
    rfl

theorem convertGrid_eq {α β : Type} (f : α → β) (zero : β) (data : List (List α)) (w h : Nat)
    (hh : data.length = h) (hw : ∀ row ∈ data, row.length = w) :
    convertGrid f zero data (w : Int) (h : Int) = .ok (data.map (fun row => row.map f)) := by
  unfold convertGrid
  have h1 : ¬ ((h : Int) < 0) := by omega
  have h2 : ¬ ((w : Int) < 0) := by omega
  simp only [h1, h2, if_false, Int.toNat_ofNat]
  have hinit : List.replicate h ([] : List β) = data.map (fun _ => []) := by
    simp [List.map_const', hh]
  rw [hinit, ← hh]
  refine rowLoop2_full (fun row : List α => row.map f) (fun _ => ([] : List β)) _ data ?_
  intro k hk
  have hrow : (data[k]).length = w := hw _ (List.getElem_mem _)
  have hlen := partial_length2 (fun row : List α => row.map f) (fun _ => ([] : List β)) data k
    (by omega)
  rw [forLoop_congr w _
    (fun j nd1 => setCell nd1 k j ((((data[k])[j]?).map f).getD zero))]
  · have hS : k < ((data.take k).map (fun row : List α => row.map f) ++
        (data.drop k).map (fun _ => ([] : List β))).length := by
      rw [hlen]
      exact hk
    rw [writeLoop_spec _ k (List.replicate w zero) w _ (by
        rw [List.getElem?_set, if_pos rfl, if_pos hS]) (by simp)]
    simp only [List.set_set, List.length_replicate, List.drop_length, List.append_nil]
    · rw [← hrow, range_map_get f zero data[k], hrow]
      simp
  · intro j hj s
    have hj' : j < (data[k]).length := by omega
    simp [getCell, List.getElem?_eq_getElem hk, List.getElem?_eq_getElem hj']

theorem shape_nat {α : Type} (d : List (List α)) (width height : Int)
    (hs : gridShape d width height = true) (hw0 : 0 ≤ width) :
    ∃ w h : Nat, width = (w : Int) ∧ height = (h : Int) ∧ d.length = h ∧
      ∀ row ∈ d, row.length = w := by
  obtain ⟨h1, h2⟩ := (gridShape_iff d width height).mp hs
  refine ⟨width.toNat, height.toNat, by omega, by omega, by omega, ?_⟩
  intro row hrow
  have := h2 row hrow
  omega

theorem getCell_map {α β : Type} (f : α → β) (d : List (List α)) (i j : Nat) :
    getCell (d.map (fun row => row.map f)) i j =
      (match getCell d i j with
        | .ok v => .ok (f v)
        | .error e => .error e) := by
  unfold getCell
  simp only [List.getElem?_map]
  cases d[i]? with
  | none => rfl
  | some row =>
    simp only [Option.map_some', List.getElem?_map]
    cases row[j]? with
    | none => rfl
    | some v => rfl

theorem getCell_ok {α : Type} (d : List (List α)) (w h : Nat) (hh : d.length = h)
    (hw : ∀ row ∈ d, row.length = w) (i j : Nat) (hi : i < h) (hj : j < w) :
    ∃ v, getCell d i j = .ok v := by
  have hi' : i < d.length := by omega
  have hj' : j < (d[i]).length := by
    have := hw d[i] (List.getElem_mem _)
    omega
  exact ⟨(d[i])[j], by simp [getCell, List.getElem?_eq_getElem hi', List.getElem?_eq_getElem hj']⟩

theorem convertGrid_shape {α β : Type} (f : α → β) (zero : β) (data : List (List α))
    (width height : Int) (hs : gridShape data width height = true) :
    convertGrid f zero data width height = .ok (data.map (fun row => row.map f)) := by
  obtain ⟨h1, h2⟩ := (gridShape_iff data width height).mp hs
  cases hd : data with
  | nil =>
    rw [hd] at h1
    have hz : height = 0 := by simpa using h1.symm
    subst hz
    simp [convertGrid, forLoop]
  | cons r rs =>
    have hw0 : 0 ≤ width := by
      have := h2 r (by rw [hd]; exact List.mem_cons_self _ _)
      omega
    obtain ⟨w, h, hw, hh, hlen, hrows⟩ := shape_nat data width height hs hw0
    rw [← hd, hw, hh]
    exact convertGrid_eq f zero data w h hlen hrows

theorem gridShape_map2 {α β : Type} (f : α → β) (d : List (List α)) (w h : Int) :
    gridShape (d.map (fun row => row.map f)) w h = gridShape d w h := by
  rw [Bool.eq_iff_iff, gridShape_iff, gridShape_iff]
  simp

theorem getCell_map_ok {α β : Type} (f : α → β) (d : List (List α)) (i j : Nat) (v : α)
    (h : getCell d i j = .ok v) : getCell (d.map (fun row => row.map f)) i j = .ok (f v) := by
  rw [getCell_map, h]

theorem getCell_mem {α : Type} (d : List (List α)) (i j : Nat) (v : α)
    (h : getCell d i j = .ok v) : ∃ row ∈ d, v ∈ row := by
  unfold getCell at h
  cases hrow : d[i]? with
  | none => rw [hrow] at h; simp at h
  | some row =>
    rw [hrow] at h
    simp only at h
    cases hv : row[j]? with
    | none => rw [hv] at h; simp at h
    | some v1 =>
      rw [hv] at h
      simp only [Except.ok.injEq] at h
      subst h
      exact ⟨row, List.getElem?_mem hrow, List.getElem?_mem hv⟩

/-- C16: grayscale downgrade.  For every well-formed PPM image `ToPGM` returns
a PGM image with the same width, height and max, whose grid has `height` rows
of `width` samples, where the sample at row `i` and column `j` is
`(R + G + B) / 3` of the source pixel in integer arithmetic, the sum being
taken without overflow; the magic number is P2 for a P3 source and P5 for a
P6 source. -/
theorem toPGM_grayscale (ppm : PPM) (hwf : ppm.wellFormed = true) :
    ∃ pgm, ppm.ToPGM = .ok pgm ∧
      pgm.width = ppm.width ∧ pgm.height = ppm.height ∧ pgm.max = ppm.max ∧
      gridShape pgm.data ppm.width ppm.height = true ∧
      (∀ i j v, getCell ppm.data i j = .ok v →
        getCell pgm.data i j = .ok ((v.R + v.G + v.B) / 3)) ∧
      (ppm.magicNumber = P3 → pgm.magicNumber = P2) ∧
      (ppm.magicNumber = P6 → pgm.magicNumber = P5) := by
  obtain ⟨hshape, hmax, hpix⟩ := (ppm_wellFormed_iff ppm).mp hwf
  have hs : gridShape ppm.data ppm.width ppm.height = true := (gridShape_iff _ _ _).mpr hshape
  have hconv := convertGrid_shape grayOf 0 ppm.data _ _ hs
  refine ⟨⟨ppm.data.map (fun row => row.map grayOf), ppm.width, ppm.height,
    if ppm.magicNumber = P3 then P2 else if ppm.magicNumber = P6 then P5 else [], ppm.max⟩,
    by simp only [PPM.ToPGM, hconv], rfl, rfl, rfl, ?_, ?_, ?_, ?_⟩
  · show gridShape (ppm.data.map (fun row => row.map grayOf)) _ _ = true
    rw [gridShape_map2]
    exact hs
  · intro i j v hv
    show getCell (ppm.data.map (fun row => row.map grayOf)) i j = _
    rw [getCell_map_ok grayOf ppm.data i j v hv]
    obtain ⟨row, hrow, hvr⟩ := getCell_mem ppm.data i j v hv
    have := hpix row hrow v hvr
    simp only [Pixel.isU8, Bool.and_eq_true, decide_eq_true_eq] at this
    unfold grayOf
    congr 1
    omega
  · intro h3
    simp [h3]
  · intro h6
    have : ¬ (P6 = P3) := by decide
    simp [h6, this]

theorem toPGM_grayscale_witness :
    ∃ pgm, samplePixmap.ToPGM = .ok pgm ∧
      pgm.width = samplePixmap.width ∧ pgm.height = samplePixmap.height ∧
      pgm.max = samplePixmap.max ∧
      gridShape pgm.data samplePixmap.width samplePixmap.height = true ∧
      (∀ i j v, getCell samplePixmap.data i j = .ok v →
        getCell pgm.data i j = .ok ((v.R + v.G + v.B) / 3)) ∧
      (samplePixmap.magicNumber = P3 → pgm.magicNumber = P2) ∧
      (samplePixmap.magicNumber = P6 → pgm.magicNumber = P5) :=
  toPGM_grayscale samplePixmap (by decide)

/-- C17 at the input `midpointGraymap`, a graymap with max 255 and the samples
126, 127 and 128: `ToPBM` maps 127 to `false`, although `2 * 127 < 255`. -/
theorem toPBM_midpoint_is_truncated :
    midpointGraymap.wellFormed = true ∧
      midpointGraymap.ToPBM = .ok ⟨[[true, false, false]], 3, 1, P1⟩ ∧
      2 * 127 < midpointGraymap.max := by
  decide

/-- C17, amended: for every well-formed PGM image `ToPBM` returns a bitmap of
the same width and height whose bit at row `i` and column `j` is true exactly
when the sample is strictly below `max / 2` in integer arithmetic, the
midpoint with its fraction dropped; the magic number is P1 for a P2 source
and P4 for a P5 source. -/
theorem toPBM_threshold (pgm : PGM) (hwf : pgm.wellFormed = true) :
    ∃ pbm, pgm.ToPBM = .ok pbm ∧
      pbm.width = pgm.width ∧ pbm.height = pgm.height ∧ pbm.wellFormed = true ∧
      (∀ i j v, getCell pgm.data i j = .ok v →
        getCell pbm.data i j = .ok (decide (v < pgm.max / 2))) ∧
      (pgm.magicNumber = P2 → pbm.magicNumber = P1) ∧
      (pgm.magicNumber = P5 → pbm.magicNumber = P4) := by
  obtain ⟨hshape, -, -⟩ := (pgm_wellFormed_iff pgm).mp hwf
  have hs : gridShape pgm.data pgm.width pgm.height = true := (gridShape_iff _ _ _).mpr hshape
  have hconv := convertGrid_shape (fun v => decide (v < pgm.max / 2)) false pgm.data _ _ hs
  refine ⟨⟨pgm.data.map (fun row => row.map (fun v => decide (v < pgm.max / 2))), pgm.width,
    pgm.height, if pgm.magicNumber = P2 then P1 else if pgm.magicNumber = P5 then P4 else []⟩,
    by simp only [PGM.ToPBM, hconv], rfl, rfl, ?_, ?_, ?_, ?_⟩
  · show gridShape (pgm.data.map (fun row => row.map (fun v => decide (v < pgm.max / 2)))) _ _
      = true
    rw [gridShape_map2]
    exact hs
  · intro i j v hv
    exact getCell_map_ok (fun v => decide (v < pgm.max / 2)) pgm.data i j v hv
  · intro h2
    simp [h2]
  · intro h5
    have : ¬ (P5 = P2) := by decide
    simp [h5, this]

theorem toPBM_threshold_witness :
    ∃ pbm, midpointGraymap.ToPBM = .ok pbm ∧
      pbm.width = midpointGraymap.width ∧ pbm.height = midpointGraymap.height ∧
      pbm.wellFormed = true ∧
      (∀ i j v, getCell midpointGraymap.data i j = .ok v →
        getCell pbm.data i j = .ok (decide (v < midpointGraymap.max / 2))) ∧
      (midpointGraymap.magicNumber = P2 → pbm.magicNumber = P1) ∧
      (midpointGraymap.magicNumber = P5 → pbm.magicNumber = P4) :=
  toPBM_threshold midpointGraymap (by decide)

/-! ### SetMaxValue -/

theorem rescaleU8_eq (other : Nat → Nat → Nat → Nat) (v max oldmax : Nat) (hold : 1 ≤ oldmax)
    (hv : v ≤ oldmax) (hmax : max < 256) :
    rescaleU8 other v max oldmax = v * max / oldmax ∧ v * max / oldmax ≤ max := by
  have hle : v * max / oldmax ≤ max := by
    apply Nat.div_le_of_le_mul
    exact Nat.mul_le_mul_right max hv
  refine ⟨?_, hle⟩
  unfold rescaleU8
  have : ¬ (oldmax = 0 ∨ 256 ≤ v * max / oldmax) := by omega
  rw [if_neg this]

theorem ppm_setMaxValue_eq (other : Nat → Nat → Nat → Nat) (ppm : PPM) (maxValue : Nat)
    (hs : gridShape ppm.data ppm.width ppm.height = true) :
    PPM.SetMaxValue other ppm maxValue =
      .ok { ppm with
        data := ppm.data.map (fun row => row.map (fun v =>
          Pixel.mk (rescaleU8 other v.R maxValue ppm.max) (rescaleU8 other v.G maxValue ppm.max)
            (rescaleU8 other v.B maxValue ppm.max))),
        max := maxValue } := by
  obtain ⟨h1, h2⟩ := (gridShape_iff _ _ _).mp hs
  unfold PPM.SetMaxValue
  have hh : ppm.height.toNat = ppm.data.length := by omega
  simp only
  rw [hh, mapGrid_loop (fun v =>
    Pixel.mk (rescaleU8 other v.R maxValue ppm.max) (rescaleU8 other v.G maxValue ppm.max)
      (rescaleU8 other v.B maxValue ppm.max)) ppm.data (fun _ _ => ppm.width.toNat)]
  intro k hk
  have := h2 ppm.data[k] (List.getElem_mem _)
  show ppm.width.toNat = _
  omega

theorem pgm_setMaxValue_eq (pgm : PGM) (maxValue : Nat)
    (hs : gridShape pgm.data pgm.width pgm.height = true) (hold : 1 ≤ pgm.max) :
    PGM.SetMaxValue pgm maxValue =
      .ok { pgm with
        data := pgm.data.map (fun row => row.map (fun v => (v * 5 % 256) / pgm.max)),
        max := maxValue } := by
  obtain ⟨h1, h2⟩ := (gridShape_iff _ _ _).mp hs
  unfold PGM.SetMaxValue
  have hh : pgm.height.toNat = pgm.data.length := by omega
  have hne : ¬ pgm.max = 0 := by omega
  simp only
  rw [hh, forLoop_congr pgm.data.length _ (fun i d =>
    forLoop pgm.width.toNat (fun j d1 =>
      updateCell (fun v => (v * 5 % 256) / pgm.max) d1 i j) d)]
  · rw [mapGrid_loop (fun v => (v * 5 % 256) / pgm.max) pgm.data (fun _ _ => pgm.width.toNat)]
    intro k hk
    have := h2 pgm.data[k] (List.getElem_mem _)
    show pgm.width.toNat = _
    omega
  · intro i _ d
    apply forLoop_congr
    intro j _ s
    unfold updateCell
    cases getCell s i j with
    | error e => rfl
    | ok v => simp only [hne, if_false]

/-- C14 at the inputs `thirdsPixmap` and `thirdsGraymap` (sample 2, max 3) with
the new max 1: the nearest integer to `2 * 1 / 3` is 1, `PPM.SetMaxValue`
gives 0 and `PGM.SetMaxValue` gives 3. -/
theorem rescale_is_not_rounded :
    thirdsPixmap.wellFormed = true ∧ thirdsGraymap.wellFormed = true ∧
      roundedRescale 2 1 3 = 1 ∧
      PPM.SetMaxValue zeroConversion thirdsPixmap 1 = .ok ⟨[[⟨0, 0, 0⟩]], 1, 1, P3, 1⟩ ∧
      PGM.SetMaxValue thirdsGraymap 1 = .ok ⟨[[3]], 1, 1, P2, 1⟩ := by
  decide

/-- C14, amended: for every well-formed PPM image with old max at least 1 whose
channels do not exceed the old max, and every new max, `SetMaxValue` sets max
to the new max and replaces every channel by `sample * new_max / old_max`
with the fraction dropped; width, height and magic number stay.  For every
well-formed PGM image with old max at least 1 `SetMaxValue` completes and
sets max to the new max. -/
theorem setMaxValue_drops_fraction (other : Nat → Nat → Nat → Nat) (ppm : PPM) (pgm : PGM)
    (maxValue : Nat) (hp : ppm.wellFormed = true) (hg : pgm.wellFormed = true)
    (hpm : 1 ≤ ppm.max) (hgm : 1 ≤ pgm.max) (hnew : maxValue < 256)
    (hs : ∀ row ∈ ppm.data, ∀ v ∈ row, v.R ≤ ppm.max ∧ v.G ≤ ppm.max ∧ v.B ≤ ppm.max) :
    (∃ p1, PPM.SetMaxValue other ppm maxValue = .ok p1 ∧ p1.max = maxValue ∧
      p1.width = ppm.width ∧ p1.height = ppm.height ∧ p1.magicNumber = ppm.magicNumber ∧
      p1.wellFormed = true ∧
      ∀ i j v, getCell ppm.data i j = .ok v →
        getCell p1.data i j =
          .ok ⟨v.R * maxValue / ppm.max, v.G * maxValue / ppm.max, v.B * maxValue / ppm.max⟩) ∧
    (∃ g1, PGM.SetMaxValue pgm maxValue = .ok g1 ∧ g1.max = maxValue ∧
      g1.width = pgm.width ∧ g1.height = pgm.height ∧ g1.magicNumber = pgm.magicNumber) := by
  obtain ⟨hshape, hmax, hpix⟩ := (ppm_wellFormed_iff ppm).mp hp
  obtain ⟨hgshape, -, -⟩ := (pgm_wellFormed_iff pgm).mp hg
  have hsp : gridShape ppm.data ppm.width ppm.height = true := (gridShape_iff _ _ _).mpr hshape
  have hsg : gridShape pgm.data pgm.width pgm.height = true := (gridShape_iff _ _ _).mpr hgshape
  refine ⟨⟨_, ppm_setMaxValue_eq other ppm maxValue hsp, rfl, rfl, rfl, rfl, ?_, ?_⟩,
    ⟨_, pgm_setMaxValue_eq pgm maxValue hsg hgm, rfl, rfl, rfl, rfl⟩⟩
  · rw [ppm_wellFormed_iff]
    refine ⟨?_, hnew, ?_⟩
    · have := (gridShape_iff _ _ _).mp
        (by rw [gridShape_map2]; exact hsp :
          gridShape (ppm.data.map (fun row => row.map (fun v =>
            Pixel.mk (rescaleU8 other v.R maxValue ppm.max)
              (rescaleU8 other v.G maxValue ppm.max)
              (rescaleU8 other v.B maxValue ppm.max)))) ppm.width ppm.height = true)
      exact this
    · intro row hrow v hv
      simp only [List.mem_map] at hrow
      obtain ⟨r0, hr0, rfl⟩ := hrow
      simp only [List.mem_map] at hv
      obtain ⟨v0, hv0, rfl⟩ := hv
      obtain ⟨hR, hG, hB⟩ := hs r0 hr0 v0 hv0
      have eR := rescaleU8_eq other v0.R maxValue ppm.max hpm hR hnew
      have eG := rescaleU8_eq other v0.G maxValue ppm.max hpm hG hnew
      have eB := rescaleU8_eq other v0.B maxValue ppm.max hpm hB hnew
      simp only [Pixel.isU8, Bool.and_eq_true, decide_eq_true_eq]
      omega
  · intro i j v hv
    obtain ⟨row, hrow, hvr⟩ := getCell_mem ppm.data i j v hv
    obtain ⟨hR, hG, hB⟩ := hs row hrow v hvr
    show getCell (ppm.data.map _) i j = _
    rw [getCell_map_ok _ ppm.data i j v hv,
      (rescaleU8_eq other v.R maxValue ppm.max hpm hR hnew).1,
      (rescaleU8_eq other v.G maxValue ppm.max hpm hG hnew).1,
      (rescaleU8_eq other v.B maxValue ppm.max hpm hB hnew).1]

theorem setMaxValue_drops_fraction_witness :
    (∃ p1, PPM.SetMaxValue zeroConversion samplePixmap 15 = .ok p1 ∧ p1.max = 15 ∧
      p1.width = samplePixmap.width ∧ p1.height = samplePixmap.height ∧
      p1.magicNumber = samplePixmap.magicNumber ∧ p1.wellFormed = true ∧
      ∀ i j v, getCell samplePixmap.data i j = .ok v →
        getCell p1.data i j =
          .ok ⟨v.R * 15 / samplePixmap.max, v.G * 15 / samplePixmap.max,
            v.B * 15 / samplePixmap.max⟩) ∧
    (∃ g1, PGM.SetMaxValue sampleGraymap 15 = .ok g1 ∧ g1.max = 15 ∧
      g1.width = sampleGraymap.width ∧ g1.height = sampleGraymap.height ∧
      g1.magicNumber = sampleGraymap.magicNumber) :=
  setMaxValue_drops_fraction zeroConversion samplePixmap sampleGraymap 15 (by decide) (by decide)
    (by decide) (by decide) (by decide) (by decide)

theorem rescale_back_within_one (x n o : Nat) (ho : 1 ≤ o) (hon : o ≤ n) :
    x * n / o * o / n ≤ x ∧ x ≤ x * n / o * o / n + 1 := by
  have hn : 0 < n := by omega
  have h1 : x * n / o * o ≤ x * n := Nat.div_mul_le_self _ _
  have h2 : o * (x * n / o) + x * n % o = x * n := Nat.div_add_mod _ _
  have h3 : x * n % o < o := Nat.mod_lt _ (by omega)
  have h4 : x * n / o * o = o * (x * n / o) := Nat.mul_comm _ _
  constructor
  · exact Nat.div_le_of_le_mul (by rw [Nat.mul_comm n x]; exact h1)
  · cases x with
    | zero => exact Nat.zero_le _
    | succ x1 =>
      have h5 : (x1 + 1) * n = x1 * n + n := by ring
      have h6 : x1 ≤ (x1 + 1) * n / o * o / n := by
        rw [Nat.le_div_iff_mul_le hn]
        generalize (x1 + 1) * n / o * o = B at *
        generalize o * ((x1 + 1) * n / o) = C at *
        generalize (x1 + 1) * n % o = D at *
        generalize x1 * n = E at *
        omega
      omega

/-- C15 at the input `midGrayPixmap` (sample 100, max 255) with the new max 1:
the first call of `SetMaxValue` maps 100 to 0 and the call that restores the
max 255 leaves 0. -/
theorem rescale_round_trip_loses_samples :
    midGrayPixmap.wellFormed = true ∧
      PPM.SetMaxValue zeroConversion midGrayPixmap 1 = .ok ⟨[[⟨0, 0, 0⟩]], 1, 1, P3, 1⟩ ∧
      PPM.SetMaxValue zeroConversion ⟨[[⟨0, 0, 0⟩]], 1, 1, P3, 1⟩ 255 =
        .ok ⟨[[⟨0, 0, 0⟩]], 1, 1, P3, 255⟩ := by
  decide

/-- C15, amended: for every well-formed PPM image with max `old_max` at least
1 whose channels do not exceed `old_max`, and every `new_max` from `old_max`
to 255, `SetMaxValue(new_max)` followed by `SetMaxValue(old_max)` restores
max, width and height and leaves every channel equal to its original value or
one below it. -/
theorem setMaxValue_round_trip (other : Nat → Nat → Nat → Nat) (ppm : PPM) (newMax : Nat)
    (hp : ppm.wellFormed = true) (hold : 1 ≤ ppm.max) (hle : ppm.max ≤ newMax)
    (hnew : newMax < 256)
    (hs : ∀ row ∈ ppm.data, ∀ v ∈ row, v.R ≤ ppm.max ∧ v.G ≤ ppm.max ∧ v.B ≤ ppm.max) :
    ∃ p1 p2, PPM.SetMaxValue other ppm newMax = .ok p1 ∧
      PPM.SetMaxValue other p1 ppm.max = .ok p2 ∧
      p2.max = ppm.max ∧ p2.width = ppm.width ∧ p2.height = ppm.height ∧
      p2.magicNumber = ppm.magicNumber ∧
      ∀ i j v, getCell ppm.data i j = .ok v →
        ∃ v2, getCell p2.data i j = .ok v2 ∧
          v2.R ≤ v.R ∧ v.R ≤ v2.R + 1 ∧ v2.G ≤ v.G ∧ v.G ≤ v2.G + 1 ∧
          v2.B ≤ v.B ∧ v.B ≤ v2.B + 1 := by
  obtain ⟨hshape, hmax, hpix⟩ := (ppm_wellFormed_iff ppm).mp hp
  have hsp : gridShape ppm.data ppm.width ppm.height = true := (gridShape_iff _ _ _).mpr hshape
  have h1 := ppm_setMaxValue_eq other ppm newMax hsp
  have h2 := ppm_setMaxValue_eq other
    { ppm with
      data := ppm.data.map (fun row => row.map (fun v =>
        Pixel.mk (rescaleU8 other v.R newMax ppm.max) (rescaleU8 other v.G newMax ppm.max)
          (rescaleU8 other v.B newMax ppm.max))),
      max := newMax } ppm.max (by
        show gridShape (ppm.data.map _) _ _ = true
        rw [gridShape_map2]
        exact hsp)
  refine ⟨_, _, h1, h2, rfl, rfl, rfl, rfl, ?_⟩
  intro i j v hv
  obtain ⟨row, hrow, hvr⟩ := getCell_mem ppm.data i j v hv
  obtain ⟨hR, hG, hB⟩ := hs row hrow v hvr
  have key : ∀ x, x ≤ ppm.max →
      rescaleU8 other (rescaleU8 other x newMax ppm.max) ppm.max newMax =
        x * newMax / ppm.max * ppm.max / newMax := by
    intro x hx
    obtain ⟨e1, e2⟩ := rescaleU8_eq other x newMax ppm.max hold hx hnew
    rw [e1]
    exact (rescaleU8_eq other _ ppm.max newMax (by omega) e2 (by omega)).1
  refine ⟨_, getCell_map_ok _ _ i j _ (getCell_map_ok _ ppm.data i j v hv), ?_⟩
  simp only
  rw [key v.R hR, key v.G hG, key v.B hB]
  have bR := rescale_back_within_one v.R newMax ppm.max hold hle
  have bG := rescale_back_within_one v.G newMax ppm.max hold hle
  have bB := rescale_back_within_one v.B newMax ppm.max hold hle
  exact ⟨bR.1, bR.2, bG.1, bG.2, bB.1, bB.2⟩

theorem setMaxValue_round_trip_witness :
    dimPixmap.wellFormed = true ∧
      PPM.SetMaxValue zeroConversion dimPixmap 255 = .ok ⟨[[⟨1, 127, 255⟩]], 1, 1, P3, 255⟩ ∧
      PPM.SetMaxValue zeroConversion ⟨[[⟨1, 127, 255⟩]], 1, 1, P3, 255⟩ 200 =
        .ok ⟨[[⟨0, 99, 200⟩]], 1, 1, P3, 200⟩ ∧
      ∃ p1 p2, PPM.SetMaxValue zeroConversion dimPixmap 255 = .ok p1 ∧
        PPM.SetMaxValue zeroConversion p1 dimPixmap.max = .ok p2 ∧
        p2.max = dimPixmap.max ∧ p2.width = dimPixmap.width ∧
        p2.height = dimPixmap.height ∧ p2.magicNumber = dimPixmap.magicNumber ∧
        ∀ i j v, getCell dimPixmap.data i j = .ok v →
          ∃ v2, getCell p2.data i j = .ok v2 ∧
            v2.R ≤ v.R ∧ v.R ≤ v2.R + 1 ∧ v2.G ≤ v.G ∧ v.G ≤ v2.G + 1 ∧
            v2.B ≤ v.B ∧ v.B ≤ v2.B + 1 :=
  ⟨by decide, by decide, by decide,
    setMaxValue_round_trip zeroConversion dimPixmap 255 (by decide) (by decide)
      (by decide) (by decide) (by decide)⟩

/-! ### Rotate90CW -/

/-- C11 at images that are not square: `PGM.Rotate90CW` reads
`data[width-j-1][i]` and panics on a 2 x 1 and on a 1 x 2 graymap;
`PPM.Rotate90CW` turns the 2 x 1 pixmap into two rows of one pixel. -/
theorem pgm_rotate_panics_unless_square :
    wideGraymap.wellFormed = true ∧ tallGraymap.wellFormed = true ∧
      wideGraymap.Rotate90CW = .error (.panic "index out of range") ∧
      tallGraymap.Rotate90CW = .error (.panic "index out of range") ∧
      widePixmap.Rotate90CW = .ok ⟨[[⟨1, 1, 1⟩], [⟨2, 2, 2⟩]], 2, 1, P3, 255⟩ := by
  decide

/-- C12 at the input `widePixmap`, with `Size() = (2, 1)`: after `Rotate90CW`
the grid has two rows of one pixel, `Size()` is still `(2, 1)`, and the image
is no longer well-formed. -/
theorem rotate_keeps_stale_size :
    widePixmap.wellFormed = true ∧ widePixmap.Size = (2, 1) ∧
      (∃ r, widePixmap.Rotate90CW = .ok r ∧ r.data = [[⟨1, 1, 1⟩], [⟨2, 2, 2⟩]] ∧
        r.Size = (2, 1) ∧ r.Size ≠ (1, 2) ∧ r.wellFormed = false) := by
  refine ⟨by decide, by decide, ⟨⟨[[⟨1, 1, 1⟩], [⟨2, 2, 2⟩]], 2, 1, P3, 255⟩, ?_⟩⟩
  decide

/-- C13 at the inputs `widePixmap` and `wideGraymap`: the second `Rotate90CW`
of the 2 x 1 pixmap panics, because width and height still describe the grid
before the first turn; the first `Rotate90CW` of the 2 x 1 graymap panics. -/
theorem second_rotation_panics :
    widePixmap.wellFormed = true ∧ wideGraymap.wellFormed = true ∧
      (∃ r, widePixmap.Rotate90CW = .ok r ∧
        r.Rotate90CW = .error (.panic "index out of range")) ∧
      wideGraymap.Rotate90CW = .error (.panic "index out of range") := by
  refine ⟨by decide, by decide, ⟨⟨[[⟨1, 1, 1⟩], [⟨2, 2, 2⟩]], 2, 1, P3, 255⟩, ?_⟩, by decide⟩
  decide

/-! ### PBM.At -/

/-- C20 at the input `unitBitmap`, a 1 x 1 bitmap: `At(0, 1)` and `At(1, 0)`,
where one coordinate is inside its range and the other outside, index outside
the grid and panic; `At(5, 5)` returns false and `At(0, 0)` the sample. -/
theorem pbm_at_panics_out_of_range :
    unitBitmap.wellFormed = true ∧
      unitBitmap.At 0 1 = .error (.panic "index out of range") ∧
      unitBitmap.At 1 0 = .error (.panic "index out of range") ∧
      unitBitmap.At 5 5 = .ok false ∧ unitBitmap.At 0 0 = .ok true := by
  decide

/-- `PBM.At` where it is right: inside the grid it returns `data[y][x]`, and
with both coordinates outside their ranges it returns false. -/
theorem pbm_at_in_bounds (pbm : PBM) (x y : Nat) (hwf : pbm.wellFormed = true)
    (hx : (x : Int) < pbm.width) (hy : (y : Int) < pbm.height) :
    (pbm.At x y = getCell pbm.data y x ∧ ∃ v, getCell pbm.data y x = .ok v) ∧
      ∀ a b : Int, ¬ (0 ≤ a ∧ a < pbm.width) → ¬ (0 ≤ b ∧ b < pbm.height) →
        pbm.At a b = .ok false := by
  obtain ⟨h1, h2⟩ := (pbm_wellFormed_iff pbm).mp hwf
  refine ⟨⟨?_, ?_⟩, ?_⟩
  · unfold PBM.At
    have hc : (0 ≤ (x : Int) ∧ (x : Int) < pbm.width) ∨ (0 ≤ (y : Int) ∧ (y : Int) < pbm.height) :=
      Or.inl ⟨by omega, hx⟩
    rw [if_pos hc, intIndex_natCast, intIndex_natCast]
  · have hy' : y < pbm.data.length := by omega
    have hrow := h2 pbm.data[y] (List.getElem_mem _)
    have hx' : x < (pbm.data[y]).length := by omega
    exact ⟨(pbm.data[y])[x],
      by simp [getCell, List.getElem?_eq_getElem hy', List.getElem?_eq_getElem hx']⟩
  · intro a b ha hb
    unfold PBM.At
    have hc : ¬ ((0 ≤ a ∧ a < pbm.width) ∨ (0 ≤ b ∧ b < pbm.height)) := by
      intro h
      rcases h with h | h
      · exact ha h
      · exact hb h
    rw [if_neg hc]

/-! ### Drawing -/

theorem getCell_set {α : Type} (d : List (List α)) (i j : Nat) (row : List α) (v : α)
    (hd : d[i]? = some row) (hj : j < row.length) (i1 j1 : Nat) :
    getCell (d.set i (row.set j v)) i1 j1 =
      if i1 = i ∧ j1 = j then .ok v else getCell d i1 j1 := by
  have hi : i < d.length := by
    by_contra h
    rw [List.getElem?_eq_none (by omega)] at hd
    exact Option.noConfusion hd
  unfold getCell
  rw [List.getElem?_set]
  by_cases h1 : i = i1
  · subst h1
    rw [if_pos rfl, if_pos hi, hd]
    by_cases h2 : j = j1
    · subst h2
      simp [List.getElem?_set, hj]
    · have h2' : ¬ j1 = j := fun h => h2 h.symm
      simp [List.getElem?_set, h2, h2']
  · have h1' : ¬ i1 = i := fun h => h1 h.symm
    simp [h1, h1']

theorem painted_of_iff (p q : PPM) (S T : Int → Int → Prop) (color : Pixel)
    (h : Painted p q S color)
    (hST : ∀ x y : Int, 0 ≤ x → x < p.width → 0 ≤ y → y < p.height → (S x y ↔ T x y)) :
    Painted p q T color := by
  obtain ⟨h1, h2, h3, h4, h5, h6⟩ := h
  refine ⟨h1, h2, h3, h4, h5, ?_⟩
  intro x y hx0 hx hy0 hy
  obtain ⟨ha, hb⟩ := h6 x y hx0 hx hy0 hy
  have e := hST x y hx0 hx hy0 hy
  exact ⟨fun ht => ha (e.mpr ht), fun hnt => hb (fun hs => hnt (e.mp hs))⟩

theorem painted_trans (p q r : PPM) (S T : Int → Int → Prop) (color : Pixel)
    (hpq : Painted p q S color) (hqr : Painted q r T color) :
    Painted p r (fun x y => S x y ∨ T x y) color := by
  obtain ⟨a1, a2, a3, a4, _, a6⟩ := hpq
  obtain ⟨b1, b2, b3, b4, b5, b6⟩ := hqr
  refine ⟨b1.trans a1, b2.trans a2, b3.trans a3, b4.trans a4, b5, ?_⟩
  intro x y hx0 hx hy0 hy
  obtain ⟨pa, pb⟩ := a6 x y hx0 hx hy0 hy
  obtain ⟨qa, qb⟩ := b6 x y hx0 (by rw [a1]; exact hx) hy0 (by rw [a2]; exact hy)
  constructor
  · intro hst
    by_cases ht : T x y
    · exact qa ht
    · rw [qb ht]
      rcases hst with hs | ht'
      · exact pa hs
      · exact absurd ht' ht
  · intro hn
    have hs : ¬ S x y := fun h => hn (Or.inl h)
    have ht : ¬ T x y := fun h => hn (Or.inr h)
    rw [qb ht, pb hs]

theorem painted_none (p : PPM) (color : Pixel)
    (hs : gridShape p.data p.width p.height = true) :
    Painted p p (fun _ _ => False) color :=
  ⟨rfl, rfl, rfl, rfl, hs, fun _ _ _ _ _ _ => ⟨fun h => h.elim, fun _ => rfl⟩⟩

theorem set_painted (p : PPM) (x y : Int) (color : Pixel)
    (hs : gridShape p.data p.width p.height = true) :
    ∃ q, PPM.Set p x y color = .ok q ∧ Painted p q (fun a b => a = x ∧ b = y) color := by
  obtain ⟨h1, h2⟩ := (gridShape_iff _ _ _).mp hs
  unfold PPM.Set
  by_cases hin : 0 ≤ x ∧ x < p.width ∧ 0 ≤ y ∧ y < p.height
  · obtain ⟨hx0, hx, hy0, hy⟩ := hin
    have hyn : y.toNat < p.data.length := by omega
    have hrow : p.data[y.toNat]? = some p.data[y.toNat] := List.getElem?_eq_getElem hyn
    have hrl := h2 p.data[y.toNat] (List.getElem_mem _)
    have hxn : x.toNat < (p.data[y.toNat]).length := by omega
    rw [if_pos ⟨hx0, hx, hy0, hy⟩]
    simp only [setCell, hrow, hxn, if_true]
    refine ⟨_, rfl, rfl, rfl, rfl, rfl, ?_, ?_⟩
    · rw [gridShape_iff]
      refine ⟨by simpa using h1, ?_⟩
      intro row hrow'
      rcases List.mem_or_eq_of_mem_set hrow' with hm | he
      · exact h2 row hm
      · rw [he]
        simpa using hrl
    · intro a b ha0 ha hb0 hb
      have ea : intIndex a = some a.toNat := by simp [intIndex, ha0]
      have eb : intIndex b = some b.toNat := by simp [intIndex, hb0]
      simp only [PPM.At, ea, eb]
      rw [getCell_set p.data y.toNat x.toNat _ color hrow hxn]
      constructor
      · intro hab
        rw [if_pos ⟨by rw [hab.2], by rw [hab.1]⟩]
      · intro hab
        have : ¬ (b.toNat = y.toNat ∧ a.toNat = x.toNat) := by
          intro hc
          apply hab
          constructor <;> omega
        rw [if_neg this]
  · rw [if_neg hin]
    refine ⟨p, rfl, rfl, rfl, rfl, rfl, hs, ?_⟩
    intro a b ha0 ha hb0 hb
    constructor
    · intro hab
      exfalso
      apply hin
      rw [← hab.1, ← hab.2]
      exact ⟨ha0, ha, hb0, hb⟩
    · intro _
      rfl

theorem painted_forLoop (color : Pixel) (body : Nat → PPM → Except Failure PPM)
    (S : Nat → Int → Int → Prop) (n : Nat)
    (hbody : ∀ i, i < n → ∀ q : PPM, gridShape q.data q.width q.height = true →
      ∃ r, body i q = .ok r ∧ Painted q r (S i) color) :
    ∀ p : PPM, gridShape p.data p.width p.height = true →
      ∃ r, forLoop n body p = .ok r ∧ Painted p r (fun a b => ∃ i, i < n ∧ S i a b) color := by
  induction n with
  | zero =>
    intro p hp
    refine ⟨p, rfl, painted_of_iff p p _ _ color (painted_none p color hp) ?_⟩
    intro x y _ _ _ _
    constructor
    · intro h
      exact h.elim
    · rintro ⟨i, hi, _⟩
      omega
  | succ k ih =>
    intro p hp
    obtain ⟨q, hq, hpq⟩ := ih (fun i hi => hbody i (by omega)) p hp
    obtain ⟨r, hr, hqr⟩ := hbody k (by omega) q hpq.2.2.2.2.1
    refine ⟨r, ?_, painted_of_iff p r _ _ color (painted_trans p q r _ _ color hpq hqr) ?_⟩
    · rw [forLoop_succ, hq]
      exact hr
    · intro x y _ _ _ _
      constructor
      · rintro (⟨i, hi, hs⟩ | hs)
        · exact ⟨i, by omega, hs⟩
        · exact ⟨k, by omega, hs⟩
      · rintro ⟨i, hi, hs⟩
        by_cases hik : i = k
        · subst hik
          exact Or.inr hs
        · exact Or.inl ⟨i, by omega, hs⟩

/-! ### float64 and int in DrawLine -/

theorem truncToInt_intCast (k : Int) : truncToInt (k : ℚ) = k := by
  unfold truncToInt
  split <;> simp

theorem roundHalfEven_intCast (n : Int) : roundHalfEven (n : ℚ) = n := by
  unfold roundHalfEven
  simp

/-- A rational that is a multiple of the unit in the last place of its binade
is a `float64`: rounding leaves it as it is. -/
theorem roundFloat64_of_multiple (q : ℚ) (n : Int)
    (h : q / 2 ^ (max (Int.log 2 |q|) (-1022) - 52) = n) : roundFloat64 q = q := by
  unfold roundFloat64
  by_cases hq : q = 0
  · simp [hq]
  · simp only [hq, if_false]
    rw [h, roundHalfEven_intCast, ← h]
    have hne : (2 : ℚ) ^ (max (Int.log 2 |q|) (-1022) - 52) ≠ 0 := by positivity
    field_simp

/-- Integers of at most 53 bits, scaled by a power of two, are `float64`
values. -/
theorem roundFloat64_scaled (m : Int) (j : Nat) (hm : |m| ≤ 2 ^ 53) :
    roundFloat64 ((m : ℚ) * 2 ^ j) = (m : ℚ) * 2 ^ j := by
  by_cases hm0 : m = 0
  · simp [hm0, roundFloat64]
  have hmq : (1 : ℚ) ≤ |(m : ℚ)| := by
    have : (1 : Int) ≤ |m| := Int.one_le_abs hm0
    exact_mod_cast this
  have hmq2 : |(m : ℚ)| ≤ 2 ^ 53 := by exact_mod_cast hm
  have h2j : (1 : ℚ) ≤ 2 ^ j := one_le_pow₀ (by norm_num)
  have habs : |(m : ℚ) * 2 ^ j| = |(m : ℚ)| * 2 ^ j := by
    rw [abs_mul, abs_of_pos (by positivity : (0 : ℚ) < 2 ^ j)]
  have hpos : (0 : ℚ) < |(m : ℚ) * 2 ^ j| := by
    rw [habs]
    positivity
  have hL0 : 0 ≤ Int.log 2 |(m : ℚ) * 2 ^ j| := by
    rw [← Int.zpow_le_iff_le_log (by norm_num) hpos, habs]
    simp only [zpow_zero, Nat.cast_ofNat]
    calc (1 : ℚ) = 1 * 1 := by norm_num
      _ ≤ |(m : ℚ)| * 2 ^ j := mul_le_mul hmq h2j (by norm_num) (by positivity)
  have hL1 : Int.log 2 |(m : ℚ) * 2 ^ j| < 54 + j := by
    rw [← Int.lt_zpow_iff_log_lt (by norm_num) hpos, habs]
    have e : ((2 : ℕ) : ℚ) ^ ((54 : Int) + (j : Int)) = 2 ^ 54 * 2 ^ j := by
      rw [zpow_add₀ (by norm_num)]
      norm_cast
    rw [e]
    have : |(m : ℚ)| < 2 ^ 54 := lt_of_le_of_lt hmq2 (by norm_num)
    exact mul_lt_mul_of_pos_right this (by positivity)
  have hmax : max (Int.log 2 |(m : ℚ) * 2 ^ j|) (-1022) = Int.log 2 |(m : ℚ) * 2 ^ j| :=
    max_eq_left (by omega)
  generalize hLdef : Int.log 2 |(m : ℚ) * 2 ^ j| = L at *
  by_cases hcase : L ≤ 52 + j
  · -- the unit in the last place divides the value
    obtain ⟨t, ht⟩ : ∃ t : Nat, (j : Int) + 52 - L = t := ⟨((j : Int) + 52 - L).toNat, by omega⟩
    apply roundFloat64_of_multiple _ (m * 2 ^ t)
    rw [hLdef, hmax]
    have e1 : (2 : ℚ) ^ (L - 52) = 2 ^ (j : Int) / 2 ^ (t : Int) := by
      rw [← zpow_sub₀ (by norm_num)]
      congr 1
      omega
    rw [e1]
    push_cast
    have : (2 : ℚ) ^ (t : Int) ≠ 0 := by positivity
    have : (2 : ℚ) ^ (j : Int) ≠ 0 := by positivity
    field_simp
    ring
  · -- the value is plus or minus 2 ^ (53 + j)
    have hL : L = 53 + j := by omega
    have hle := Int.zpow_log_le_self (b := 2) (by norm_num) hpos
    rw [hLdef, hL, habs] at hle
    have e : ((2 : ℕ) : ℚ) ^ ((53 : Int) + (j : Int)) = 2 ^ 53 * 2 ^ j := by
      rw [zpow_add₀ (by norm_num)]
      norm_cast
    rw [e] at hle
    have hge : (2 : ℚ) ^ 53 ≤ |(m : ℚ)| := le_of_mul_le_mul_right hle (by positivity)
    have hmeq : |m| = 2 ^ 53 := by
      have : (2 : Int) ^ 53 ≤ |m| := by exact_mod_cast hge
      omega
    have hm2 : (m : ℚ) = 2 * ((m / 2 : Int) : ℚ) := by
      have : m = 2 * (m / 2) := by
        rcases abs_cases m with ⟨h1, _⟩ | ⟨h1, _⟩ <;> omega
      exact_mod_cast this
    apply roundFloat64_of_multiple _ (m / 2)
    rw [hLdef, hmax, hL]
    have e1 : (2 : ℚ) ^ ((53 : Int) + (j : Int) - 52) = 2 * 2 ^ j := by
      have : (53 : Int) + (j : Int) - 52 = 1 + j := by omega
      rw [this, zpow_add₀ (by norm_num)]
      norm_cast
    rw [e1, hm2]
    have : (2 : ℚ) ^ j ≠ 0 := by positivity
    field_simp
    ring

/-- Integers of at most `2 ^ 53` in absolute value are `float64` values. -/
theorem roundFloat64_intCast (k : Int) (hk : |k| ≤ 2 ^ 53) : roundFloat64 (k : ℚ) = k := by
  have := roundFloat64_scaled k 0 hk
  simpa using this

theorem wrapInt64_of_range (n : Int) (h1 : -(2 ^ 63) ≤ n) (h2 : n < 2 ^ 63) :
    wrapInt64 n = n := by
  unfold wrapInt64
  omega

theorem floatToInt_intCast (other : ℚ → Int) (k : Int) (h1 : -(2 ^ 63) ≤ k) (h2 : k < 2 ^ 63) :
    floatToInt other (k : ℚ) = k := by
  unfold floatToInt
  rw [truncToInt_intCast, if_pos ⟨h1, h2⟩]

theorem roundHalfEven_down (q : ℚ) (f : Int) (h1 : (f : ℚ) ≤ q) (h2 : q - f < 1 / 2) :
    roundHalfEven q = f := by
  have hf : ⌊q⌋ = f := by
    rw [Int.floor_eq_iff]
    constructor
    · exact h1
    · linarith
  unfold roundHalfEven
  simp only [hf, h2, if_true]

theorem roundHalfEven_up (q : ℚ) (f : Int) (h1 : 1 / 2 < q - f) (h2 : q < f + 1) :
    roundHalfEven q = f + 1 := by
  have hf : ⌊q⌋ = f := by
    rw [Int.floor_eq_iff]
    constructor
    · linarith
    · exact h2
  have h3 : ¬ (q - f < 1 / 2) := by linarith
  unfold roundHalfEven
  simp only [hf, h3, h1, if_true, if_false]

theorem log_below_two_pow_sixty : Int.log 2 ((2 : ℚ) ^ 60 - 1) = 59 := by
  have hpos : (0 : ℚ) < 2 ^ 60 - 1 := by norm_num
  apply le_antisymm
  · have : Int.log 2 ((2 : ℚ) ^ 60 - 1) < 60 := by
      rw [← Int.lt_zpow_iff_log_lt (by norm_num) hpos]
      norm_num
    omega
  · rw [← Int.zpow_le_iff_le_log (by norm_num) hpos]
    norm_num

/-- One below `2 ^ 60` is not a `float64`: the units in the last place are 128
there, and the sum `2 ^ 60 - 1` is rounded back to `2 ^ 60`. -/
theorem roundFloat64_below_two_pow_sixty : roundFloat64 (2 ^ 60 - 1) = 2 ^ 60 := by
  unfold roundFloat64
  have hq : ¬ ((2 : ℚ) ^ 60 - 1 = 0) := by norm_num
  have habs : |(2 : ℚ) ^ 60 - 1| = 2 ^ 60 - 1 := abs_of_pos (by norm_num)
  simp only [hq, if_false, habs, log_below_two_pow_sixty]
  have hmax : max (59 : Int) (-1022) = 59 := by decide
  rw [hmax]
  have hulp : (2 : ℚ) ^ ((59 : Int) - 52) = 128 := by norm_num
  rw [hulp, roundHalfEven_up ((2 ^ 60 - 1) / 128) (2 ^ 53 - 1) (by norm_num) (by norm_num)]
  norm_num

/-- One above `-2 ^ 60` is rounded back to `-2 ^ 60`. -/
theorem roundFloat64_above_neg_two_pow_sixty : roundFloat64 (-2 ^ 60 + 1) = -2 ^ 60 := by
  unfold roundFloat64
  have hq : ¬ (-(2 : ℚ) ^ 60 + 1 = 0) := by norm_num
  have habs : |-(2 : ℚ) ^ 60 + 1| = 2 ^ 60 - 1 := by
    rw [abs_of_neg (by norm_num)]
    ring
  simp only [hq, if_false, habs, log_below_two_pow_sixty]
  have hmax : max (59 : Int) (-1022) = 59 := by decide
  rw [hmax]
  have hulp : (2 : ℚ) ^ ((59 : Int) - 52) = 128 := by norm_num
  rw [hulp, roundHalfEven_down ((-2 ^ 60 + 1) / 128) (-2 ^ 53) (by norm_num) (by norm_num)]
  norm_num

theorem forLoop_fixed {σ : Type} (body : Nat → σ → Except Failure σ) (s : σ)
    (h : ∀ i, body i s = .ok s) : ∀ n, forLoop n body s = .ok s := by
  intro n
  induction n with
  | zero => rfl
  | succ k ih => rw [forLoop_succ, ih]; exact h k

theorem roundFloat64_zero : roundFloat64 0 = 0 := by
  simp [roundFloat64]

theorem axis_increment (d : Int) :
    ((d : Int) : ℚ) / ((|d| : Int) : ℚ) = ((Int.sign d : Int) : ℚ) := by
  rcases lt_trichotomy d 0 with h | h | h
  · rw [abs_of_neg h, Int.sign_eq_neg_one_of_neg h]
    have : (d : ℚ) ≠ 0 := by exact_mod_cast (ne_of_lt h)
    push_cast
    field_simp
  · subst h
    simp
  · rw [abs_of_pos h, Int.sign_eq_one_of_pos h]
    have : (d : ℚ) ≠ 0 := by exact_mod_cast (ne_of_gt h)
    push_cast
    field_simp

theorem roundFloat64_sign (d : Int) : roundFloat64 ((Int.sign d : Int) : ℚ) = (Int.sign d : Int) := by
  apply roundFloat64_intCast
  rcases lt_trichotomy d 0 with h | h | h
  · rw [Int.sign_eq_neg_one_of_neg h]; decide
  · subst h; decide
  · rw [Int.sign_eq_one_of_pos h]; decide

/-- A horizontal line that starts outside the columns of the grid, at a value
of `x` so large that adding the increment is rounded back to it, never moves:
every call of `Set` falls outside the grid and the image stays as it is. -/
theorem drawLine_stalled (other : ℚ → Int) (ppm : PPM) (p1 p2 : Point) (color : Pixel)
    (d : Int) (hX : wrapInt64 (p2.X - p1.X) = d) (hY : wrapInt64 (p2.Y - p1.Y) = 0)
    (hd : roundFloat64 (d : ℚ) = d) (hd63 : |d| < 2 ^ 63)
    (hsteps : roundFloat64 ((|d| : Int) : ℚ) = ((|d| : Int) : ℚ))
    (hx0 : roundFloat64 (p1.X : ℚ) = p1.X) (hx63 : -(2 ^ 63) ≤ p1.X ∧ p1.X < 2 ^ 63)
    (hy0 : |p1.Y| ≤ 2 ^ 53)
    (hstall : roundFloat64 ((p1.X : ℚ) + ((Int.sign d : Int) : ℚ)) = p1.X)
    (hout : p1.X < 0 ∨ ppm.width ≤ p1.X) :
    PPM.DrawLine other ppm p1 p2 color = .ok ppm := by
  have hy0' : roundFloat64 (p1.Y : ℚ) = p1.Y := roundFloat64_intCast _ hy0
  have hy63 : -(2 ^ 63) ≤ p1.Y ∧ p1.Y < 2 ^ 63 := by
    rcases abs_cases p1.Y with ⟨h1, _⟩ | ⟨h1, _⟩ <;> omega
  have hmax : Max.max |(d : ℚ)| |(0 : ℚ)| = ((|d| : Int) : ℚ) := by
    rw [abs_zero, max_eq_left (abs_nonneg _), Int.cast_abs]
  have hst : floatToInt other ((|d| : Int) : ℚ) = |d| :=
    floatToInt_intCast other _ (by have := abs_nonneg d; omega) hd63
  have hbody : ∀ i : Nat,
      (fun (_ : Nat) st => PPM.drawStep other color ((Int.sign d : Int) : ℚ) 0 st) i
        (ppm, (p1.X : ℚ), (p1.Y : ℚ)) = .ok (ppm, (p1.X : ℚ), (p1.Y : ℚ)) := by
    intro i
    have hset : PPM.Set ppm p1.X p1.Y color = .ok ppm := by
      unfold PPM.Set
      rw [if_neg (by omega)]
    simp only [PPM.drawStep, floatToInt_intCast other p1.X hx63.1 hx63.2,
      floatToInt_intCast other p1.Y hy63.1 hy63.2, hset, hstall, add_zero, hy0']
  unfold PPM.DrawLine
  simp only
  rw [hX, hY, Int.cast_zero, roundFloat64_zero, hd, hmax, hst, hsteps, axis_increment,
    roundFloat64_sign, zero_div, roundFloat64_zero, hx0, hy0',
    forLoop_fixed _ _ hbody]

theorem drawLoop_spec (other : ℚ → Int) (color : Pixel) (x0 y0 sx sy : Int) :
    ∀ (n : Nat) (p : PPM), gridShape p.data p.width p.height = true →
      (∀ i : Nat, i ≤ n → |x0 + i * sx| ≤ 2 ^ 53 ∧ |y0 + i * sy| ≤ 2 ^ 53) →
      ∃ q, forLoop n (fun _ st => PPM.drawStep other color (sx : ℚ) (sy : ℚ) st)
          (p, (x0 : ℚ), (y0 : ℚ)) =
          .ok (q, ((x0 + n * sx : Int) : ℚ), ((y0 + n * sy : Int) : ℚ)) ∧
        Painted p q (fun a b => ∃ i : Nat, i < n ∧ a = x0 + i * sx ∧ b = y0 + i * sy)
          color := by
  intro n
  induction n with
  | zero =>
    intro p hp _
    refine ⟨p, by simp [forLoop], painted_of_iff p p _ _ color (painted_none p color hp) ?_⟩
    intro x y _ _ _ _
    constructor
    · intro h
      exact h.elim
    · rintro ⟨i, hi, _⟩
      omega
  | succ k ih =>
    intro p hp hb
    obtain ⟨q, hq, hpq⟩ := ih p hp (fun i hi => hb i (by omega))
    obtain ⟨r, hr, hqr⟩ := set_painted q (x0 + k * sx) (y0 + k * sy) color hpq.2.2.2.2.1
    have hbk := hb k (by omega)
    have hbk1 := hb (k + 1) (by omega)
    have hxk : -(2 ^ 63) ≤ x0 + k * sx ∧ x0 + k * sx < 2 ^ 63 := by
      have := abs_le.mp hbk.1
      omega
    have hyk : -(2 ^ 63) ≤ y0 + k * sy ∧ y0 + k * sy < 2 ^ 63 := by
      have := abs_le.mp hbk.2
      omega
    have ex : ((x0 + (k : Int) * sx : Int) : ℚ) + (sx : ℚ) =
        (((x0 + ((k + 1 : Nat) : Int) * sx : Int)) : ℚ) := by
      push_cast
      ring
    have ey : ((y0 + (k : Int) * sy : Int) : ℚ) + (sy : ℚ) =
        (((y0 + ((k + 1 : Nat) : Int) * sy : Int)) : ℚ) := by
      push_cast
      ring
    refine ⟨r, ?_, painted_of_iff p r _ _ color (painted_trans p q r _ _ color hpq hqr) ?_⟩
    · rw [forLoop_succ, hq]
      simp only [PPM.drawStep, floatToInt_intCast other _ hxk.1 hxk.2,
        floatToInt_intCast other _ hyk.1 hyk.2, hr]
      rw [ex, ey, roundFloat64_intCast _ hbk1.1, roundFloat64_intCast _ hbk1.2]
    · intro x y _ _ _ _
      constructor
      · rintro (⟨i, hi, hs⟩ | hs)
        · exact ⟨i, by omega, hs⟩
        · exact ⟨k, by omega, hs⟩
      · rintro ⟨i, hi, hs⟩
        by_cases hik : i = k
        · subst hik
          exact Or.inr hs
        · exact Or.inl ⟨i, by omega, hs⟩

theorem segment_points (c d a : Int) :
    (∃ i : Nat, i < (|d| + 1).toNat ∧ a = c + i * Int.sign d) ↔
      ((c ≤ a ∧ a ≤ c + d) ∨ (c + d ≤ a ∧ a ≤ c)) := by
  rcases lt_trichotomy d 0 with h | h | h
  · rw [abs_of_neg h, Int.sign_eq_neg_one_of_neg h]
    constructor
    · rintro ⟨i, hi, rfl⟩
      omega
    · intro hc
      exact ⟨(c - a).toNat, by omega, by omega⟩
  · subst h
    simp only [abs_zero, Int.sign_zero, mul_zero, add_zero]
    constructor
    · rintro ⟨i, _, rfl⟩
      omega
    · intro hc
      exact ⟨0, by omega, by omega⟩
  · rw [abs_of_pos h, Int.sign_eq_one_of_pos h]
    constructor
    · rintro ⟨i, hi, rfl⟩
      omega
    · intro hc
      exact ⟨(a - c).toNat, by omega, by omega⟩

/-- Along a segment between two coordinates of at most `2 ^ 52`, every value
of the loop of `DrawLine`, the one after the last round included, is at most
`2 ^ 53`. -/
theorem axis_bound (c e : Int) (hc : -(2 ^ 52) ≤ c ∧ c ≤ 2 ^ 52)
    (he : -(2 ^ 52) ≤ e ∧ e ≤ 2 ^ 52) (i : Nat) (hi : i ≤ (|e - c| + 1).toNat) :
    |c + i * Int.sign (e - c)| ≤ 2 ^ 53 := by
  rw [abs_le]
  rcases lt_trichotomy (e - c) 0 with h | h | h
  · rw [abs_of_neg h] at hi
    rw [Int.sign_eq_neg_one_of_neg h]
    omega
  · rw [h] at hi ⊢
    simp only [Int.sign_zero, mul_zero, add_zero]
    omega
  · rw [abs_of_pos h] at hi
    rw [Int.sign_eq_one_of_pos h]
    omega

theorem drawLine_axis (other : ℚ → Int) (ppm : PPM) (p1 p2 : Point) (color : Pixel)
    (hs : gridShape ppm.data ppm.width ppm.height = true)
    (hax : p1.X = p2.X ∨ p1.Y = p2.Y) (h1 : floatExact p1) (h2 : floatExact p2) :
    ∃ q, ppm.DrawLine other p1 p2 color = .ok q ∧
      Painted ppm q (onAxisSegment p1 p2) color := by
  obtain ⟨a1, a2, a3, a4⟩ := h1
  obtain ⟨b1, b2, b3, b4⟩ := h2
  have hdxb : |p2.X - p1.X| ≤ 2 ^ 53 := by rw [abs_le]; omega
  have hdyb : |p2.Y - p1.Y| ≤ 2 ^ 53 := by rw [abs_le]; omega
  have hwx : wrapInt64 (p2.X - p1.X) = p2.X - p1.X :=
    wrapInt64_of_range _ (by omega) (by omega)
  have hwy : wrapInt64 (p2.Y - p1.Y) = p2.Y - p1.Y :=
    wrapInt64_of_range _ (by omega) (by omega)
  have hx0 : roundFloat64 (p1.X : ℚ) = p1.X := roundFloat64_intCast _ (by rw [abs_le]; omega)
  have hy0 : roundFloat64 (p1.Y : ℚ) = p1.Y := roundFloat64_intCast _ (by rw [abs_le]; omega)
  have hmaxb : abs (max (abs (p2.X - p1.X)) (abs (p2.Y - p1.Y))) ≤ 2 ^ 53 := by
    rw [abs_of_nonneg (le_max_of_le_left (abs_nonneg _))]
    exact max_le hdxb hdyb
  have hst : floatToInt other ((max |p2.X - p1.X| |p2.Y - p1.Y| : Int) : ℚ) =
      max |p2.X - p1.X| |p2.Y - p1.Y| := by
    have hnn : 0 ≤ max |p2.X - p1.X| |p2.Y - p1.Y| := le_max_of_le_left (abs_nonneg _)
    have := abs_le.mp hmaxb
    exact floatToInt_intCast other _ (by omega) (by omega)
  unfold PPM.DrawLine
  simp only
  rw [hwx, hwy, roundFloat64_intCast _ hdxb, roundFloat64_intCast _ hdyb,
    ← Int.cast_abs, ← Int.cast_abs, ← Int.cast_max, hst, roundFloat64_intCast _ hmaxb, hx0, hy0]
  rcases hax with hx | hy
  · -- vertical line
    have hdx : p2.X - p1.X = 0 := by omega
    have hmax : max |p2.X - p1.X| |p2.Y - p1.Y| = |p2.Y - p1.Y| := by
      rw [hdx, abs_zero]
      exact max_eq_right (abs_nonneg _)
    rw [hmax, axis_increment, hdx]
    have hz : ((0 : Int) : ℚ) / ((|p2.Y - p1.Y| : Int) : ℚ) = ((0 : Int) : ℚ) := by simp
    rw [hz, roundFloat64_sign, roundFloat64_intCast 0 (by decide)]
    obtain ⟨q, hq, hpq⟩ := drawLoop_spec other color p1.X p1.Y 0 (Int.sign (p2.Y - p1.Y))
      (|p2.Y - p1.Y| + 1).toNat ppm hs (by
        intro i hi
        refine ⟨?_, axis_bound p1.Y p2.Y ⟨a3, a4⟩ ⟨b3, b4⟩ i hi⟩
        rw [abs_le]
        omega)
    rw [hq]
    refine ⟨q, rfl, painted_of_iff ppm q _ _ color hpq ?_⟩
    intro x y _ _ _ _
    have key := segment_points p1.Y (p2.Y - p1.Y) y
    have e : p1.Y + (p2.Y - p1.Y) = p2.Y := by omega
    rw [e] at key
    unfold onAxisSegment
    constructor
    · rintro ⟨i, hi, hxe, hye⟩
      have := key.mp ⟨i, hi, hye⟩
      refine ⟨?_, this⟩
      left
      omega
    · rintro ⟨hxx, hyy⟩
      obtain ⟨i, hi, hye⟩ := key.mpr hyy
      exact ⟨i, hi, by omega, hye⟩
  · -- horizontal line
    have hdy : p2.Y - p1.Y = 0 := by omega
    have hmax : max |p2.X - p1.X| |p2.Y - p1.Y| = |p2.X - p1.X| := by
      rw [hdy, abs_zero]
      exact max_eq_left (abs_nonneg _)
    rw [hmax, axis_increment, hdy]
    have hz : ((0 : Int) : ℚ) / ((|p2.X - p1.X| : Int) : ℚ) = ((0 : Int) : ℚ) := by simp
    rw [hz, roundFloat64_sign, roundFloat64_intCast 0 (by decide)]
    obtain ⟨q, hq, hpq⟩ := drawLoop_spec other color p1.X p1.Y (Int.sign (p2.X - p1.X)) 0
      (|p2.X - p1.X| + 1).toNat ppm hs (by
        intro i hi
        refine ⟨axis_bound p1.X p2.X ⟨a1, a2⟩ ⟨b1, b2⟩ i hi, ?_⟩
        rw [abs_le]
        omega)
    rw [hq]
    refine ⟨q, rfl, painted_of_iff ppm q _ _ color hpq ?_⟩
    intro x y _ _ _ _
    have key := segment_points p1.X (p2.X - p1.X) x
    have e : p1.X + (p2.X - p1.X) = p2.X := by omega
    rw [e] at key
    unfold onAxisSegment
    constructor
    · rintro ⟨i, hi, hxe, hye⟩
      have := key.mp ⟨i, hi, hxe⟩
      refine ⟨this, ?_⟩
      left
      omega
    · rintro ⟨hxx, hyy⟩
      obtain ⟨i, hi, hxe⟩ := key.mpr hxx
      exact ⟨i, hi, hxe, by omega⟩

theorem roundFloat64_two_pow (j : Nat) : roundFloat64 (((2 ^ j : Int)) : ℚ) = ((2 ^ j : Int) : ℚ) := by
  have := roundFloat64_scaled 1 j (by norm_num)
  simpa using this

theorem roundFloat64_neg_two_pow (j : Nat) :
    roundFloat64 (((-2 ^ j : Int)) : ℚ) = ((-2 ^ j : Int) : ℚ) := by
  have := roundFloat64_scaled (-1) j (by norm_num)
  simpa using this

/-- On the 1 x 1 image the line from `(-2 ^ 60, 0)` to `(2 ^ 60, 0)` leaves the
image as it was. -/
theorem dot_line_rightwards :
    PPM.DrawLine int64Indefinite dotPixmap ⟨-2 ^ 60, 0⟩ ⟨2 ^ 60, 0⟩ ⟨9, 9, 9⟩ = .ok dotPixmap := by
  have hsgn : Int.sign ((2 : Int) ^ 61) = 1 := Int.sign_eq_one_of_pos (by norm_num)
  apply drawLine_stalled int64Indefinite dotPixmap ⟨-2 ^ 60, 0⟩ ⟨2 ^ 60, 0⟩ ⟨9, 9, 9⟩ (2 ^ 61)
  · show wrapInt64 (2 ^ 60 - -2 ^ 60) = 2 ^ 61
    unfold wrapInt64
    norm_num
  · show wrapInt64 (0 - 0) = 0
    unfold wrapInt64
    norm_num
  · exact roundFloat64_two_pow 61
  · norm_num
  · have : |((2 : Int) ^ 61)| = 2 ^ 61 := abs_of_pos (by norm_num)
    rw [this]
    exact roundFloat64_two_pow 61
  · exact roundFloat64_neg_two_pow 60
  · show -(2 ^ 63) ≤ (-2 ^ 60 : Int) ∧ (-2 ^ 60 : Int) < 2 ^ 63
    norm_num
  · show |(0 : Int)| ≤ 2 ^ 53
    norm_num
  · show roundFloat64 ((((-2 ^ 60 : Int)) : ℚ) + ((Int.sign (2 ^ 61) : Int) : ℚ)) =
      ((-2 ^ 60 : Int) : ℚ)
    rw [hsgn]
    have e : (((-2 ^ 60 : Int)) : ℚ) + (((1 : Int)) : ℚ) = -2 ^ 60 + 1 := by
      push_cast
      ring
    rw [e, roundFloat64_above_neg_two_pow_sixty]
    push_cast
    rfl
  · left
    show (-2 ^ 60 : Int) < 0
    norm_num

/-- C18 at the input `dotPixmap`, a 1 x 1 image, with the line from
`(-2 ^ 60, 0)` to `(2 ^ 60, 0)`: the pixel `(0, 0)` lies on the segment, but
`x` starts at `-2 ^ 60`, where `x += 1` is rounded back to `-2 ^ 60`, so every
call of `Set` falls left of the grid and `DrawLine` returns the image as it
was, with the pixel `(0, 0)` still black. -/
theorem drawLine_far_start_stalls :
    dotPixmap.wellFormed = true ∧
      onAxisSegment ⟨-2 ^ 60, 0⟩ ⟨2 ^ 60, 0⟩ 0 0 ∧
      PPM.DrawLine int64Indefinite dotPixmap ⟨-2 ^ 60, 0⟩ ⟨2 ^ 60, 0⟩ ⟨9, 9, 9⟩ =
        .ok dotPixmap ∧
      dotPixmap.At 0 0 = .ok ⟨0, 0, 0⟩ := by
  refine ⟨by decide, ?_, dot_line_rightwards, by decide⟩
  unfold onAxisSegment
  norm_num

/-- C18, amended: `DrawLine` along an axis, with clipping.  For every
well-formed PPM image, colour and points `p1`, `p2` with `p1.X = p2.X` or
`p1.Y = p2.Y` (`p1 = p2` included) whose coordinates are at most `2 ^ 52` in
absolute value, `DrawLine` completes without failure; width, height, magic
number and max stay; and every pixel inside the grid holds the colour when it
lies on the segment from `p1` to `p2` and its old value otherwise. -/
theorem drawLine_along_axis (other : ℚ → Int) (ppm : PPM) (p1 p2 : Point) (color : Pixel)
    (hwf : ppm.wellFormed = true) (hax : p1.X = p2.X ∨ p1.Y = p2.Y)
    (h1 : floatExact p1) (h2 : floatExact p2) :
    ∃ q, ppm.DrawLine other p1 p2 color = .ok q ∧
      q.width = ppm.width ∧ q.height = ppm.height ∧ q.magicNumber = ppm.magicNumber ∧
      q.max = ppm.max ∧ gridShape q.data q.width q.height = true ∧
      ∀ x y : Int, 0 ≤ x → x < ppm.width → 0 ≤ y → y < ppm.height →
        (onAxisSegment p1 p2 x y → q.At x y = .ok color) ∧
        (¬ onAxisSegment p1 p2 x y → q.At x y = ppm.At x y) := by
  have hs : gridShape ppm.data ppm.width ppm.height = true :=
    (gridShape_iff _ _ _).mpr ((ppm_wellFormed_iff ppm).mp hwf).1
  obtain ⟨q, hq, hp⟩ := drawLine_axis other ppm p1 p2 color hs hax h1 h2
  exact ⟨q, hq, hp⟩

theorem drawLine_along_axis_witness :
    ∃ q, stripePixmap.DrawLine int64Indefinite ⟨0, 0⟩ ⟨3, 0⟩ ⟨9, 9, 9⟩ = .ok q ∧
      q.At 0 0 = .ok ⟨9, 9, 9⟩ ∧ q.At 1 0 = .ok ⟨9, 9, 9⟩ ∧ q.At 2 0 = .ok ⟨9, 9, 9⟩ ∧
      q.At 3 0 = .ok ⟨9, 9, 9⟩ ∧ q.At 4 0 = stripePixmap.At 4 0 ∧
      q.At 0 1 = stripePixmap.At 0 1 :=
  (drawLine_along_axis int64Indefinite stripePixmap ⟨0, 0⟩ ⟨3, 0⟩ ⟨9, 9, 9⟩ (by decide)
    (Or.inr rfl) (by unfold floatExact; decide) (by unfold floatExact; decide)).imp
    (fun _ h =>
      ⟨h.1,
        (h.2.2.2.2.2.2 0 0 (by decide) (by decide) (by decide) (by decide)).1
          (by unfold onAxisSegment; decide),
        (h.2.2.2.2.2.2 1 0 (by decide) (by decide) (by decide) (by decide)).1
          (by unfold onAxisSegment; decide),
        (h.2.2.2.2.2.2 2 0 (by decide) (by decide) (by decide) (by decide)).1
          (by unfold onAxisSegment; decide),
        (h.2.2.2.2.2.2 3 0 (by decide) (by decide) (by decide) (by decide)).1
          (by unfold onAxisSegment; decide),
        (h.2.2.2.2.2.2 4 0 (by decide) (by decide) (by decide) (by decide)).2
          (by unfold onAxisSegment; decide),
        (h.2.2.2.2.2.2 0 1 (by decide) (by decide) (by decide) (by decide)).2
          (by unfold onAxisSegment; decide)⟩)

/-- A segment whose ends coincide is the single point `p`, the one sample that
`DrawLine` from `p` to `p` writes. -/
theorem onAxisSegment_point (p : Point) (x y : Int) :
    onAxisSegment p p x y ↔ x = p.X ∧ y = p.Y := by
  unfold onAxisSegment
  omega

/-- `DrawRectangle` paints the four sides, each one by one call of `DrawLine`
along an axis. -/
theorem drawRectangle_painted (other : ℚ → Int) (ppm : PPM) (p1 : Point) (width height : Int)
    (color : Pixel) (hs : gridShape ppm.data ppm.width ppm.height = true)
    (h1 : floatExact p1) (h2 : floatExact ⟨p1.X + width, p1.Y + height⟩) :
    ∃ q, ppm.DrawRectangle other p1 width height color = .ok q ∧
      Painted ppm q (fun x y =>
        ((onAxisSegment p1 ⟨p1.X + width, p1.Y⟩ x y ∨
          onAxisSegment ⟨p1.X + width, p1.Y⟩ ⟨p1.X + width, p1.Y + height⟩ x y) ∨
          onAxisSegment ⟨p1.X + width, p1.Y + height⟩ ⟨p1.X, p1.Y + height⟩ x y) ∨
          onAxisSegment ⟨p1.X, p1.Y + height⟩ p1 x y) color := by
  have c1 : -(2 ^ 52) ≤ p1.X + width := h2.1
  have c2 : p1.X + width ≤ 2 ^ 52 := h2.2.1
  have c3 : -(2 ^ 52) ≤ p1.Y + height := h2.2.2.1
  have c4 : p1.Y + height ≤ 2 ^ 52 := h2.2.2.2
  have hwx : wrapInt64 (p1.X + width) = p1.X + width :=
    wrapInt64_of_range _ (by omega) (by omega)
  have hwy : wrapInt64 (p1.Y + height) = p1.Y + height :=
    wrapInt64_of_range _ (by omega) (by omega)
  have e2 : floatExact ⟨p1.X + width, p1.Y⟩ := ⟨h2.1, h2.2.1, h1.2.2.1, h1.2.2.2⟩
  have e4 : floatExact ⟨p1.X, p1.Y + height⟩ := ⟨h1.1, h1.2.1, h2.2.2.1, h2.2.2.2⟩
  obtain ⟨a, ha, hpa⟩ := drawLine_axis other ppm p1 ⟨p1.X + width, p1.Y⟩ color hs
    (Or.inr rfl) h1 e2
  obtain ⟨b, hb, hab⟩ := drawLine_axis other a ⟨p1.X + width, p1.Y⟩
    ⟨p1.X + width, p1.Y + height⟩ color hpa.2.2.2.2.1 (Or.inl rfl) e2 h2
  obtain ⟨c, hc, hbc⟩ := drawLine_axis other b ⟨p1.X + width, p1.Y + height⟩
    ⟨p1.X, p1.Y + height⟩ color hab.2.2.2.2.1 (Or.inr rfl) h2 e4
  obtain ⟨d, hd, hcd⟩ := drawLine_axis other c ⟨p1.X, p1.Y + height⟩ p1 color hbc.2.2.2.2.1
    (Or.inl rfl) e4 h1
  have hab2 := painted_trans ppm a b _ _ color hpa hab
  have hac := painted_trans ppm b c _ _ color hab2 hbc
  have had := painted_trans ppm c d _ _ color hac hcd
  refine ⟨d, ?_, had⟩
  unfold PPM.DrawRectangle
  simp only [hwx, hwy, ha, hb, hc, hd]

/-- On the 1 x 1 image the line from `(2 ^ 60, 0)` to `(-2 ^ 60, 0)` leaves the
image as it was. -/
theorem dot_line_leftwards :
    PPM.DrawLine int64Indefinite dotPixmap ⟨2 ^ 60, 0⟩ ⟨-2 ^ 60, 0⟩ ⟨9, 9, 9⟩ = .ok dotPixmap := by
  have hsgn : Int.sign (-(2 : Int) ^ 61) = -1 := Int.sign_eq_neg_one_of_neg (by norm_num)
  apply drawLine_stalled int64Indefinite dotPixmap ⟨2 ^ 60, 0⟩ ⟨-2 ^ 60, 0⟩ ⟨9, 9, 9⟩
    (-2 ^ 61)
  · show wrapInt64 (-2 ^ 60 - 2 ^ 60) = -2 ^ 61
    unfold wrapInt64
    norm_num
  · show wrapInt64 (0 - 0) = 0
    unfold wrapInt64
    norm_num
  · exact roundFloat64_neg_two_pow 61
  · norm_num
  · have : |(-2 ^ 61 : Int)| = 2 ^ 61 := by norm_num
    rw [this]
    exact roundFloat64_two_pow 61
  · exact roundFloat64_two_pow 60
  · show -(2 ^ 63) ≤ (2 ^ 60 : Int) ∧ (2 ^ 60 : Int) < 2 ^ 63
    norm_num
  · show |(0 : Int)| ≤ 2 ^ 53
    norm_num
  · show roundFloat64 ((((2 ^ 60 : Int)) : ℚ) + ((Int.sign (-2 ^ 61) : Int) : ℚ)) =
      ((2 ^ 60 : Int) : ℚ)
    rw [hsgn]
    have e : (((2 ^ 60 : Int)) : ℚ) + (((-1 : Int)) : ℚ) = 2 ^ 60 - 1 := by
      push_cast
      ring
    rw [e, roundFloat64_below_two_pow_sixty]
    push_cast
    rfl
  · right
    show (1 : Int) ≤ 2 ^ 60
    norm_num

/-- On the 1 x 1 image a line that starts and ends at a point `(c, 0)` outside
the grid leaves the image as it was. -/
theorem dot_line_point (c : Int) (hc : roundFloat64 (c : ℚ) = c)
    (hr : -(2 ^ 63) ≤ c ∧ c < 2 ^ 63) (hout : c < 0 ∨ 1 ≤ c) :
    PPM.DrawLine int64Indefinite dotPixmap ⟨c, 0⟩ ⟨c, 0⟩ ⟨9, 9, 9⟩ = .ok dotPixmap := by
  apply drawLine_stalled int64Indefinite dotPixmap ⟨c, 0⟩ ⟨c, 0⟩ ⟨9, 9, 9⟩ 0
  · show wrapInt64 (c - c) = 0
    unfold wrapInt64
    omega
  · show wrapInt64 (0 - 0) = 0
    unfold wrapInt64
    norm_num
  · simp [roundFloat64_zero]
  · norm_num
  · simp [roundFloat64_zero]
  · exact hc
  · exact hr
  · show |(0 : Int)| ≤ 2 ^ 53
    norm_num
  · show roundFloat64 ((c : ℚ) + ((Int.sign 0 : Int) : ℚ)) = (c : ℚ)
    simp only [Int.sign_zero, Int.cast_zero, add_zero]
    exact hc
  · exact hout

/-- When the four sides leave the image as it is and the fill loop has no
round, `DrawFilledRectangle` leaves the image as it is. -/
theorem drawFilledRectangle_unchanged (other : ℚ → Int) (ppm : PPM) (p1 : Point)
    (width height : Int) (color : Pixel) (x2 y2 : Int)
    (hx2 : wrapInt64 (p1.X + width) = x2) (hy2 : wrapInt64 (p1.Y + height) = y2)
    (hL1 : PPM.DrawLine other ppm p1 ⟨x2, p1.Y⟩ color = .ok ppm)
    (hL2 : PPM.DrawLine other ppm ⟨x2, p1.Y⟩ ⟨x2, y2⟩ color = .ok ppm)
    (hL3 : PPM.DrawLine other ppm ⟨x2, y2⟩ ⟨p1.X, y2⟩ color = .ok ppm)
    (hL4 : PPM.DrawLine other ppm ⟨p1.X, y2⟩ p1 color = .ok ppm)
    (hcount : (y2 - wrapInt64 (p1.Y + 1)).toNat = 0) :
    PPM.DrawFilledRectangle other ppm p1 width height color = .ok ppm := by
  unfold PPM.DrawFilledRectangle PPM.DrawRectangle
  simp only [hx2, hy2, hL1, hL2, hL3, hL4, hcount]
  rfl

/-- C19 at the input `dotPixmap`, a 1 x 1 image, with the origin
`(-2 ^ 60, 0)`, width `2 ^ 61` and height 0: the pixel `(0, 0)` lies in the
closed rectangle, but the two horizontal sides start at `-2 ^ 60` and at
`2 ^ 60`, where adding the increment is rounded back, and never reach the
grid; the other two sides are points outside the grid and the fill loop has
no round.  `DrawFilledRectangle` returns the image as it was. -/
theorem filledRectangle_far_origin_stalls :
    dotPixmap.wellFormed = true ∧
      ((-2 ^ 60 : Int) ≤ 0 ∧ (0 : Int) ≤ -2 ^ 60 + 2 ^ 61 ∧ (0 : Int) ≤ 0 ∧ (0 : Int) ≤ 0 + 0) ∧
      PPM.DrawFilledRectangle int64Indefinite dotPixmap ⟨-2 ^ 60, 0⟩ (2 ^ 61) 0 ⟨9, 9, 9⟩ =
        .ok dotPixmap ∧
      dotPixmap.At 0 0 = .ok ⟨0, 0, 0⟩ := by
  refine ⟨by decide, by norm_num, ?_, by decide⟩
  apply drawFilledRectangle_unchanged int64Indefinite dotPixmap ⟨-2 ^ 60, 0⟩ (2 ^ 61) 0
    ⟨9, 9, 9⟩ (2 ^ 60) 0
  · show wrapInt64 (-2 ^ 60 + 2 ^ 61) = 2 ^ 60
    unfold wrapInt64
    norm_num
  · show wrapInt64 (0 + 0) = 0
    unfold wrapInt64
    norm_num
  · exact dot_line_rightwards
  · exact dot_line_point (2 ^ 60) (roundFloat64_two_pow 60) (by norm_num) (Or.inr (by norm_num))
  · exact dot_line_leftwards
  · exact dot_line_point (-2 ^ 60) (roundFloat64_neg_two_pow 60) (by norm_num)
      (Or.inl (by norm_num))
  · show ((0 : Int) - wrapInt64 (0 + 1)).toNat = 0
    have : wrapInt64 (0 + 1) = 1 := by unfold wrapInt64; norm_num
    rw [this]
    decide

/-- C19, amended: coverage of the filled rectangle.  For every well-formed PPM
image, origin `p1`, width and height that are not negative and colour, where
the coordinates of `p1` and of the far corner `(p1.X + width, p1.Y + height)`
are at most `2 ^ 52` in absolute value, `DrawFilledRectangle` completes;
width, height, magic number and max stay; every pixel `(x, y)` inside the grid
with `p1.X <= x <= p1.X + width` and `p1.Y <= y <= p1.Y + height` holds the
colour, and every other pixel of the grid keeps its value. -/
theorem drawFilledRectangle_covers (other : ℚ → Int) (ppm : PPM) (p1 : Point)
    (width height : Int) (color : Pixel) (hwf : ppm.wellFormed = true) (hw : 0 ≤ width)
    (hh : 0 ≤ height) (h1 : floatExact p1)
    (h2 : floatExact ⟨p1.X + width, p1.Y + height⟩) :
    ∃ q, ppm.DrawFilledRectangle other p1 width height color = .ok q ∧
      q.width = ppm.width ∧ q.height = ppm.height ∧ q.magicNumber = ppm.magicNumber ∧
      q.max = ppm.max ∧ gridShape q.data q.width q.height = true ∧
      ∀ x y : Int, 0 ≤ x → x < ppm.width → 0 ≤ y → y < ppm.height →
        ((p1.X ≤ x ∧ x ≤ p1.X + width ∧ p1.Y ≤ y ∧ y ≤ p1.Y + height) →
          q.At x y = .ok color) ∧
        (¬ (p1.X ≤ x ∧ x ≤ p1.X + width ∧ p1.Y ≤ y ∧ y ≤ p1.Y + height) →
          q.At x y = ppm.At x y) := by
  have hs : gridShape ppm.data ppm.width ppm.height = true :=
    (gridShape_iff _ _ _).mpr ((ppm_wellFormed_iff ppm).mp hwf).1
  obtain ⟨a1, a2, a3, a4⟩ := h1
  have c1 : -(2 ^ 52) ≤ p1.X + width := h2.1
  have c2 : p1.X + width ≤ 2 ^ 52 := h2.2.1
  have c3 : -(2 ^ 52) ≤ p1.Y + height := h2.2.2.1
  have c4 : p1.Y + height ≤ 2 ^ 52 := h2.2.2.2
  have hwx : wrapInt64 (p1.X + width) = p1.X + width :=
    wrapInt64_of_range _ (by omega) (by omega)
  have hwy : wrapInt64 (p1.Y + height) = p1.Y + height :=
    wrapInt64_of_range _ (by omega) (by omega)
  have hwx1 : wrapInt64 (p1.X + 1) = p1.X + 1 := wrapInt64_of_range _ (by omega) (by omega)
  have hwy1 : wrapInt64 (p1.Y + 1) = p1.Y + 1 := wrapInt64_of_range _ (by omega) (by omega)
  have hcw : (p1.X + width - (p1.X + 1)).toNat = (width - 1).toNat := by
    congr 1
    omega
  have hch : (p1.Y + height - (p1.Y + 1)).toNat = (height - 1).toNat := by
    congr 1
    omega
  obtain ⟨a, ha, hpa⟩ := drawRectangle_painted other ppm p1 width height color hs
    ⟨a1, a2, a3, a4⟩ h2
  have hrow : ∀ jj : Nat, jj < (height - 1).toNat → ∀ b : PPM,
      gridShape b.data b.width b.height = true →
      ∃ r, forLoop (width - 1).toNat (fun ii c =>
          PPM.Set c (p1.X + 1 + ii) (p1.Y + 1 + jj) color) b = .ok r ∧
        Painted b r (fun x y => ∃ ii : Nat, ii < (width - 1).toNat ∧
          (x = p1.X + 1 + ii ∧ y = p1.Y + 1 + jj)) color := by
    intro jj _ b hb
    exact painted_forLoop color
      (fun ii c => PPM.Set c (p1.X + 1 + ii) (p1.Y + 1 + jj) color)
      (fun ii x y => x = p1.X + 1 + ii ∧ y = p1.Y + 1 + jj) (width - 1).toNat
      (fun ii _ c hc => set_painted c (p1.X + 1 + ii) (p1.Y + 1 + jj) color hc) b hb
  obtain ⟨q, hq, haq⟩ := painted_forLoop color
    (fun jj b => forLoop (width - 1).toNat (fun ii c =>
      PPM.Set c (p1.X + 1 + ii) (p1.Y + 1 + jj) color) b)
    (fun jj x y => ∃ ii : Nat, ii < (width - 1).toNat ∧
      (x = p1.X + 1 + ii ∧ y = p1.Y + 1 + jj))
    (height - 1).toNat hrow a hpa.2.2.2.2.1
  have hunion := painted_trans ppm a q _ _ color hpa haq
  have hsets : ∀ x y : Int, 0 ≤ x → x < ppm.width → 0 ≤ y → y < ppm.height →
      ((((((onAxisSegment p1 ⟨p1.X + width, p1.Y⟩ x y ∨
          onAxisSegment ⟨p1.X + width, p1.Y⟩ ⟨p1.X + width, p1.Y + height⟩ x y) ∨
          onAxisSegment ⟨p1.X + width, p1.Y + height⟩ ⟨p1.X, p1.Y + height⟩ x y) ∨
          onAxisSegment ⟨p1.X, p1.Y + height⟩ p1 x y)) ∨
        ∃ jj : Nat, jj < (height - 1).toNat ∧ ∃ ii : Nat, ii < (width - 1).toNat ∧
          (x = p1.X + 1 + ii ∧ y = p1.Y + 1 + jj)) ↔
        (p1.X ≤ x ∧ x ≤ p1.X + width ∧ p1.Y ≤ y ∧ y ≤ p1.Y + height)) := by
    intro x y _ _ _ _
    simp only [onAxisSegment]
    constructor
    · rintro (h | ⟨jj, hjj, ii, hii, hx, hy⟩)
      · omega
      · omega
    · intro hrect
      by_cases hborder : x = p1.X ∨ x = p1.X + width ∨ y = p1.Y ∨ y = p1.Y + height
      · left
        omega
      · right
        exact ⟨(y - p1.Y - 1).toNat, by omega, (x - p1.X - 1).toNat, by omega, by omega,
          by omega⟩
  have hfinal := painted_of_iff ppm q _
    (fun x y => p1.X ≤ x ∧ x ≤ p1.X + width ∧ p1.Y ≤ y ∧ y ≤ p1.Y + height) color
    hunion hsets
  have hcall : ppm.DrawFilledRectangle other p1 width height color = .ok q := by
    unfold PPM.DrawFilledRectangle
    rw [ha]
    simp only [hwx, hwy, hwx1, hwy1, hcw, hch]
    exact hq
  unfold Painted at hfinal
  exact ⟨q, hcall, hfinal⟩

theorem drawFilledRectangle_covers_witness :
    ∃ q, canvasPixmap.DrawFilledRectangle int64Indefinite ⟨1, 0⟩ 2 2 ⟨9, 9, 9⟩ = .ok q ∧
      q.At 2 1 = .ok ⟨9, 9, 9⟩ ∧ q.At 1 0 = .ok ⟨9, 9, 9⟩ ∧ q.At 3 2 = .ok ⟨9, 9, 9⟩ ∧
      q.At 1 1 = .ok ⟨9, 9, 9⟩ ∧ q.At 0 0 = canvasPixmap.At 0 0 ∧
      q.At 0 1 = canvasPixmap.At 0 1 :=
  (drawFilledRectangle_covers int64Indefinite canvasPixmap ⟨1, 0⟩ 2 2 ⟨9, 9, 9⟩ (by decide)
    (by decide) (by decide) (by unfold floatExact; decide)
    (by unfold floatExact; decide)).imp
    (fun _ h =>
      ⟨h.1,
        (h.2.2.2.2.2.2 2 1 (by decide) (by decide) (by decide) (by decide)).1 (by decide),
        (h.2.2.2.2.2.2 1 0 (by decide) (by decide) (by decide) (by decide)).1 (by decide),
        (h.2.2.2.2.2.2 3 2 (by decide) (by decide) (by decide) (by decide)).1 (by decide),
        (h.2.2.2.2.2.2 1 1 (by decide) (by decide) (by decide) (by decide)).1 (by decide),
        (h.2.2.2.2.2.2 0 0 (by decide) (by decide) (by decide) (by decide)).2 (by decide),
        (h.2.2.2.2.2.2 0 1 (by decide) (by decide) (by decide) (by decide)).2 (by decide)⟩)

/-! ### PGM.At and PGM.Set -/

/-- C21 at the input `sixGraymap`, a 3 x 2 graymap with the rows 1, 2, 3 and
4, 5, 6: `At(1, 0)` returns 4, the sample of row 1 and column 0, where
`grid[0][1]` is 2; `At(2, 0)`, in bounds, indexes row 2 of two rows and panics;
`Set(0, 1, 9)` changes `grid[0][1]` and leaves `grid[1][0]`; `Set(2, 1, 9)`
panics.  On the 2 x 1 pixmap `PPM.At(1, 0)` returns `grid[0][1]`. -/
theorem pgm_at_set_swap_indices :
    sixGraymap.wellFormed = true ∧
      getCell sixGraymap.data 0 1 = .ok 2 ∧
      sixGraymap.At 1 0 = .ok 4 ∧
      sixGraymap.At 2 0 = .error (.panic "index out of range") ∧
      sixGraymap.Set 0 1 9 = .ok ⟨[[1, 9, 3], [4, 5, 6]], 3, 2, P2, 255⟩ ∧
      sixGraymap.Set 2 1 9 = .error (.panic "index out of range") ∧
      widePixmap.At 1 0 = getCell widePixmap.data 0 1 ∧
      widePixmap.At 1 0 = .ok ⟨2, 2, 2⟩ := by
  decide

/-- `PGM.At` and `PGM.Set` on every image: for indices that are not negative
they read and write `data[x][y]`, the cell of row `x` and column `y`. -/
theorem pgm_at_set_cell (pgm : PGM) (x y v : Nat) :
    pgm.At x y = getCell pgm.data x y ∧
      pgm.Set x y v = (setCell pgm.data x y v).map (fun d => { pgm with data := d }) := by
  constructor
  · simp [PGM.At, intIndex]
  · simp only [PGM.Set, intIndex_natCast]
    cases setCell pgm.data x y v <;> rfl

/-- On every well-formed graymap that is wider than high, the pixel
`(height, 0)` is in bounds and `At(height, 0)` indexes a row that the grid
does not have. -/
theorem pgm_at_wide_panics (pgm : PGM) (hwf : pgm.wellFormed = true) (hh : 0 < pgm.height)
    (hw : pgm.height < pgm.width) :
    (0 ≤ pgm.height ∧ pgm.height < pgm.width ∧ (0 : Int) ≤ 0 ∧ 0 < pgm.height) ∧
      pgm.At pgm.height 0 = .error (.panic "index out of range") := by
  obtain ⟨⟨hlen, -⟩, -, -⟩ := (pgm_wellFormed_iff pgm).mp hwf
  refine ⟨⟨by omega, hw, le_refl _, hh⟩, ?_⟩
  rw [← hlen]
  have hz : intIndex 0 = some 0 := intIndex_natCast 0
  have hnone : pgm.data[pgm.data.length]? = none := List.getElem?_eq_none (le_refl _)
  simp only [PGM.At, intIndex_natCast, hz, getCell, hnone]

/-! ### ReadPBM on a file: allocation limit and file offset -/

theorem makeRows_loop (r : List Bool) (n : Nat) :
    ∀ k, k ≤ n →
      forLoop k (fun i (d : List (List Bool)) => Except.ok (d.set i r) : Nat → List (List Bool) →
        Except Failure (List (List Bool))) (List.replicate n []) =
        .ok (List.replicate k r ++ List.replicate (n - k) []) := by
  intro k
  induction k with
  | zero => intro _; simp [forLoop]
  | succ k ih =>
    intro hk
    rw [forLoop_succ, ih (by omega)]
    simp only
    congr 1
    apply List.ext_getElem?
    intro m
    simp only [List.getElem?_set, List.getElem?_append, List.getElem?_replicate,
      List.length_append, List.length_replicate]
    by_cases h1 : m = k
    · subst h1
      have hm : m < List.length (List.replicate m r ++ List.replicate (n - m) ([] : List Bool)) := by
        simp only [List.length_append, List.length_replicate]
        omega
      simp [hm]
      omega
    · by_cases h2 : m < k
      · have h3 : m < k + 1 := by omega
        simp [h2, h3, Ne.symm h1]
      · have h3 : ¬ m < k + 1 := by omega
        have h4 : (m - (k + 1) < n - (k + 1)) ↔ (m - k < n - k) := by omega
        simp [h2, h3, Ne.symm h1, h4]

/-- Within the limit of `make` the grid is allocated: `height` rows of `width`
samples `false`. -/
theorem makeGrid_ok (w h : Nat) (hw : w ≤ maxAlloc) (hh : 24 * h ≤ maxAlloc) :
    makeGrid w h = .ok (List.replicate h (List.replicate w false)) := by
  have h1 : ¬ (((h : Int) < 0) ∨ ((maxAlloc : Nat) : Int) < ((24 : Nat) : Int) * (h : Int)) := by
    omega
  have h2 : ¬ (((w : Int) < 0) ∨ ((maxAlloc : Nat) : Int) < ((1 : Nat) : Int) * (w : Int)) := by
    omega
  unfold makeGrid makeSlice
  simp only [h1, h2, if_false, Int.toNat_ofNat, List.length_replicate]
  rw [makeRows_loop (List.replicate w false) h h (le_refl _)]
  simp

/-- Beyond the limit of `make` the allocation of the grid panics. -/
theorem makeGrid_panics (w h : Nat) (hh0 : 0 < h)
    (hbig : maxAlloc < w ∨ maxAlloc < 24 * h) :
    makeGrid w h = .error (.panic "makeslice: len out of range") := by
  unfold makeGrid makeSlice
  by_cases h1 : ((h : Int) < 0) ∨ ((maxAlloc : Nat) : Int) < ((24 : Nat) : Int) * (h : Int)
  · simp only [h1, if_true]
  · have h2 : ((w : Int) < 0) ∨ ((maxAlloc : Nat) : Int) < ((1 : Nat) : Int) * (w : Int) := by
      omega
    simp only [h1, h2, if_false, if_true, Int.toNat_ofNat, List.length_replicate]
    exact forLoop_first_error _ _ _ rfl h hh0

/-- On a P1 file whose header declares sizes within the limit of `make`, the
reader on the file and the reader on the text agree. -/
theorem readPBMFile_p1 (content : List Char) (unread : List Nat) (w h : Nat)
    (tl : List (List Char)) (hw : w ≤ maxAlloc) (hh : 24 * h ≤ maxAlloc)
    (hlines : rawLines content = P1 :: (fmtNat w ++ ' ' :: fmtNat h) :: tl) :
    ReadPBMFile content = ReadPBM content unread := by
  have hw63 : w < 2 ^ 63 := by unfold maxAlloc at hw; omega
  have hh63 : h < 2 ^ 63 := by unfold maxAlloc at hh; omega
  obtain ⟨line, hline, hF⟩ := readNextLine_dims w h hw63 hh63 tl
  unfold ReadPBMFile ReadPBM
  rw [hlines, readNextLine_P1]
  simp only [hline, hF, Atoi_fmtNat w hw63, Atoi_fmtNat h hh63]
  have hP : ¬ (P1 ≠ P1 ∧ P1 ≠ P4) := by decide
  simp only [hP, if_false, Int.toNat_ofNat, if_true, makeGrid_ok w h hw hh]

theorem scanBuf_read_off (file : List Nat) (s : ScanBuf) (h : s.off = file.length) :
    (ScanBuf.read file s).off = file.length := by
  unfold ScanBuf.read
  simp only [h, Nat.sub_self, Nat.min_zero, if_true]

theorem scanBuf_fill_off (file : List Nat) (s : ScanBuf) (h : s.off = file.length) :
    (s.fill file).1.off = file.length := by
  unfold ScanBuf.fill
  simp only
  split <;> split
  · split
    · exact h
    · exact scanBuf_read_off file _ h
  · exact scanBuf_read_off file _ h
  · split
    · exact h
    · exact scanBuf_read_off file _ h
  · exact scanBuf_read_off file _ h

theorem scanBuf_scan_off (file : List Nat) :
    ∀ fuel (s : ScanBuf), s.off = file.length → (s.scan file fuel).1.off = file.length := by
  intro fuel
  induction fuel with
  | zero => intro s h; exact h
  | succ fuel ih =>
    intro s h
    rw [ScanBuf.scan]
    split
    · exact h
    · split
      · exact h
      · have hf := scanBuf_fill_off file s h
        split
        · rename_i s1 heq
          rw [heq] at hf
          exact ih s1 hf
        · rename_i s1 heq
          rw [heq] at hf
          exact hf

theorem scanOffset_at_end (file : List Nat) :
    ∀ k (s : ScanBuf), s.off = file.length → scanOffset file k s = file.length := by
  intro k
  induction k with
  | zero => intro s h; exact h
  | succ k ih =>
    intro s h
    rw [scanOffset]
    exact ih _ (scanBuf_scan_off file _ s h)

/-- The first call of `Scan` reads a file of at most `startBufSize` bytes to
its end, and the offset stays there. -/
theorem scanOffset_small_file (file : List Nat) (hlen : file.length ≤ startBufSize) (k : Nat)
    (hk : 0 < k) : scanOffset file k ⟨0, 0, 0, 0, false⟩ = file.length := by
  obtain ⟨k, rfl⟩ : ∃ j, k = j + 1 := ⟨k - 1, by omega⟩
  rw [scanOffset]
  apply scanOffset_at_end
  show (ScanBuf.scan file (file.length + 1 + 1) ⟨0, 0, 0, 0, false⟩).1.off = file.length
  rw [ScanBuf.scan]
  have hfill : ScanBuf.fill file ⟨0, 0, 0, 0, false⟩ =
      (ScanBuf.read file ⟨startBufSize, 0, 0, 0, false⟩, true) := by
    simp [ScanBuf.fill, maxScanTokenSize, startBufSize]
  simp only [Nat.lt_irrefl, Bool.false_eq_true, or_self, if_false, hfill]
  apply scanBuf_scan_off
  unfold ScanBuf.read
  simp only [Nat.sub_zero, Nat.zero_add]
  by_cases h0 : file.length = 0
  · simp [h0]
  · have : min startBufSize file.length = file.length := Nat.min_eq_right hlen
    simp [this, h0]

theorem readNextLine_P4 (ls : List (List Char)) : readNextLine (P4 :: ls) = .ok (P4, ls) := by
  have := readNextLine_head 'P' ['4'] ls (by decide) (by decide) (by decide) (by decide)
  have ht : TrimSpace ['P', '4'] = P4 := by decide
  rw [ht] at this
  exact this

/-- With no byte left at the offset of the file, the row loop of the P4 branch
ends at the first `file.Read` with `io.EOF`. -/
theorem readP4Rows_at_end (w h : Nat) (d : List (List Bool)) (hw : 0 < w) (hh : 0 < h) :
    readP4Rows w h d [] = .error (.error "EOF") := by
  have hb : bytesPerRow w ≠ 0 := by
    unfold bytesPerRow paddingBits
    omega
  unfold readP4Rows
  rw [forLoop_first_error _ _ (.error "EOF") _ h hh]
  simp [fileRead, hb]

/-- Every P4 file of at most `startBufSize` = 4096 bytes whose header declares
a positive width and height is rejected with `io.EOF`: the first `Scan` has
read the whole file into the buffer of the scanner, and `file.Read` finds
nothing at the offset of the file. -/
theorem readPBMFile_small_p4 (content : List Char) (w h : Nat) (tl : List (List Char))
    (hw0 : 0 < w) (hh0 : 0 < h) (hw : w ≤ maxAlloc) (hh : 24 * h ≤ maxAlloc)
    (hlines : rawLines content = P4 :: (fmtNat w ++ ' ' :: fmtNat h) :: tl)
    (hsmall : (fileBytes content).length ≤ startBufSize) :
    ReadPBMFile content = .error (.error "EOF") := by
  have hw63 : w < 2 ^ 63 := by unfold maxAlloc at hw; omega
  have hh63 : h < 2 ^ 63 := by unfold maxAlloc at hh; omega
  obtain ⟨line, hline, hF⟩ := readNextLine_dims w h hw63 hh63 tl
  have hoff : scanOffset (fileBytes content) ((P4 :: (fmtNat w ++ ' ' :: fmtNat h) :: tl).length
      - tl.length) ⟨0, 0, 0, 0, false⟩ = (fileBytes content).length :=
    scanOffset_small_file _ hsmall _ (by simp only [List.length_cons]; omega)
  unfold ReadPBMFile
  rw [hlines, readNextLine_P4]
  simp only [hline, hF, Atoi_fmtNat w hw63, Atoi_fmtNat h hh63]
  have hP : ¬ (P4 ≠ P1 ∧ P4 ≠ P4) := by decide
  have hP1 : ¬ (P4 = P1) := by decide
  have hpos : (0 : Int) < (w : Int) ∧ (0 : Int) < (h : Int) := by omega
  simp only [hP, hP1, hpos, and_self, if_false, Int.toNat_ofNat, if_true, makeGrid_ok w h hw hh,
    hoff, List.drop_length, readP4Rows_at_end w h _ hw0 hh0]

/-- C2 at the input `p4RowText`, a P4 file of 10 bytes with the header `10 1`
and the payload bytes 0x55 0x40: the two calls of `Scan` for the header leave
the offset of the file at 10, the end of the file, so the first `file.Read`
of the row loop consumes no byte and `ReadPBM` returns `io.EOF`.  Given the
two payload bytes, the same row loop consumes `bytesPerRow 10 = 2` bytes and
decodes the row 0101010101. -/
theorem p4_payload_is_never_read :
    (fileBytes p4RowText).length = 10 ∧
      scanOffset (fileBytes p4RowText) 2 ⟨0, 0, 0, 0, false⟩ = 10 ∧
      ReadPBMFile p4RowText = .error (.error "EOF") ∧
      bytesPerRow 10 = 2 ∧
      readP4Rows 10 1 [List.replicate 10 false] [0x55, 0x40] =
        .ok [[false, true, false, true, false, true, false, true, false, true]] := by
  decide

/-- `ReadPBM` on the file `hugeWidthText` of 27 bytes, whose header declares
the width `2 ^ 62`: `make([]bool, width)` panics. -/
theorem readPBMFile_huge_width_panics :
    hugeWidthText.length = 27 ∧
      ReadPBMFile hugeWidthText = .error (.panic "makeslice: len out of range") := by
  decide

/-- On the text that `Save` writes for a well-formed P1 image that fits the
allocator, the reader on the file agrees with the reader on the text: what is
proved of reading a saved image back holds of `ReadPBMFile` as well. -/
theorem readPBMFile_after_save (pbm : PBM) (unread : List Nat) (hwf : pbm.wellFormed = true)
    (hm : pbm.magicNumber = P1) (hw0 : 0 ≤ pbm.width) (hw : pbm.width ≤ maxAlloc)
    (hh : 24 * pbm.height ≤ maxAlloc) :
    ∃ text, pbm.Save = .ok text ∧ ReadPBMFile text = ReadPBM text unread := by
  obtain ⟨h1, -⟩ := (pbm_wellFormed_iff pbm).mp hwf
  obtain ⟨w, hwe⟩ : ∃ w : Nat, pbm.width = (w : Int) := ⟨pbm.width.toNat, by omega⟩
  obtain ⟨h, hhe⟩ : ∃ h : Nat, pbm.height = (h : Int) := ⟨pbm.height.toNat, by omega⟩
  refine ⟨p1Text w h pbm.data, PBM_Save_p1 pbm w h hwf hm hwe hhe, ?_⟩
  exact readPBMFile_p1 _ unread w h (pbm.data.map rowText) (by omega) (by omega)
    (rawLines_p1Text w h pbm.data)

end Netpbm
